import Mathlib

/-!
# A verification model of the `poly` polymorphic-JSON library

This file gives a shallow embedding, in Lean 4, of the Go package `poly`
(polymorphic JSON serialization support).  The repository contains two
revisions of the package:

* the current revision (`RegisterInterface` without a parser argument,
  walkers taking a `strict` flag) — embedded as `RegisterInterface`,
  `RegisterStruct`, `beforeMarshalJSONValue` / `bmCore` and
  `beforeUnmarshalJSONValue` / `umCore` below;
* an older revision whose `beforeMarshalJSONValue` has no `strict`
  parameter — embedded as `beforeMarshalJSONValueOld` / `bmCoreOld`.

Modelling conventions:

* Go `reflect.Value` trees are the inductive `GoVal`; Go types are
  `GoType`.  Since Go types are nominal, a struct type is identified by
  its (package-qualified) name together with its field list; an
  interface type is identified by its registry key
  (`PkgPath() + "." + Name()` in the source), carried directly in the
  `iface` constructor.
* Discriminant values (`value any` in the source) are restricted to the
  comparable scalars the spec names ("string, number, etc."): `GoPrim`.
  Go's dynamic `!=` on `any` is `GoPrim` equality together with a
  distinguished `none` for Go `nil` and for non-comparable composites.
* Mutation through `reflect` is modelled functionally: each walker
  returns the updated tree together with an `Outcome`.  Addressability
  (`CanSet`) is tracked by a boolean: dereferencing a pointer yields an
  addressable value, extracting the element of an interface does not,
  struct fields inherit addressability, slice elements are always
  addressable.  `reflect` panics (calling `Type` on the zero `Value`,
  setting an unaddressable value, index out of range) are the `crash`
  outcome.  `reflect.Value.Set`'s dynamic assignability check is elided
  except for the primitive-kind check on the discriminant field; every
  instance produced by a registry built through `RegisterStruct`
  satisfies it by construction.
* The walkers recurse into freshly allocated instances, which is not
  structurally decreasing, so both walkers take a fuel parameter; `noFuel`
  is the out-of-fuel outcome.  (Go's version can in fact recurse
  unboundedly on adversarial registries.)
* Go's `append(prefix, seg)` path accumulation is modelled by list
  append; this is equivalent because each appended path is fully
  consumed (joined into a string) before the next sibling is visited.
* `gjson`, the external raw-document path-query service, and the
  external generic JSON encoder/decoder are not part of the repository;
  they are modelled from the spec (see `jGet`, `gjsonValue`, `encode`,
  `decode`).  Path metacharacters of gjson (`#`, wildcards, escapes)
  inside user field tags are out of scope: tags are assumed to be plain
  names, and `#` is interpreted, as in the source's only use, as a
  trailing length query.
-/

namespace PolyModel

/-- The kinds of primitive (scalar) Go values used as discriminants and
struct field contents. -/
inductive PrimKind where
  | kstr
  | kint
  | kfloat
  | kbool
deriving DecidableEq, Repr

/-- A dynamic scalar Go value (`any` holding a comparable scalar). -/
inductive GoPrim where
  | pstr : String → GoPrim
  | pint : Int → GoPrim
  | pfloat : ℚ → GoPrim
  | pbool : Bool → GoPrim
deriving DecidableEq, Repr

/-- The kind (dynamic type tag) of a scalar. -/
def kindOf : GoPrim → PrimKind
  | .pstr _ => .kstr
  | .pint _ => .kint
  | .pfloat _ => .kfloat
  | .pbool _ => .kbool

/-- The zero value of a primitive kind. -/
def zeroPrim : PrimKind → GoPrim
  | .kstr => .pstr ""
  | .kint => .pint 0
  | .kfloat => .pfloat 0
  | .kbool => .pbool false

/-- `reflect.New(reflect.TypeOf(v)).Elem().Interface()`: the zero value
of the dynamic type of a scalar. -/
def zeroOfPrim (v : GoPrim) : GoPrim := zeroPrim (kindOf v)

mutual
/-- A parsed JSON document (the raw bytes handed to the pre-decode pass,
after parsing). -/
inductive JValue where
  | null : JValue
  | jbool : Bool → JValue
  | num : ℚ → JValue
  | str : String → JValue
  | arr : JArr → JValue
  | obj : JObj → JValue
deriving DecidableEq, Repr

/-- A JSON array (spine). -/
inductive JArr where
  | nil : JArr
  | cons : JValue → JArr → JArr
deriving DecidableEq, Repr

/-- A JSON object: an ordered list of key/value pairs. -/
inductive JObj where
  | nil : JObj
  | cons : String → JValue → JObj → JObj
deriving DecidableEq, Repr
end

mutual
/-- A Go type, as far as the walkers inspect it.  `struct_` carries the
struct's name and its field list (Go types are nominal: equal names mean
equal field lists in any one program); `iface` carries the registry key
`PkgPath() + "." + Name()`. -/
inductive GoType where
  | prim : PrimKind → GoType
  | struct_ : String → TFields → GoType
  | slice : GoType → GoType
  | ptr : GoType → GoType
  | iface : String → GoType
deriving DecidableEq, Repr

/-- The declared fields of a struct type: Go field name, raw `json` tag
(`""` when the field carries no tag), and field type, in declaration
order. -/
inductive TFields where
  | nil : TFields
  | cons : String → String → GoType → TFields → TFields
deriving DecidableEq, Repr
end

mutual
/-- A Go value tree.  A nil pointer is `pnil`, a nil interface is
`inil`; `ptr`/`iface` always hold a value. -/
inductive GoVal where
  | prim : GoPrim → GoVal
  | struct_ : String → TFields → Vals → GoVal
  | slice : GoType → Vals → GoVal
  | ptr : GoType → GoVal → GoVal
  | pnil : GoType → GoVal
  | iface : String → GoVal → GoVal
  | inil : String → GoVal
deriving DecidableEq, Repr

/-- A list of Go values (struct fields or slice elements). -/
inductive Vals where
  | nil : Vals
  | cons : GoVal → Vals → Vals
deriving DecidableEq, Repr
end

/-- `reflect.Value.Type` on a valid value. -/
def typeOf : GoVal → GoType
  | .prim p => .prim (kindOf p)
  | .struct_ nm fds _ => .struct_ nm fds
  | .slice t _ => .slice t
  | .ptr t _ => .ptr t
  | .pnil t => .ptr t
  | .iface k _ => .iface k
  | .inil k => .iface k

/-- Number of declared fields (`reflect.Type.NumField`). -/
def TFields.length : TFields → Nat
  | .nil => 0
  | .cons _ _ _ rest => rest.length + 1

/-- The declared type of the field at an index. -/
def TFields.typeAt : TFields → Nat → Option GoType
  | .nil, _ => none
  | .cons _ _ t _, 0 => some t
  | .cons _ _ _ rest, n + 1 => rest.typeAt n

/-- Length of a value list. -/
def Vals.length : Vals → Nat
  | .nil => 0
  | .cons _ rest => rest.length + 1

/-- Indexing into a value list. -/
def Vals.get? : Vals → Nat → Option GoVal
  | .nil, _ => none
  | .cons v _, 0 => some v
  | .cons _ rest, n + 1 => rest.get? n

/-- Functional update of a value list (used for `Field(i).Set`); a no-op
out of bounds (the walkers check the bound first). -/
def Vals.set : Vals → Nat → GoVal → Vals
  | .nil, _, _ => .nil
  | .cons _ rest, 0, w => .cons w rest
  | .cons v rest, n + 1, w => .cons v (rest.set n w)

/-- `n` copies of a value (`reflect.MakeSlice` filling). -/
def valsReplicate : Nat → GoVal → Vals
  | 0, _ => .nil
  | n + 1, z => .cons z (valsReplicate n z)

mutual
/-- The zero value of a Go type (`reflect.New(t).Elem()`).  The zero
slice is modelled as the empty slice (Go's is nil; the two are
indistinguishable to the walkers and to length queries). -/
def zeroVal : GoType → GoVal
  | .prim k => .prim (zeroPrim k)
  | .struct_ nm fds => .struct_ nm fds (zeroFields fds)
  | .slice t => .slice t .nil
  | .ptr t => .pnil t
  | .iface k => .inil k

/-- Zero values of a field list. -/
def zeroFields : TFields → Vals
  | .nil => .nil
  | .cons _ _ t rest => .cons (zeroVal t) (zeroFields rest)
end

/-- Characters before the first comma. -/
def takeUntilComma : List Char → List Char
  | [] => []
  | c :: cs => if c == ',' then [] else c :: takeUntilComma cs

/-- The first comma-separated component of a `json` struct tag
(`strings.Split(jsonTag, ",")[0]` in the source). -/
def jsonFieldName (tag : String) : String := ⟨takeUntilComma tag.data⟩

/-! ## The Registry -/

/-- Registration information for one interface type (`polyType` in the
source): the interface's reflected type, its discriminant field name,
and four parallel lists, one entry per registered implementation.  A
creator closure `func() any { return reflect.New(structType).Interface() }`
is determined by the struct type it allocates, so `structCreators`
stores that type. -/
structure polyType where
  fieldType : GoType
  discriminantFieldName : String
  structValues : List GoPrim
  structCreators : List GoType
  structTypes : List GoType
  structFieldPos : List Nat
deriving DecidableEq, Repr

/-- The registry (`Poly` in the source): a map from interface key to
`polyType`, modelled as an association list with unique keys. -/
structure Poly where
  types : List (String × polyType)
deriving DecidableEq, Repr

/-- Map lookup `p.types[key]`. -/
def Poly.lookupType (p : Poly) (k : String) : Option polyType :=
  p.types.lookup k

/-- Replace the entry at a key (the source mutates the `*polyType`
through the map in place). -/
def updateTypes : List (String × polyType) → String → polyType →
    List (String × polyType)
  | [], _, _ => []
  | (k', e) :: rest, k, ne =>
    if k' == k then (k', ne) :: rest else (k', e) :: updateTypes rest k ne

/-- `Poly.iFaceType`: validate a marker value (modelled by its dynamic
type) as a pointer to an interface and return the interface's key. -/
def iFaceTypeOf (marker : GoType) : Except String String :=
  match marker with
  | .ptr inner =>
    match inner with
    | .iface k => .ok k
    | _ => .error "poly: iFacePtr must be a pointer to interface"
  | _ => .error "poly: iFacePtr must be a pointer"

/-- `Poly.structType`: validate a marker value as a pointer to a struct
and return the struct type. -/
def structTypeOf (marker : GoType) : Except String GoType :=
  match marker with
  | .ptr inner =>
    match inner with
    | .struct_ nm fds => .ok (.struct_ nm fds)
    | _ => .error "poly: struct pointer must be a pointer to a struct"
  | _ => .error "poly: struct pointer must be a pointer"

/-- `Poly.RegisterInterface`: register an interface type, failing if the
marker is not a pointer to an interface or the key is already present.
On success an empty registration is inserted. -/
def RegisterInterface (p : Poly) (marker : GoType) (dName : String) :
    Except String Poly :=
  match iFaceTypeOf marker with
  | .error e => .error e
  | .ok k =>
    match p.lookupType k with
    | some _ => .error "poly: interface already registered"
    | none =>
      .ok ⟨p.types ++ [(k, ⟨.iface k, dName, [], [], [], []⟩)]⟩

/-- The scan in `RegisterStruct` locating the first field whose json tag
names the discriminant field; fields with an empty tag are skipped. -/
def findFieldPos (dName : String) : TFields → Nat → Option Nat
  | .nil, _ => none
  | .cons _ tag _ rest, i =>
    if tag == "" then findFieldPos dName rest (i + 1)
    else if jsonFieldName tag == dName then some i
    else findFieldPos dName rest (i + 1)

/-- `Poly.RegisterStruct`: register a struct implementation for an
interface.  `impls` is the verdict table of the external type-capability
checker (`reflect.PointerTo(structType).Implements(iFaceType)` in the
source): the pairs `(structName, interfaceKey)` for which the pointer to
the struct satisfies the interface. -/
def RegisterStruct (impls : List (String × String)) (p : Poly)
    (iMarker sMarker : GoType) (value : GoPrim) : Except String Poly :=
  match iFaceTypeOf iMarker with
  | .error e => .error e
  | .ok k =>
    match structTypeOf sMarker with
    | .error e => .error e
    | .ok st =>
      match st with
      | .struct_ nm fds =>
        if !(impls.contains (nm, k)) then
          .error "poly: interface type mismatch, struct ptr must implements interface"
        else
          match p.lookupType k with
          | none => .error ("poly: interface type " ++ k ++ " not registered")
          | some entry =>
            match findFieldPos entry.discriminantFieldName fds 0 with
            | none =>
              .error ("poly: interface type " ++ k ++ " not found in struct")
            | some posF =>
              .ok ⟨updateTypes p.types k
                { entry with
                  structValues := entry.structValues ++ [value]
                  structCreators := entry.structCreators ++ [st]
                  structTypes := entry.structTypes ++ [st]
                  structFieldPos := entry.structFieldPos ++ [posF] }⟩
      | _ => .error "poly: struct pointer must be a pointer to a struct"

/-! ## The external path-query service (gjson), modelled from the spec -/

/-- Lookup of a key in a JSON object (first match). -/
def jObjLookup : JObj → String → Option JValue
  | .nil, _ => none
  | .cons k v rest, s => if k == s then some v else jObjLookup rest s

/-- Indexing into a JSON array. -/
def jArrGet : JArr → Nat → Option JValue
  | .nil, _ => none
  | .cons v _, 0 => some v
  | .cons _ rest, n + 1 => jArrGet rest n

/-- Length of a JSON array. -/
def jArrLength : JArr → Nat
  | .nil => 0
  | .cons _ rest => jArrLength rest + 1

/-- Parse a digit run as a natural number (a numeric array-index path
segment). -/
def parseNatAux : List Char → Nat → Option Nat
  | [], acc => some acc
  | c :: cs, acc =>
    if c.isDigit then parseNatAux cs (acc * 10 + (c.toNat - 48)) else none

/-- A path segment made only of digits denotes an array index. -/
def parseNat? (s : String) : Option Nat :=
  match s.data with
  | [] => none
  | cs => parseNatAux cs 0

/-- Modelled from the spec: the external raw-document path-query service
(`gjson.GetBytes`).  A dot-joined path is modelled as its segment list:
object segments select keys, numeric segments index arrays, and a final
`#` segment on an array queries its length.  Returns `none` when no
value exists at the path. -/
def jGet : JValue → List String → Option JValue
  | j, [] => some j
  | j, s :: rest =>
    match j with
    | .obj kvs =>
      (match jObjLookup kvs s with
      | some w => jGet w rest
      | none => none)
    | .arr xs =>
      if s == "#" then
        match rest with
        | [] => some (.num (jArrLength xs : ℚ))
        | _ :: _ => none
      else
        match parseNat? s with
        | some i =>
          (match jArrGet xs i with
          | some w => jGet w rest
          | none => none)
        | none => none
    | _ => none

/-- Modelled from the spec: `gjson.Result.Value()` restricted to the
comparisons the walker performs.  JSON strings, numbers and booleans
become the Go scalars `string`, `float64`, `bool`; `null` becomes Go
`nil` and composites become non-comparable values, both of which compare
unequal to every scalar, so both are `none`. -/
def gjsonValue : JValue → Option GoPrim
  | .str s => some (.pstr s)
  | .num q => some (.pfloat q)
  | .jbool b => some (.pbool b)
  | .null => none
  | .arr _ => none
  | .obj _ => none

/-- Truncation toward zero (Go's `int64(float64)` conversion). -/
def ratTrunc (q : ℚ) : Int := q.num / (q.den : Int)

/-- Modelled from the spec: `gjson.Result.Int()` on the result of a
length query: a number truncates, a missing result is `0`.  (The length
queries issued by the walker only ever see a number or nothing.) -/
def gjsonInt : Option JValue → Int
  | some (.num q) => ratTrunc q
  | _ => 0

mutual
/-- A rendering of a JSON document, standing in for `string(buf)` in
error messages (string escaping is immaterial to the claims). -/
def renderJSON : JValue → String
  | .null => "null"
  | .jbool b => if b then "true" else "false"
  | .num q => toString q.num ++ (if q.den == 1 then "" else "/" ++ toString q.den)
  | .str s => "\"" ++ s ++ "\""
  | .arr xs => "[" ++ renderJArr xs ++ "]"
  | .obj kvs => "\x7b" ++ renderJObj kvs ++ "\x7d"

/-- Render an array body. -/
def renderJArr : JArr → String
  | .nil => ""
  | .cons v .nil => renderJSON v
  | .cons v rest => renderJSON v ++ "," ++ renderJArr rest

/-- Render an object body. -/
def renderJObj : JObj → String
  | .nil => ""
  | .cons k v .nil => "\"" ++ k ++ "\":" ++ renderJSON v
  | .cons k v rest => "\"" ++ k ++ "\":" ++ renderJSON v ++ "," ++ renderJObj rest
end

/-- `strings.Join(segs, ".")`. -/
def pathJoin (segs : List String) : String := String.intercalate "." segs

/-! ## Walker outcomes and runtime messages -/

/-- The result of a traversal: normal return without error, an error
return, a Go runtime panic (`crash`), or fuel exhaustion of the model
(the Go recursion has no such bound). -/
inductive Outcome where
  | ok : Outcome
  | err : String → Outcome
  | crash : String → Outcome
  | noFuel : Outcome
deriving DecidableEq, Repr

/-- Error `poly: interface type %s not registered`. -/
def errNotRegistered (k : String) : String :=
  "poly: interface type " ++ k ++ " not registered"

/-- Error `poly: interface type %s not found in struct` (raised both by
`RegisterStruct` for a missing discriminant tag and by the pre-encode
pass for an unregistered implementation). -/
def errNotFoundInStruct (k : String) : String :=
  "poly: interface type " ++ k ++ " not found in struct"

/-- Decode-time resolution failure, carrying the attempted path and the
raw payload (`fmt.Errorf("poly: cannot resolve interface %s type by
field path %s, raw json %s ", key, fieldPath, string(buf))`). -/
def errCannotResolve (k fieldPath raw : String) : String :=
  "poly: cannot resolve interface " ++ k ++ " type by field path " ++
    fieldPath ++ ", raw json " ++ raw ++ " "

/-- Panic message of `reflect.Value.Type` on the zero `Value` (the
dereferenced element of a nil interface). -/
def crashTypeOnZero : String := "reflect: call of reflect.Value.Type on zero Value"

/-- Panic message of `reflect.Value.Set` on an unaddressable value. -/
def crashUnaddressable : String := "reflect: reflect.Value.Set using unaddressable value"

/-- Panic message for an out-of-range index (slice indexing or
`reflect.Value.Field`). -/
def crashIndexOOB : String := "runtime error: index out of range"

/-- Panic message of `reflect.Value.Field` on a non-struct value. -/
def crashFieldOnNonStruct : String := "reflect: call of reflect.Value.Field on non-struct Value"

/-- Panic message of `reflect.MakeSlice` with negative length. -/
def crashNegativeLen : String := "reflect.MakeSlice: negative len"

/-- Panic message of `reflect.Value.Set` on a dynamic type mismatch.
The model only certifies assignability of a scalar to a field of the
same primitive kind; discriminant fields of non-primitive type are out
of scope. -/
def crashNotAssignable : String := "reflect.Set: value is not assignable to type"

/-- Sequential traversal of a value list, stopping at the first
non-`ok` outcome; values already visited keep their updates (the Go
walkers mutate in place and return on the first error). -/
def walkVals (f : GoVal → GoVal × Outcome) : Vals → Vals × Outcome
  | .nil => (.nil, .ok)
  | .cons v vs =>
    match f v with
    | (v', .ok) =>
      let (vs', o) := walkVals f vs
      (.cons v' vs', o)
    | (v', o) => (.cons v' vs, o)

/-! ## Pre-encode pass (`beforeMarshalJSONValue`), current revision -/

/-- The trailing struct/slice recursion step shared by both passes of
the pre-encode walker: recurse into every field of a struct (inheriting
addressability) or every element of a slice (always addressable); any
other kind is left untouched. -/
def mStep (rec : Bool → GoVal → GoVal × Outcome) (addr : Bool) (v : GoVal) :
    GoVal × Outcome :=
  match v with
  | .struct_ nm fds fs =>
    let (fs', o) := walkVals (rec addr) fs
    (.struct_ nm fds fs', o)
  | .slice t es =>
    let (es', o) := walkVals (rec true) es
    (.slice t es', o)
  | w => (w, .ok)

/-- `val.Field(fieldOffset).Set(reflect.ValueOf(value))`: bounds are
checked by `Field` against the struct type's field count, then `Set`
panics on an unaddressable value, then on a kind mismatch with the
declared field type; otherwise the field is overwritten in place. -/
def setDiscriminant (addr : Bool) (v : GoVal) (fp : Nat) (dv : GoPrim) :
    GoVal × Outcome :=
  match v with
  | .struct_ nm fds fs =>
    if fp < fds.length then
      if addr then
        match fds.typeAt fp with
        | some (.prim k) =>
          if k == kindOf dv then (.struct_ nm fds (fs.set fp (.prim dv)), .ok)
          else (v, .crash crashNotAssignable)
        | _ => (v, .crash crashNotAssignable)
      else (v, .crash crashUnaddressable)
    else (v, .crash crashIndexOOB)
  | _ => (v, .crash crashFieldOnNonStruct)

/-- The linear scan of the pre-encode pass over the registered bindings:
`for pos, sType := range entry.structTypes`, skipping types different
from the held value's type, then writing `structValues[pos]` into field
`structFieldPos[pos]`.  The parallel lists are consumed in lockstep so
that out-of-range access on a match past their end is a panic, as in
Go. -/
def stampScan (k : String) (addr : Bool) (v : GoVal) :
    List GoType → List GoPrim → List Nat → GoVal × Outcome
  | [], _, _ => (v, .err (errNotFoundInStruct k))
  | sType :: ts, dv :: dvs, fp :: fps =>
    if sType == typeOf v then setDiscriminant addr v fp dv
    else stampScan k addr v ts dvs fps
  | sType :: ts, dvs, fps =>
    if sType == typeOf v then (v, .crash crashIndexOOB)
    else stampScan k addr v ts (dvs.drop 1) (fps.drop 1)

/-- One invocation body of `beforeMarshalJSONValue` (current revision)
after the entry pointer dereference, parameterized by the recursive
call `rec` used for struct fields and slice elements.

On an interface node: an unregistered key errors under `strict` and is
skipped silently otherwise; a nil interface element (or a nil pointer
inside it) panics in the binding scan when at least one binding exists
(`val.Type()` on the zero `Value`) and otherwise falls through the empty
scan to the unregistered-implementation error; otherwise the held value
(dereferenced once more if it is a pointer, which restores
addressability) is stamped by `stampScan` and then recursed into. -/
def bmCore (p : Poly) (rec : Bool → GoVal → GoVal × Outcome)
    (addr : Bool) (v : GoVal) (strict : Bool) : GoVal × Outcome :=
  match v with
  | .iface key held =>
    (match p.lookupType key with
    | none =>
      if strict then (GoVal.iface key held, .err (errNotRegistered key))
      else (GoVal.iface key held, .ok)
    | some entry =>
      match held with
      | .pnil t =>
        match entry.structTypes with
        | [] => (GoVal.iface key (.pnil t), .err (errNotFoundInStruct key))
        | _ :: _ => (GoVal.iface key (.pnil t), .crash crashTypeOnZero)
      | .ptr t u =>
        match stampScan key true u entry.structTypes entry.structValues
            entry.structFieldPos with
        | (u', .ok) =>
          let (u'', o) := mStep rec true u'
          (GoVal.iface key (.ptr t u''), o)
        | (u', o) => (GoVal.iface key (.ptr t u'), o)
      | w =>
        match stampScan key false w entry.structTypes entry.structValues
            entry.structFieldPos with
        | (w', .ok) =>
          let (w'', o) := mStep rec false w'
          (GoVal.iface key w'', o)
        | (w', o) => (GoVal.iface key w', o))
  | .inil key =>
    (match p.lookupType key with
    | none =>
      if strict then (GoVal.inil key, .err (errNotRegistered key))
      else (GoVal.inil key, .ok)
    | some entry =>
      match entry.structTypes with
      | [] => (GoVal.inil key, .err (errNotFoundInStruct key))
      | _ :: _ => (GoVal.inil key, .crash crashTypeOnZero))
  | w => mStep rec addr w

/-- `beforeMarshalJSONValue` (current revision): dereference a pointer
once on entry (a nil pointer dereferences to the invalid value, which
falls through every branch), then run `bmCore`.  The fuel bounds the
recursion depth. -/
def beforeMarshalJSONValue (p : Poly) :
    Nat → Bool → GoVal → Bool → GoVal × Outcome
  | 0, _, v, _ => (v, .noFuel)
  | n + 1, addr, v, strict =>
    match v with
    | .ptr t w =>
      let (w', o) :=
        bmCore p (fun a u => beforeMarshalJSONValue p n a u strict) true w strict
      (.ptr t w', o)
    | .pnil t => (.pnil t, .ok)
    | w => bmCore p (fun a u => beforeMarshalJSONValue p n a u strict) addr w strict

/-- `Poly.BeforeMarshalJSON` (current revision): run the walker on the
root value; `reflect.ValueOf(ptr)` itself is not addressable. -/
def BeforeMarshalJSON (p : Poly) (fuel : Nat) (v : GoVal) (strict : Bool) :
    GoVal × Outcome :=
  beforeMarshalJSONValue p fuel false v strict

/-! ## Pre-encode pass, older revision (no `strict` parameter) -/

/-- One invocation body of the older revision's
`beforeMarshalJSONValue`: identical to `bmCore` except that an
unregistered interface is always an error. -/
def bmCoreOld (p : Poly) (rec : Bool → GoVal → GoVal × Outcome)
    (addr : Bool) (v : GoVal) : GoVal × Outcome :=
  match v with
  | .iface key held =>
    (match p.lookupType key with
    | none => (GoVal.iface key held, .err (errNotRegistered key))
    | some entry =>
      match held with
      | .pnil t =>
        match entry.structTypes with
        | [] => (GoVal.iface key (.pnil t), .err (errNotFoundInStruct key))
        | _ :: _ => (GoVal.iface key (.pnil t), .crash crashTypeOnZero)
      | .ptr t u =>
        match stampScan key true u entry.structTypes entry.structValues
            entry.structFieldPos with
        | (u', .ok) =>
          let (u'', o) := mStep rec true u'
          (GoVal.iface key (.ptr t u''), o)
        | (u', o) => (GoVal.iface key (.ptr t u'), o)
      | w =>
        match stampScan key false w entry.structTypes entry.structValues
            entry.structFieldPos with
        | (w', .ok) =>
          let (w'', o) := mStep rec false w'
          (GoVal.iface key w'', o)
        | (w', o) => (GoVal.iface key w', o))
  | .inil key =>
    (match p.lookupType key with
    | none => (GoVal.inil key, .err (errNotRegistered key))
    | some entry =>
      match entry.structTypes with
      | [] => (GoVal.inil key, .err (errNotFoundInStruct key))
      | _ :: _ => (GoVal.inil key, .crash crashTypeOnZero))
  | w => mStep rec addr w

/-- `beforeMarshalJSONValue` of the older revision. -/
def beforeMarshalJSONValueOld (p : Poly) :
    Nat → Bool → GoVal → GoVal × Outcome
  | 0, _, v => (v, .noFuel)
  | n + 1, addr, v =>
    match v with
    | .ptr t w =>
      let (w', o) :=
        bmCoreOld p (fun a u => beforeMarshalJSONValueOld p n a u) true w
      (.ptr t w', o)
    | .pnil t => (.pnil t, .ok)
    | w => bmCoreOld p (fun a u => beforeMarshalJSONValueOld p n a u) addr w

/-- `Poly.BeforeMarshalJSON` of the older revision. -/
def BeforeMarshalJSONOld (p : Poly) (fuel : Nat) (v : GoVal) : GoVal × Outcome :=
  beforeMarshalJSONValueOld p fuel false v

/-! ## Pre-decode pass (`beforeUnmarshalJSONValue`), current revision -/

/-- The discriminant key used by the pre-decode pass at an interface
slot: the value found in the raw document at `prefix.discriminantFieldName`
when that path exists, and otherwise the zero value of the dynamic type
of the *first* registered binding's discriminant value
(`reflect.New(reflect.TypeOf(entry.structValues[0])).Elem().Interface()`).
The outer `none` is the out-of-range panic of `structValues[0]` on a
registration with no implementations. -/
def discriminantKey (entry : polyType) (buf : JValue) (pfx : List String) :
    Option (Option GoPrim) :=
  match jGet buf (pfx ++ [entry.discriminantFieldName]) with
  | some jv => some (gjsonValue jv)
  | none =>
    match entry.structValues.head? with
    | some v0 => some (some (zeroOfPrim v0))
    | none => none

/-- The binding scan of the pre-decode pass: the index of the first
registered binding whose discriminant value equals the key
(`for pos, dVal := range entry.structValues { if iVal != dVal { continue } ... }`). -/
def resolveScan (iVal : Option GoPrim) : List GoPrim → Option Nat
  | [] => none
  | dv :: dvs =>
    if iVal == some dv then some 0
    else (resolveScan iVal dvs).map (fun i => i + 1)

/-- Field iteration of the pre-decode struct step: fields whose json
tag is empty, or whose tag's first component is empty, are skipped; the
rest are visited with the path extended by the tag's first component.
The declared field list drives the iteration (`val.NumField()`). -/
def uFields (rec : List String → Bool → GoVal → GoVal × Outcome)
    (pfx : List String) (addr : Bool) : TFields → Vals → Vals × Outcome
  | _, .nil => (.nil, .ok)
  | .nil, .cons w ws => (.cons w ws, .ok)
  | .cons _ tag _ fds, .cons w ws =>
    if tag == "" then
      let (ws', o) := uFields rec pfx addr fds ws
      (.cons w ws', o)
    else
      let fieldName := jsonFieldName tag
      if fieldName == "" then
        let (ws', o) := uFields rec pfx addr fds ws
        (.cons w ws', o)
      else
        match rec (pfx ++ [fieldName]) addr w with
        | (w', .ok) =>
          let (ws', o) := uFields rec pfx addr fds ws
          (.cons w' ws', o)
        | (w', o) => (.cons w' ws, o)

/-- Element iteration of the pre-decode slice step: element `i` is
visited with the path extended by `strconv.Itoa(i)`; slice elements are
always addressable. -/
def uElems (rec : List String → Bool → GoVal → GoVal × Outcome)
    (pfx : List String) : Nat → Vals → Vals × Outcome
  | _, .nil => (.nil, .ok)
  | i, .cons w ws =>
    match rec (pfx ++ [toString i]) true w with
    | (w', .ok) =>
      let (ws', o) := uElems rec pfx (i + 1) ws
      (.cons w' ws', o)
    | (w', o) => (.cons w' ws, o)

/-- The trailing struct/slice recursion step of the pre-decode pass.  A
struct's tagged fields are visited with extended paths.  A slice is
unconditionally re-sized: the raw document is queried for the array
length at the accumulated path suffixed with `#`, the slice is replaced
by `reflect.MakeSlice` of that length filled with zero values
(`val.Set` requires addressability), and each index is then visited. -/
def uStep (buf : JValue) (rec : List String → Bool → GoVal → GoVal × Outcome)
    (pfx : List String) (addr : Bool) (v : GoVal) : GoVal × Outcome :=
  match v with
  | .struct_ nm fds fs =>
    let (fs', o) := uFields rec pfx addr fds fs
    (.struct_ nm fds fs', o)
  | .slice t _ =>
    let l := gjsonInt (jGet buf (pfx ++ ["#"]))
    if l < 0 then (v, .crash crashNegativeLen)
    else if addr then
      let (es', o) := uElems rec pfx 0 (valsReplicate l.toNat (zeroVal t))
      (.slice t es', o)
    else (v, .crash crashUnaddressable)
  | w => (w, .ok)

/-- Resolution and assignment at a registered interface slot of the
pre-decode pass, given the discriminant key `iVal`: scan the bindings in
registration order; on the first match allocate a fresh instance with
the binding's creator (`reflect.New(structType)`) and assign it into the
slot (`val.Set`, requiring addressability), then recurse into the
freshly allocated pointee (addressable) with the unchanged path; with no
match fail with the resolution error carrying the attempted path and the
raw payload. -/
def assignFromKey (entry : polyType) (key : String) (buf : JValue)
    (step : GoVal → GoVal × Outcome) (pfx : List String) (addr : Bool)
    (v : GoVal) (iVal : Option GoPrim) : GoVal × Outcome :=
  match resolveScan iVal entry.structValues with
  | none =>
    (v, .err (errCannotResolve key
      (pathJoin (pfx ++ [entry.discriminantFieldName])) (renderJSON buf)))
  | some pos =>
    match entry.structCreators.get? pos with
    | none => (v, .crash crashIndexOOB)
    | some ct =>
      if addr then
        let (z', o) := step (zeroVal ct)
        (.iface key (.ptr ct z'), o)
      else (v, .crash crashUnaddressable)

/-- One invocation body of `beforeUnmarshalJSONValue` after the entry
pointer dereference.  On an interface node: an unregistered key errors
under `strict` and is skipped silently otherwise; otherwise the
discriminant key is computed (`discriminantKey`; panic on a registration
with no implementations when the path is absent) and the slot resolved
and assigned (`assignFromKey`).  Any existing content of the slot is
discarded.  Other nodes take the struct/slice step. -/
def umCore (p : Poly) (buf : JValue)
    (rec : List String → Bool → GoVal → GoVal × Outcome)
    (pfx : List String) (addr : Bool) (v : GoVal) (strict : Bool) :
    GoVal × Outcome :=
  match v with
  | .iface key held =>
    (match p.lookupType key with
    | none =>
      if strict then (GoVal.iface key held, .err (errNotRegistered key))
      else (GoVal.iface key held, .ok)
    | some entry =>
      match discriminantKey entry buf pfx with
      | none => (GoVal.iface key held, .crash crashIndexOOB)
      | some iVal =>
        assignFromKey entry key buf (uStep buf rec pfx true) pfx addr
          (GoVal.iface key held) iVal)
  | .inil key =>
    (match p.lookupType key with
    | none =>
      if strict then (GoVal.inil key, .err (errNotRegistered key))
      else (GoVal.inil key, .ok)
    | some entry =>
      match discriminantKey entry buf pfx with
      | none => (GoVal.inil key, .crash crashIndexOOB)
      | some iVal =>
        assignFromKey entry key buf (uStep buf rec pfx true) pfx addr
          (GoVal.inil key) iVal)
  | w => uStep buf rec pfx addr w

/-- `beforeUnmarshalJSONValue` (current revision): dereference a pointer
once on entry (a nil pointer dereferences to the invalid value, which
falls through every branch), then run `umCore`.  The fuel bounds the
recursion depth, which is not bounded by the input value because the
walker recurses into freshly allocated instances. -/
def beforeUnmarshalJSONValue (p : Poly) (buf : JValue) :
    Nat → List String → Bool → GoVal → Bool → GoVal × Outcome
  | 0, _, _, v, _ => (v, .noFuel)
  | n + 1, pfx, addr, v, strict =>
    match v with
    | .ptr t w =>
      let (w', o) :=
        umCore p buf (fun q a u => beforeUnmarshalJSONValue p buf n q a u strict)
          pfx true w strict
      (.ptr t w', o)
    | .pnil t => (.pnil t, .ok)
    | w =>
      umCore p buf (fun q a u => beforeUnmarshalJSONValue p buf n q a u strict)
        pfx addr w strict

/-- `Poly.BeforeUnmarshalJSON` (current revision): run the walker on the
root value with the empty path prefix. -/
def BeforeUnmarshalJSON (p : Poly) (fuel : Nat) (buf : JValue) (v : GoVal)
    (strict : Bool) : GoVal × Outcome :=
  beforeUnmarshalJSONValue p buf fuel [] false v strict

/-- An interface slot holding an optional value (Go's interface values
are nil or hold a concrete value). -/
def mkIface (k : String) : Option GoVal → GoVal
  | some w => .iface k w
  | none => .inil k

/-! ## A concrete scenario (the repository's test types)

`Shape` with discriminant field `"type"`, implementations `Circle`
(discriminant `"circle"`) and `Rect` (`"rect"`), and a `Request` struct
with a single `Shape` field tagged `"shape"`.  Used for witnesses and
counterexamples. -/

/-- The registry key of the test interface. -/
def sKey : String := "poly.Shape"

/-- Fields of `Circle`: `Type string`, `Radius float64`. -/
def circleFds : TFields :=
  .cons "Type" "type" (.prim .kstr) (.cons "Radius" "radius" (.prim .kfloat) .nil)

/-- The `Circle` struct type. -/
def circleT : GoType := .struct_ "poly.Circle" circleFds

/-- Fields of `Rect`. -/
def rectFds : TFields :=
  .cons "Type" "type" (.prim .kstr)
    (.cons "Width" "width" (.prim .kfloat)
      (.cons "Height" "height" (.prim .kfloat) .nil))

/-- The `Rect` struct type. -/
def rectT : GoType := .struct_ "poly.Rect" rectFds

/-- Fields of `Request`. -/
def requestFds : TFields := .cons "Shape" "shape" (.iface sKey) .nil

/-- The `Request` struct type. -/
def requestT : GoType := .struct_ "poly.Request" requestFds

/-- The external capability checker's verdicts for the scenario. -/
def implsTable : List (String × String) :=
  [("poly.Circle", sKey), ("poly.Rect", sKey)]

/-- The registration for `Shape ↦ {Circle ↦ "circle", Rect ↦ "rect"}`
(exactly what `RegisterInterface` followed by two `RegisterStruct` calls
builds). -/
def shapeEntry : polyType :=
  { fieldType := .iface sKey
    discriminantFieldName := "type"
    structValues := [.pstr "circle", .pstr "rect"]
    structCreators := [circleT, rectT]
    structTypes := [circleT, rectT]
    structFieldPos := [0, 0] }

/-- The populated test registry. -/
def testPoly : Poly := ⟨[(sKey, shapeEntry)]⟩

/-- A registration binding the value `"circle"` twice: first to
`Circle`, then to `Rect` (discriminant-value uniqueness is not
validated by `RegisterStruct`). -/
def dupEntry : polyType :=
  { fieldType := .iface sKey
    discriminantFieldName := "type"
    structValues := [.pstr "circle", .pstr "circle"]
    structCreators := [circleT, rectT]
    structTypes := [circleT, rectT]
    structFieldPos := [0, 0] }

/-- The registry holding `dupEntry`. -/
def dupPoly : Poly := ⟨[(sKey, dupEntry)]⟩

/-- A registry whose only interface has no registered implementations. -/
def emptyImplPoly : Poly :=
  ⟨[(sKey, { fieldType := .iface sKey, discriminantFieldName := "type",
             structValues := [], structCreators := [], structTypes := [],
             structFieldPos := [] })]⟩

/-- A `Circle` value with the given discriminant and radius. -/
def circleVal (ty : String) (r : ℚ) : GoVal :=
  .struct_ "poly.Circle" circleFds
    (.cons (.prim (.pstr ty)) (.cons (.prim (.pfloat r)) .nil))

/-- A `Request` (behind a pointer, as handed to the entry points)
holding the given `Shape` slot. -/
def requestPtr (shape : GoVal) : GoVal :=
  .ptr requestT (.struct_ "poly.Request" requestFds (.cons shape .nil))

/-- The document `\x7b"shape":\x7b"radius":10\x7d\x7d` — no
discriminant field at the expected path `shape.type`. -/
def bufNoType : JValue :=
  .obj (.cons "shape" (.obj (.cons "radius" (.num 10) .nil)) .nil)

/-- A caller-pre-sized slice of five strings, behind a pointer. -/
def preSizedSlice : GoVal :=
  .ptr (.slice (.prim .kstr))
    (.slice (.prim .kstr) (valsReplicate 5 (.prim (.pstr "x"))))

/-- The document `["a","b"]`: an array of length two at the root. -/
def bufArr2 : JValue := .arr (.cons (.str "a") (.cons (.str "b") .nil))

/-- A `Request` value (not behind a pointer) holding a `Circle` whose
discriminant field starts out as `"x"`, for the round-trip scenario. -/
def rtReqVal : GoVal :=
  .struct_ "poly.Request" requestFds
    (.cons (.iface sKey (.ptr circleT (circleVal "x" 10))) .nil)

/-- Fields of a `Circle` variant whose discriminant field is an `int`. -/
def circleIntFds : TFields :=
  .cons "Type" "type" (.prim .kint)
    (.cons "Radius" "radius" (.prim .kfloat) .nil)

/-- The int-discriminant struct type. -/
def circleIntT : GoType := .struct_ "poly.CircleI" circleIntFds

/-- A registration binding the `int` value `1` to the int-discriminant
struct (`RegisterStruct` accepts any discriminant value). -/
def intShapeEntry : polyType :=
  ⟨.iface sKey, "type", [.pint 1], [circleIntT], [circleIntT], [0]⟩

/-- The registry holding `intShapeEntry`. -/
def intPoly : Poly := ⟨[(sKey, intShapeEntry)]⟩

/-- An instance of the int-discriminant struct. -/
def circleIntVal : GoVal :=
  .struct_ "poly.CircleI" circleIntFds
    (.cons (.prim (.pint 0)) (.cons (.prim (.pfloat 10)) .nil))

/-- The interface slot holding the int-discriminant instance. -/
def intReqVal : GoVal := .iface sKey (.ptr circleIntT circleIntVal)

/-- The instance after the pre-encode pass stamps the discriminant. -/
def intStamped : GoVal :=
  .iface sKey (.ptr circleIntT
    (.struct_ "poly.CircleI" circleIntFds
      (.cons (.prim (.pint 1)) (.cons (.prim (.pfloat 10)) .nil))))

/-! ## The external generic JSON encoder/decoder, modelled from the spec

The spec treats the byte-level serializer as an external collaborator:
the core only prepares values before encoding and resolves concrete
types before decoding.  For the round-trip property the collaborator is
modelled here: a generic structural encoder keyed by json tags (field
name when untagged), and a generic decoder that fills a prepared value
tree from a document, descending through non-nil pointers held in
interfaces (as `encoding/json`'s `indirect` does), leaving fields with
absent keys untouched, treating `null` as nil for pointers, slices and
interfaces and as a no-op for scalars and structs, and re-sizing slices
to the document's array length. -/

/-- The serialized key of a field: the json tag's first component, or
the Go field name when the tag is empty. -/
def encKey (fname tag : String) : String :=
  let h := jsonFieldName tag
  if h == "" then fname else h

mutual
/-- Modelled from the spec: the external generic JSON encoder. -/
def encode : GoVal → JValue
  | .prim (.pstr s) => .str s
  | .prim (.pint i) => .num (i : ℚ)
  | .prim (.pfloat q) => .num q
  | .prim (.pbool b) => .jbool b
  | .struct_ _ fds fs => .obj (encodeFields fds fs)
  | .slice _ es => .arr (encodeElems es)
  | .ptr _ w => encode w
  | .pnil _ => .null
  | .iface _ w => encode w
  | .inil _ => .null

/-- Encode a struct's fields as object members in declaration order. -/
def encodeFields : TFields → Vals → JObj
  | .nil, _ => .nil
  | .cons _ _ _ _, .nil => .nil
  | .cons fname tag _ fds, .cons w ws =>
    .cons (encKey fname tag) (encode w) (encodeFields fds ws)

/-- Encode slice elements. -/
def encodeElems : Vals → JArr
  | .nil => .nil
  | .cons w ws => .cons (encode w) (encodeElems ws)
end

/-- The serialized bytes of the stamped int-discriminant instance. -/
def intBuf : JValue := encode intStamped

/-- Decode a struct's fields from an object: a field whose key is
absent keeps its value; unknown keys are ignored.  Generic in the
element decoder. -/
def decodeFieldsWith (dec : GoVal → JValue → Option GoVal) (kvs : JObj) :
    TFields → Vals → Option Vals
  | .nil, ws => some ws
  | .cons _ _ _ _, .nil => some .nil
  | .cons fname tag _ fds, .cons w ws =>
    match jObjLookup kvs (encKey fname tag) with
    | none =>
      (match decodeFieldsWith dec kvs fds ws with
      | none => none
      | some ws' => some (.cons w ws'))
    | some jv =>
      match dec w jv with
      | none => none
      | some w' =>
        match decodeFieldsWith dec kvs fds ws with
        | none => none
        | some ws' => some (.cons w' ws')

/-- Decode slice elements: the result has the array's length, existing
elements are decoded into, missing targets start from the zero
element. -/
def decodeElemsWith (dec : GoVal → JValue → Option GoVal) (z : GoVal) :
    Vals → JArr → Option Vals
  | .nil, .nil => some .nil
  | .cons _ _, .nil => some .nil
  | .nil, .cons j js =>
    (match dec z j with
    | none => none
    | some w' =>
      match decodeElemsWith dec z .nil js with
      | none => none
      | some ws' => some (.cons w' ws'))
  | .cons e es, .cons j js =>
    (match dec e j with
    | none => none
    | some w' =>
      match decodeElemsWith dec z es js with
      | none => none
      | some ws' => some (.cons w' ws'))

/-- Modelled from the spec: the external generic JSON decoder, filling
a prepared value tree from a document.  An interface slot must already
hold a non-nil pointer (the walker's postcondition); otherwise decoding
fails, reflecting that the external decoder "needs concrete
(non-abstract) targets already in place at every former interface
slot". -/
def decode : Nat → GoVal → JValue → Option GoVal
  | 0, _, _ => none
  | n + 1, target, j =>
    match target with
    | .prim p =>
      (match j with
      | .null => some (.prim p)
      | _ =>
        match kindOf p, j with
        | .kstr, .str s => some (.prim (.pstr s))
        | .kint, .num q =>
          if q.den == 1 then some (.prim (.pint q.num)) else none
        | .kfloat, .num q => some (.prim (.pfloat q))
        | .kbool, .jbool b => some (.prim (.pbool b))
        | _, _ => none)
    | .struct_ nm fds fs =>
      (match j with
      | .null => some (.struct_ nm fds fs)
      | .obj kvs =>
        (match decodeFieldsWith (decode n) kvs fds fs with
        | none => none
        | some fs' => some (.struct_ nm fds fs'))
      | _ => none)
    | .slice t es =>
      (match j with
      | .null => some (.slice t .nil)
      | .arr js =>
        (match decodeElemsWith (decode n) (zeroVal t) es js with
        | none => none
        | some es' => some (.slice t es'))
      | _ => none)
    | .ptr t w =>
      (match j with
      | .null => some (.pnil t)
      | _ =>
        match decode n w j with
        | none => none
        | some w' => some (.ptr t w'))
    | .pnil t =>
      (match j with
      | .null => some (.pnil t)
      | _ =>
        match decode n (zeroVal t) j with
        | none => none
        | some w' => some (.ptr t w'))
    | .iface k w =>
      (match j with
      | .null => some (.inil k)
      | _ =>
        match w with
        | .ptr ct u =>
          (match decode n u j with
          | none => none
          | some u' => some (.iface k (.ptr ct u')))
        | _ => none)
    | .inil k =>
      (match j with
      | .null => some (.inil k)
      | _ => none)

/-! ## The pre-encode pass as a pure stamping function -/

/-- The first binding whose registered type equals the given type,
returning its discriminant value and field position (defined exactly
when `stampScan` would write). -/
def firstMatch (t : GoType) :
    List GoType → List GoPrim → List Nat → Option (GoPrim × Nat)
  | st :: ts, dv :: dvs, fp :: fps =>
    if st == t then some (dv, fp) else firstMatch t ts dvs fps
  | _, _, _ => none

/-- Overwrite a struct's field with a scalar (the discriminant
write). -/
def setPrimField : GoVal → Nat → GoPrim → GoVal
  | .struct_ nm fds fs, fp, dv => .struct_ nm fds (fs.set fp (.prim dv))
  | v, _, _ => v

/-- The discriminant write performed at a registered interface slot for
the held instance, as a pure function. -/
def writeDisc (p : Poly) (k : String) (u : GoVal) : GoVal :=
  match p.lookupType k with
  | none => u
  | some entry =>
    match firstMatch (typeOf u) entry.structTypes entry.structValues
        entry.structFieldPos with
    | some (dv, fp) => setPrimField u fp dv
    | none => u

mutual
/-- The tree produced by a successful pre-encode pass: every registered
interface slot's held instance gets its discriminant field stamped; all
other nodes are unchanged.  (The write commutes with the recursion into
the instance's other fields because it only replaces a scalar field.) -/
def stampF (p : Poly) : GoVal → GoVal
  | .prim q => .prim q
  | .struct_ nm fds fs => .struct_ nm fds (stampFs p fs)
  | .slice t es => .slice t (stampEs p es)
  | .ptr t w => .ptr t (stampF p w)
  | .pnil t => .pnil t
  | .iface k (.ptr t u) => .iface k (.ptr t (writeDisc p k (stampF p u)))
  | .iface k w => .iface k w
  | .inil k => .inil k

/-- Stamp struct fields. -/
def stampFs (p : Poly) : Vals → Vals
  | .nil => .nil
  | .cons w ws => .cons (stampF p w) (stampFs p ws)

/-- Stamp slice elements. -/
def stampEs (p : Poly) : Vals → Vals
  | .nil => .nil
  | .cons w ws => .cons (stampF p w) (stampEs p ws)
end

/-! ## Well-formedness for the round trip -/

/-- A discriminant value whose Go dynamic identity survives the JSON
round trip through `gjson.Result.Value()`: strings, floats and booleans
do; `int`-valued discriminants come back as `float64` and match no
binding. -/
def jsonStable : GoPrim → Bool
  | .pint _ => false
  | _ => true

/-- Neither a pointer nor a nil pointer (the shape restriction on
pointees: a pointer directly inside a pointer breaks the round trip
because `null` collapses the chain). -/
def notPtrShape : GoVal → Bool
  | .ptr _ _ => false
  | .pnil _ => false
  | _ => true

/-- The serialized keys of a field list. -/
def encKeys : TFields → List String
  | .nil => []
  | .cons fname tag _ fds => encKey fname tag :: encKeys fds

/-- No duplicate serialized keys. -/
def nodupKeys : List String → Bool
  | [] => true
  | k :: ks => !(ks.contains k) && nodupKeys ks

/-- The field (name, tag, type) at an index. -/
def TFields.fieldAt : TFields → Nat → Option (String × String × GoType)
  | .nil, _ => none
  | .cons fname tag t _, 0 => some (fname, tag, t)
  | .cons _ _ _ rest, n + 1 => rest.fieldAt n

mutual
/-- Structural well-formedness of an interface-free subtree: values
carry the types they claim, struct fields match the declared field
lists with distinct serialized keys, pointees are not themselves
pointers, and no interface slot occurs. -/
def plainWF : GoVal → Bool
  | .prim _ => true
  | .struct_ _ fds fs => nodupKeys (encKeys fds) && plainFieldsWF fds fs
  | .slice t es => plainElemsWF t es
  | .ptr t w => (typeOf w == t) && notPtrShape w && plainWF w
  | .pnil _ => true
  | .iface _ _ => false
  | .inil _ => false

/-- Fields of a plain struct: one value per declared field, each of the
declared type. -/
def plainFieldsWF : TFields → Vals → Bool
  | .nil, .nil => true
  | .cons _ _ t fds, .cons w ws =>
    (typeOf w == t) && plainWF w && plainFieldsWF fds ws
  | _, _ => false

/-- Elements of a plain slice: each of the element type. -/
def plainElemsWF (t : GoType) : Vals → Bool
  | .nil => true
  | .cons w ws => (typeOf w == t) && plainWF w && plainElemsWF t ws
end

mutual
/-- A decode target conforming to a type: same shape at every node,
struct field counts matching the declared lists, no interface slots.
`decode` restores any encoded plain value into any conforming
target. -/
def conformsT : GoVal → GoType → Bool
  | .prim p, t => typeOf (.prim p) == t
  | .struct_ nm fds fs, t => (GoType.struct_ nm fds == t) && conformsFields fds fs
  | .slice et es, t => (GoType.slice et == t) && conformsElems et es
  | .ptr pt w, t => (GoType.ptr pt == t) && conformsT w pt
  | .pnil pt, t => GoType.ptr pt == t
  | .iface _ _, _ => false
  | .inil _, _ => false

/-- Conforming struct fields. -/
def conformsFields : TFields → Vals → Bool
  | .nil, .nil => true
  | .cons _ _ t fds, .cons w ws => conformsT w t && conformsFields fds ws
  | _, _ => false

/-- Conforming slice elements. -/
def conformsElems (t : GoType) : Vals → Bool
  | .nil => true
  | .cons w ws => conformsT w t && conformsElems t ws
end

mutual
/-- Well-formedness of a value tree for the round trip, with respect to
a registry: every interface slot holds a non-nil pointer to a struct
instance whose type is bound in the registry; the first type-match's
discriminant value is JSON-stable and of the declared kind of the
discriminant field, whose tag names the interface's discriminant field;
the first value-match of that discriminant value allocates the same
struct type; struct fields carry distinct serialized keys, fields the
walker skips (no usable tag) are interface-free, and pointees are
interface-free (a fresh zero tree has nil pointers, beneath which the
walker cannot prepare interface slots). -/
def rtWF (p : Poly) : GoVal → Bool
  | .prim _ => true
  | .struct_ _ fds fs => nodupKeys (encKeys fds) && rtFieldsWF p fds fs
  | .slice t es => rtElemsWF p t es
  | .ptr t w => (typeOf w == t) && notPtrShape w && plainWF w
  | .pnil _ => true
  | .iface k (.ptr ct u) =>
    (match p.lookupType k with
    | none => false
    | some entry =>
      (typeOf u == ct) &&
      (match u with
      | .struct_ nm fds _ =>
        (match firstMatch (GoType.struct_ nm fds) entry.structTypes
            entry.structValues entry.structFieldPos with
        | none => false
        | some (dv, fp) =>
          jsonStable dv &&
          (fds.typeAt fp == some (.prim (kindOf dv))) &&
          (match fds.fieldAt fp with
          | some (_, tag, _) =>
            (jsonFieldName tag == entry.discriminantFieldName) &&
            !(entry.discriminantFieldName == "")
          | none => false) &&
          (match resolveScan (some dv) entry.structValues with
          | none => false
          | some pos =>
            entry.structCreators.get? pos == some (GoType.struct_ nm fds)) &&
          rtWF p u)
      | _ => false))
  | .iface _ _ => false
  | .inil _ => false

/-- Round-trip well-formed struct fields: one value per declared field
of the declared type; fields with a usable tag are recursively
round-trip well-formed, skipped fields are plain (interface-free). -/
def rtFieldsWF (p : Poly) : TFields → Vals → Bool
  | .nil, .nil => true
  | .cons _ tag t fds, .cons w ws =>
    (typeOf w == t) &&
    (if tag == "" then plainWF w
     else if jsonFieldName tag == "" then plainWF w
     else rtWF p w) &&
    rtFieldsWF p fds ws
  | _, _ => false

/-- Round-trip well-formed slice elements. -/
def rtElemsWF (p : Poly) (t : GoType) : Vals → Bool
  | .nil => true
  | .cons w ws => (typeOf w == t) && rtWF p w && rtElemsWF p t ws
end

mutual
/-- The tree left in place of the fresh zero value by a successful
pre-decode pass over the document encoding `stampF p v`: zero
everywhere except that each interface slot holds a freshly allocated,
recursively prepared instance of the bound struct type, and each slice
is sized to the document's length with prepared elements. -/
def prepVal (p : Poly) : GoVal → GoVal
  | .prim q => .prim (zeroOfPrim q)
  | .struct_ nm fds fs => .struct_ nm fds (prepFields p fds fs)
  | .slice t es => .slice t (prepElems p es)
  | .ptr t _ => .pnil t
  | .pnil t => .pnil t
  | .iface k (.ptr _ u) => .iface k (.ptr (typeOf u) (prepVal p u))
  | .iface k _ => .inil k
  | .inil k => .inil k

/-- Prepared struct fields: visited fields are prepared along the
original's field values, skipped fields stay zero. -/
def prepFields (p : Poly) : TFields → Vals → Vals
  | .cons _ tag t fds, .cons w ws =>
    .cons
      (if tag == "" then zeroVal t
       else if jsonFieldName tag == "" then zeroVal t
       else prepVal p w)
      (prepFields p fds ws)
  | _, _ => .nil

/-- Prepared slice elements. -/
def prepElems (p : Poly) : Vals → Vals
  | .nil => .nil
  | .cons w ws => .cons (prepVal p w) (prepElems p ws)
end

/-- Per-field lookups of a struct's keys in an object agree with the
encoded field values (stable under the walker's and decoder's shared
key scheme). -/
def lookupsMatch (kvs : JObj) : TFields → Vals → Bool
  | .nil, _ => true
  | .cons _ _ _ _, .nil => true
  | .cons fname tag _ fds, .cons w ws =>
    (jObjLookup kvs (encKey fname tag) == some (encode w)) &&
      lookupsMatch kvs fds ws

/-- The scalar-for-scalar override of the discriminant field: the
decoder restores the document's scalar into any zero scalar slot of the
same kind, so a field may legitimately decode to a different scalar of
the original's kind. -/
def primOverride : GoVal → GoVal → Bool
  | .prim q, .prim dv => kindOf dv == kindOf q
  | _, _ => false

/-- Relation between a struct's original fields and the field values
recovered by decoding: each recovered field is the stamped original,
except that a scalar field may be overridden by another scalar of its
kind (the discriminant write). -/
def fieldRel (p : Poly) : TFields → Vals → Vals → Bool
  | .nil, .nil, .nil => true
  | .cons _ _ _ fds, .cons w ws, .cons w' ws' =>
    ((w' == stampF p w) || primOverride w w') && fieldRel p fds ws ws'
  | _, _, _ => false

/-- Scalar values (targets the pre-decode pass leaves untouched). -/
def primShape : GoVal → Bool
  | .prim _ => true
  | _ => false

/-! # Theorems -/

/-- The two pre-encode cores agree once the newer one is run strictly. -/
theorem bmCore_old_eq_strict (p : Poly) (rec : Bool → GoVal → GoVal × Outcome)
    (addr : Bool) (v : GoVal) :
    bmCoreOld p rec addr v = bmCore p rec addr v true := by
  cases v with
  | iface key held =>
    cases hp : p.lookupType key with
    | none => simp [bmCore, bmCoreOld, hp]
    | some entry => simp [bmCore, bmCoreOld, hp]
  | inil key =>
    cases hp : p.lookupType key with
    | none => simp [bmCore, bmCoreOld, hp]
    | some entry => simp [bmCore, bmCoreOld, hp]
  | prim q => rfl
  | struct_ nm fds fs => rfl
  | slice t es => rfl
  | ptr t w => rfl
  | pnil t => rfl

/-- The two pre-encode walkers agree for every fuel, addressability and
value once the newer one is run strictly. -/
theorem beforeMarshal_old_eq_strict (p : Poly) :
    ∀ (n : Nat) (addr : Bool) (v : GoVal),
      beforeMarshalJSONValueOld p n addr v =
        beforeMarshalJSONValue p n addr v true := by
  intro n
  induction n with
  | zero => intro addr v; rfl
  | succ n ih =>
    intro addr v
    have hrec : (fun a u => beforeMarshalJSONValueOld p n a u) =
        (fun a u => beforeMarshalJSONValue p n a u true) := by
      funext a u; exact ih a u
    cases v with
    | ptr t w =>
      simp only [beforeMarshalJSONValue, beforeMarshalJSONValueOld, hrec,
        bmCore_old_eq_strict]
    | pnil t => rfl
    | prim q =>
      simp only [beforeMarshalJSONValue, beforeMarshalJSONValueOld, hrec,
        bmCore_old_eq_strict]
    | struct_ nm fds fs =>
      simp only [beforeMarshalJSONValue, beforeMarshalJSONValueOld, hrec,
        bmCore_old_eq_strict]
    | slice t es =>
      simp only [beforeMarshalJSONValue, beforeMarshalJSONValueOld, hrec,
        bmCore_old_eq_strict]
    | iface k held =>
      simp only [beforeMarshalJSONValue, beforeMarshalJSONValueOld, hrec,
        bmCore_old_eq_strict]
    | inil k =>
      simp only [beforeMarshalJSONValue, beforeMarshalJSONValueOld, hrec,
        bmCore_old_eq_strict]

/-- C10: for every input value (and every recursion budget), the older
revision's `BeforeMarshalJSON`, which has no strict parameter, returns
the same outcome and performs the same mutations as the newer revision's
`BeforeMarshalJSON` invoked with `strict = true`. -/
theorem claim10_old_marshal_equals_new_strict (p : Poly) (fuel : Nat) (v : GoVal) :
    BeforeMarshalJSONOld p fuel v = BeforeMarshalJSON p fuel v true :=
  beforeMarshal_old_eq_strict p fuel false v

/-- C4: at an interface slot whose abstract type has no registry entry,
both walkers fail with the unregistered-interface error under
`strict = true`, and under `strict = false` they succeed, leaving the
slot (and everything below it) untouched. -/
theorem claim4_unregistered_strict_vs_lenient (p : Poly) (k : String)
    (held : Option GoVal) (n : Nat) (addr : Bool) (pfx : List String)
    (buf : JValue) (h : p.lookupType k = none) :
    beforeMarshalJSONValue p (n + 1) addr (mkIface k held) true =
      (mkIface k held, .err (errNotRegistered k)) ∧
    beforeMarshalJSONValue p (n + 1) addr (mkIface k held) false =
      (mkIface k held, .ok) ∧
    beforeUnmarshalJSONValue p buf (n + 1) pfx addr (mkIface k held) true =
      (mkIface k held, .err (errNotRegistered k)) ∧
    beforeUnmarshalJSONValue p buf (n + 1) pfx addr (mkIface k held) false =
      (mkIface k held, .ok) := by
  cases held with
  | some w =>
    refine ⟨?_, ?_, ?_, ?_⟩ <;>
      simp [mkIface, beforeMarshalJSONValue, beforeUnmarshalJSONValue,
        bmCore, umCore, h]
  | none =>
    refine ⟨?_, ?_, ?_, ?_⟩ <;>
      simp [mkIface, beforeMarshalJSONValue, beforeUnmarshalJSONValue,
        bmCore, umCore, h]

/-- Witness for C4 at a concrete input: an empty registry, the slot
`Shape` holding nothing. -/
theorem claim4_witness :
    Poly.lookupType ⟨[]⟩ sKey = none ∧
    (beforeMarshalJSONValue ⟨[]⟩ 1 true (mkIface sKey none) true =
      (mkIface sKey none, .err (errNotRegistered sKey)) ∧
    beforeMarshalJSONValue ⟨[]⟩ 1 true (mkIface sKey none) false =
      (mkIface sKey none, .ok) ∧
    beforeUnmarshalJSONValue ⟨[]⟩ bufNoType 1 [] true (mkIface sKey none) true =
      (mkIface sKey none, .err (errNotRegistered sKey)) ∧
    beforeUnmarshalJSONValue ⟨[]⟩ bufNoType 1 [] true (mkIface sKey none) false =
      (mkIface sKey none, .ok)) :=
  ⟨rfl, claim4_unregistered_strict_vs_lenient ⟨[]⟩ sKey none 0 true [] bufNoType rfl⟩

/-- The pre-encode binding scan hits the first binding whose registered
type equals the held value's type and delegates to the discriminant
write. -/
theorem stampScan_found (k : String) (addr : Bool) (u : GoVal) (dv : GoPrim)
    (fp : Nat) :
    ∀ (pos : Nat) (ts : List GoType) (dvs : List GoPrim) (fps : List Nat),
      ts.get? pos = some (typeOf u) →
      (∀ j, j < pos → ∀ stj, ts.get? j = some stj → stj ≠ typeOf u) →
      dvs.get? pos = some dv → fps.get? pos = some fp →
      stampScan k addr u ts dvs fps = setDiscriminant addr u fp dv := by
  intro pos
  induction pos with
  | zero =>
    intro ts dvs fps hpos _ hdv hfp
    cases ts with
    | nil => cases hpos
    | cons s ts' =>
      simp only [List.get?] at hpos
      cases dvs with
      | nil => cases hdv
      | cons d ds =>
        cases fps with
        | nil => cases hfp
        | cons f fs' =>
          simp only [List.get?] at hdv hfp
          cases hpos; cases hdv; cases hfp
          simp [stampScan]
  | succ pos ih =>
    intro ts dvs fps hpos hfirst hdv hfp
    cases ts with
    | nil => cases hpos
    | cons s ts' =>
      have hs : s ≠ typeOf u := hfirst 0 (Nat.succ_pos pos) s rfl
      have hbeq : (s == typeOf u) = false := by
        simp [hs]
      cases dvs with
      | nil => cases hdv
      | cons d ds =>
        cases fps with
        | nil => cases hfp
        | cons f fs' =>
          simp only [List.get?] at hpos hdv hfp
          simp only [stampScan, hbeq, Bool.false_eq_true, if_false]
          exact ih ts' ds fs' hpos
            (fun j hj stj hstj => hfirst (j + 1) (Nat.succ_lt_succ hj) stj hstj)
            hdv hfp

/-- When no registered type equals the held value's type, the
pre-encode binding scan falls through to the
unregistered-implementation error. -/
theorem stampScan_none (k : String) (addr : Bool) (u : GoVal) :
    ∀ (ts : List GoType) (dvs : List GoPrim) (fps : List Nat),
      (∀ st ∈ ts, st ≠ typeOf u) →
      stampScan k addr u ts dvs fps = (u, .err (errNotFoundInStruct k)) := by
  intro ts
  induction ts with
  | nil => intro dvs fps _; rfl
  | cons s ts' ih =>
    intro dvs fps hne
    have hs : (s == typeOf u) = false := by
      simp [hne s (List.mem_cons_self s ts')]
    have htail := ih (dvs.drop 1) (fps.drop 1)
      (fun st hst => hne st (List.mem_cons_of_mem s hst))
    have htail' := ih dvs.tail fps.tail
      (fun st hst => hne st (List.mem_cons_of_mem s hst))
    cases dvs with
    | nil =>
      cases fps with
      | nil =>
        simp only [stampScan, hs, Bool.false_eq_true, if_false]
        exact ih _ _ (fun st hst => hne st (List.mem_cons_of_mem s hst))
      | cons f fs' =>
        simp only [stampScan, hs, Bool.false_eq_true, if_false]
        exact ih _ _ (fun st hst => hne st (List.mem_cons_of_mem s hst))
    | cons d ds =>
      cases fps with
      | nil =>
        simp only [stampScan, hs, Bool.false_eq_true, if_false]
        exact ih _ _ (fun st hst => hne st (List.mem_cons_of_mem s hst))
      | cons f fs' =>
        simp only [stampScan, hs, Bool.false_eq_true, if_false]
        exact ih _ _ (fun st hst => hne st (List.mem_cons_of_mem s hst))

/-- C6: at a registered interface slot of the pre-encode pass, when the
held concrete type matches a binding (first match), the binding's
discriminant value is written in place at the binding's recorded field
position of the concrete instance before recursing into it; when no
binding's concrete type matches, the pass fails with the
unregistered-implementation error regardless of the strict flag. -/
theorem claim6_marshal_stamp_or_unregistered_impl (p : Poly) (k : String)
    (entry : polyType) (t : GoType) (nm : String) (fds : TFields) (fs : Vals)
    (pos fp : Nat) (dv : GoPrim) (n : Nat) (addr : Bool) (strict : Bool)
    (hl : p.lookupType k = some entry)
    (hpos : entry.structTypes.get? pos = some (typeOf (GoVal.struct_ nm fds fs)))
    (hfirst : ∀ j, j < pos → ∀ stj, entry.structTypes.get? j = some stj →
      stj ≠ typeOf (GoVal.struct_ nm fds fs))
    (hdv : entry.structValues.get? pos = some dv)
    (hfp : entry.structFieldPos.get? pos = some fp)
    (hbound : fp < fds.length)
    (hkind : fds.typeAt fp = some (.prim (kindOf dv))) :
    beforeMarshalJSONValue p (n + 1) addr
        (.iface k (.ptr t (.struct_ nm fds fs))) strict =
      (let cont := mStep (fun a u => beforeMarshalJSONValue p n a u strict) true
        (GoVal.struct_ nm fds (fs.set fp (.prim dv)))
       (.iface k (.ptr t cont.1), cont.2)) ∧
    (∀ (w : GoVal) (t' : GoType) (s' : Bool),
      (∀ st ∈ entry.structTypes, st ≠ typeOf w) →
      beforeMarshalJSONValue p (n + 1) addr (.iface k (.ptr t' w)) s' =
        (.iface k (.ptr t' w), .err (errNotFoundInStruct k))) := by
  constructor
  · have hscan := stampScan_found k true (GoVal.struct_ nm fds fs) dv fp pos
      entry.structTypes entry.structValues entry.structFieldPos hpos hfirst hdv hfp
    have hset : setDiscriminant true (GoVal.struct_ nm fds fs) fp dv =
        (GoVal.struct_ nm fds (fs.set fp (.prim dv)), .ok) := by
      simp [setDiscriminant, hbound, hkind]
    simp [beforeMarshalJSONValue, bmCore, hl, hscan, hset]
  · intro w t' s' hne
    have hscan := stampScan_none k true w entry.structTypes entry.structValues
      entry.structFieldPos hne
    simp [beforeMarshalJSONValue, bmCore, hl, hscan]

/-- Witness for C6 at a concrete input: the test registry with a
`Circle` held in the `Shape` slot (stamped to `"circle"`) and a value of
an unregistered struct type (error, under both strict flags). -/
theorem claim6_witness :
    Poly.lookupType testPoly sKey = some shapeEntry ∧
    beforeMarshalJSONValue testPoly 2 true
        (.iface sKey (.ptr circleT (circleVal "" 10))) true =
      (.iface sKey (.ptr circleT (circleVal "circle" 10)), .ok) ∧
    (∀ s' : Bool, beforeMarshalJSONValue testPoly 2 true
        (.iface sKey (.ptr requestT (.struct_ "poly.Request" requestFds
          (.cons (.prim (.pstr "x")) .nil)))) s' =
      (.iface sKey (.ptr requestT (.struct_ "poly.Request" requestFds
          (.cons (.prim (.pstr "x")) .nil))), .err (errNotFoundInStruct sKey))) := by
  have h := claim6_marshal_stamp_or_unregistered_impl testPoly sKey shapeEntry
    circleT "poly.Circle" circleFds
    (.cons (.prim (.pstr "")) (.cons (.prim (.pfloat 10)) .nil)) 0 0
    (.pstr "circle") 1 true true rfl rfl
    (fun j hj _ _ => absurd hj (Nat.not_lt_zero j)) rfl rfl
    (by decide) (by decide)
  refine ⟨rfl, ?_, ?_⟩
  · have h1 := h.1
    simpa [circleVal] using h1
  · intro s'
    exact h.2 (.struct_ "poly.Request" requestFds (.cons (.prim (.pstr "x")) .nil))
      requestT s' (by decide)

/-- Characterization of the pre-decode binding scan: a hit is the first
binding whose discriminant value equals the key — every earlier binding
differs, even if a later binding repeats the same value. -/
theorem resolveScan_spec (iVal : Option GoPrim) :
    ∀ (dvs : List GoPrim) (pos : Nat), resolveScan iVal dvs = some pos →
      (∃ dv, dvs.get? pos = some dv ∧ iVal = some dv) ∧
      (∀ j, j < pos → ∀ d', dvs.get? j = some d' → iVal ≠ some d') := by
  intro dvs
  induction dvs with
  | nil => intro pos h; cases h
  | cons d ds ih =>
    intro pos h
    by_cases hd : iVal = some d
    · have hb : (iVal == some d) = true := by simp [hd]
      rw [resolveScan, hb, if_pos rfl] at h
      cases h
      exact ⟨⟨d, rfl, hd⟩, fun j hj => absurd hj (Nat.not_lt_zero j)⟩
    · have hb : (iVal == some d) = false := by simp [hd]
      rw [resolveScan, hb] at h
      simp only [Bool.false_eq_true, if_false, Option.map_eq_some'] at h
      obtain ⟨pos', hpos', rfl⟩ := h
      obtain ⟨⟨dv, hget, hval⟩, hfirst⟩ := ih pos' hpos'
      refine ⟨⟨dv, hget, hval⟩, ?_⟩
      intro j hj d' hget'
      cases j with
      | zero => simp only [List.get?] at hget'; cases hget'; exact hd
      | succ j' =>
        simp only [List.get?] at hget'
        exact hfirst j' (Nat.lt_of_succ_lt_succ hj) d' hget'

/-- C5: at a registered interface slot of the pre-decode pass the
bindings are scanned in registration order for an exact match against
the discriminant key; on the first match (even when a later binding
carries the same value) a fresh zero instance of that binding's concrete
type is allocated by its factory and assigned into the slot, and the
walk continues inside it; when no binding matches, the pass fails with
the resolution error built from the attempted path and the raw
payload. -/
theorem claim5_decode_resolution (p : Poly) (k : String) (entry : polyType)
    (held : Option GoVal) (n : Nat) (pfx : List String) (buf : JValue)
    (strict : Bool) (iVal : Option GoPrim)
    (hl : p.lookupType k = some entry)
    (hkey : discriminantKey entry buf pfx = some iVal) :
    (∀ pos, resolveScan iVal entry.structValues = some pos →
      ((∃ dv, entry.structValues.get? pos = some dv ∧ iVal = some dv) ∧
       (∀ j, j < pos → ∀ d', entry.structValues.get? j = some d' →
         iVal ≠ some d')) ∧
      (∀ ct, entry.structCreators[pos]? = some ct →
        beforeUnmarshalJSONValue p buf (n + 1) pfx true (mkIface k held) strict =
          (let step := uStep buf
            (fun q a u => beforeUnmarshalJSONValue p buf n q a u strict) pfx true
            (zeroVal ct)
           (.iface k (.ptr ct step.1), step.2)))) ∧
    (resolveScan iVal entry.structValues = none →
      ∀ addr, beforeUnmarshalJSONValue p buf (n + 1) pfx addr (mkIface k held) strict =
        (mkIface k held, .err (errCannotResolve k
          (pathJoin (pfx ++ [entry.discriminantFieldName])) (renderJSON buf)))) := by
  constructor
  · intro pos hres
    refine ⟨resolveScan_spec iVal entry.structValues pos hres, ?_⟩
    intro ct hct
    cases held with
    | some w =>
      simp [mkIface, beforeUnmarshalJSONValue, umCore, hl, hkey, assignFromKey,
        hres, hct]
    | none =>
      simp [mkIface, beforeUnmarshalJSONValue, umCore, hl, hkey, assignFromKey,
        hres, hct]
  · intro hres addr
    cases held with
    | some w =>
      simp [mkIface, beforeUnmarshalJSONValue, umCore, hl, hkey, assignFromKey,
        hres]
    | none =>
      simp [mkIface, beforeUnmarshalJSONValue, umCore, hl, hkey, assignFromKey,
        hres]

/-- Witness for C5 at a concrete input: a registry in which the value
`"circle"` is bound twice (first to `Circle`, then to `Rect`); the
document selects `"circle"`, the first binding (`Circle`) wins, and an
unmatched document fails with the resolution error. -/
theorem claim5_witness :
    Poly.lookupType dupPoly sKey = some dupEntry ∧
    beforeUnmarshalJSONValue dupPoly
        (.obj (.cons "type" (.str "circle") .nil)) 2 [] true (mkIface sKey none)
        true =
      (.iface sKey (.ptr circleT (zeroVal circleT)), .ok) ∧
    beforeUnmarshalJSONValue dupPoly
        (.obj (.cons "type" (.str "other") .nil)) 2 [] true (mkIface sKey none)
        true =
      (mkIface sKey none, .err (errCannotResolve sKey "type"
        (renderJSON (.obj (.cons "type" (.str "other") .nil))))) := by
  refine ⟨rfl, ?_, ?_⟩
  · have h := (claim5_decode_resolution dupPoly sKey dupEntry none 1 []
      (.obj (.cons "type" (.str "circle") .nil)) true
      (some (.pstr "circle")) rfl rfl).1 0 rfl
    have h2 := h.2 circleT rfl
    exact h2.trans (by decide)
  · have h := (claim5_decode_resolution dupPoly sKey dupEntry none 1 []
      (.obj (.cons "type" (.str "other") .nil)) true
      (some (.pstr "other")) rfl rfl).2 rfl true
    exact h.trans (by decide)

/-- C9: at a slot of a registered interface that has no registered
implementations, when the discriminant path is absent from the raw
document, the pre-decode pass panics (out-of-bounds access to the first
binding's value) instead of returning an error. -/
theorem claim9_empty_bindings_absent_panics (p : Poly) (k : String)
    (entry : polyType) (held : Option GoVal) (n : Nat) (pfx : List String)
    (buf : JValue) (addr : Bool) (strict : Bool)
    (hl : p.lookupType k = some entry)
    (hvals : entry.structValues = [])
    (habs : jGet buf (pfx ++ [entry.discriminantFieldName]) = none) :
    beforeUnmarshalJSONValue p buf (n + 1) pfx addr (mkIface k held) strict =
      (mkIface k held, .crash crashIndexOOB) := by
  cases held with
  | some w =>
    simp [mkIface, beforeUnmarshalJSONValue, umCore, hl, discriminantKey, habs,
      hvals]
  | none =>
    simp [mkIface, beforeUnmarshalJSONValue, umCore, hl, discriminantKey, habs,
      hvals]

/-- Witness for C9 at a concrete input: an interface registered without
implementations and a document missing the discriminant path. -/
theorem claim9_witness :
    (Poly.lookupType emptyImplPoly sKey =
      some { fieldType := .iface sKey, discriminantFieldName := "type",
             structValues := [], structCreators := [], structTypes := [],
             structFieldPos := [] }) ∧
    beforeUnmarshalJSONValue emptyImplPoly bufNoType 1 ["shape"] true
        (mkIface sKey none) true =
      (mkIface sKey none, .crash crashIndexOOB) :=
  ⟨rfl, claim9_empty_bindings_absent_panics emptyImplPoly sKey _ none 0 ["shape"]
    bufNoType true true rfl rfl rfl⟩

/-- C1 (counterexample): with `Circle ↦ "circle"` registered first and
the discriminant path absent, the pre-decode pass does *not* instantiate
the first-registered implementation; it fails with the resolution error,
because the key it falls back to is the zero value `""` of the first
binding's value type, which matches no binding. -/
theorem claim1_counterexample :
    BeforeUnmarshalJSON testPoly 3 bufNoType (requestPtr (mkIface sKey none))
        true =
      (requestPtr (mkIface sKey none),
        .err (errCannotResolve sKey "shape.type" (renderJSON bufNoType))) := by
  decide

/-- C1 (amended): when the discriminant path is absent, the pre-decode
pass uses the zero value of the dynamic type of the first-registered
binding's discriminant value as the discriminant key — so the
first-registered implementation is chosen only when some binding's value
equals that zero value, not unconditionally. -/
theorem claim1_amended_absent_uses_zero_of_first (p : Poly) (k : String)
    (entry : polyType) (held : Option GoVal) (n : Nat) (pfx : List String)
    (buf : JValue) (addr : Bool) (strict : Bool) (v0 : GoPrim)
    (hl : p.lookupType k = some entry)
    (habs : jGet buf (pfx ++ [entry.discriminantFieldName]) = none)
    (hv0 : entry.structValues.head? = some v0) :
    beforeUnmarshalJSONValue p buf (n + 1) pfx addr (mkIface k held) strict =
      assignFromKey entry k buf
        (uStep buf (fun q a u => beforeUnmarshalJSONValue p buf n q a u strict)
          pfx true)
        pfx addr (mkIface k held) (some (zeroOfPrim v0)) := by
  cases held with
  | some w =>
    simp [mkIface, beforeUnmarshalJSONValue, umCore, hl, discriminantKey, habs,
      hv0]
  | none =>
    simp [mkIface, beforeUnmarshalJSONValue, umCore, hl, discriminantKey, habs,
      hv0]

/-- Witness for the amended C1 at a concrete input: the zero value of
`"circle"`'s type is `""`, no binding carries `""`, so the resolution
error results; with a first binding carrying `""` (the repository's
`TestDefaultValue`), the first implementation is selected. -/
theorem claim1_amended_witness :
    Poly.lookupType testPoly sKey = some shapeEntry ∧
    jGet bufNoType (["shape"] ++ ["type"]) = none ∧
    beforeUnmarshalJSONValue testPoly bufNoType 2 ["shape"] true
        (mkIface sKey none) true =
      assignFromKey shapeEntry sKey bufNoType
        (uStep bufNoType
          (fun q a u => beforeUnmarshalJSONValue testPoly bufNoType 1 q a u true)
          ["shape"] true)
        ["shape"] true (mkIface sKey none) (some (zeroOfPrim (.pstr "circle"))) :=
  ⟨rfl, rfl, claim1_amended_absent_uses_zero_of_first testPoly sKey shapeEntry
    none 1 ["shape"] bufNoType true true (.pstr "circle") rfl rfl rfl⟩

/-- `reflect.Value.Set` on the discriminant field succeeds only on an
addressable struct value. -/
theorem setDiscriminant_ok (addr : Bool) (v v' : GoVal) (fp : Nat) (dv : GoPrim)
    (h : setDiscriminant addr v fp dv = (v', .ok)) :
    addr = true ∧ ∃ nm fds fs, v = .struct_ nm fds fs := by
  cases v with
  | struct_ nm fds fs =>
    refine ⟨?_, nm, fds, fs, rfl⟩
    by_cases hb : fp < fds.length
    · cases addr with
      | true => rfl
      | false => simp [setDiscriminant, hb] at h
    · simp [setDiscriminant, hb] at h
  | prim q => simp [setDiscriminant] at h
  | slice t es => simp [setDiscriminant] at h
  | ptr t w => simp [setDiscriminant] at h
  | pnil t => simp [setDiscriminant] at h
  | iface k w => simp [setDiscriminant] at h
  | inil k => simp [setDiscriminant] at h

/-- The pre-encode binding scan returns `ok` only after a successful
discriminant write: the scanned value is an addressable struct. -/
theorem stampScan_ok (k : String) (addr : Bool) (v : GoVal) :
    ∀ (ts : List GoType) (dvs : List GoPrim) (fps : List Nat) (v' : GoVal),
      stampScan k addr v ts dvs fps = (v', .ok) →
      addr = true ∧ ∃ nm fds fs, v = .struct_ nm fds fs := by
  intro ts
  induction ts with
  | nil =>
    intro dvs fps v' h
    exact absurd (congrArg Prod.snd h) (by simp [stampScan])
  | cons s ts' ih =>
    intro dvs fps v' h
    cases dvs with
    | nil =>
      cases fps with
      | nil =>
        simp only [stampScan] at h
        split at h
        · exact Outcome.noConfusion (congrArg Prod.snd h)
        · exact ih _ _ _ h
      | cons f fs' =>
        simp only [stampScan] at h
        split at h
        · exact Outcome.noConfusion (congrArg Prod.snd h)
        · exact ih _ _ _ h
    | cons d ds =>
      cases fps with
      | nil =>
        simp only [stampScan] at h
        split at h
        · exact Outcome.noConfusion (congrArg Prod.snd h)
        · exact ih _ _ _ h
      | cons f fs' =>
        rw [stampScan] at h
        split at h
        · exact setDiscriminant_ok addr v v' _ _ h
        · exact ih _ _ _ h

/-- C8 (amended): the pre-encode pass panics at a registered interface
slot that holds nil (either the nil interface or a nil pointer) whenever
at least one implementation is registered (with none registered it
returns the unregistered-implementation error instead), panics on a
by-value struct whose type matches a binding (the discriminant write
needs an addressable instance), and returns `ok` from such a slot only
when the slot held a non-nil pointer to a struct. -/
theorem claim8_amended_nil_or_value_panics (p : Poly) (k : String)
    (entry : polyType) (n : Nat) (addr : Bool) (strict : Bool)
    (hl : p.lookupType k = some entry) :
    (entry.structTypes ≠ [] →
      beforeMarshalJSONValue p (n + 1) addr (.inil k) strict =
        (.inil k, .crash crashTypeOnZero) ∧
      ∀ t : GoType, beforeMarshalJSONValue p (n + 1) addr (.iface k (.pnil t)) strict =
        (.iface k (.pnil t), .crash crashTypeOnZero)) ∧
    (entry.structTypes = [] →
      beforeMarshalJSONValue p (n + 1) addr (.inil k) strict =
        (.inil k, .err (errNotFoundInStruct k))) ∧
    (∀ (nm : String) (fds : TFields) (fs : Vals) (pos fp : Nat) (dv : GoPrim),
      entry.structTypes.get? pos = some (typeOf (GoVal.struct_ nm fds fs)) →
      (∀ j, j < pos → ∀ stj, entry.structTypes.get? j = some stj →
        stj ≠ typeOf (GoVal.struct_ nm fds fs)) →
      entry.structValues.get? pos = some dv →
      entry.structFieldPos.get? pos = some fp →
      fp < fds.length →
      beforeMarshalJSONValue p (n + 1) addr
          (.iface k (.struct_ nm fds fs)) strict =
        (.iface k (.struct_ nm fds fs), .crash crashUnaddressable)) ∧
    (∀ (held : Option GoVal) (v' : GoVal),
      beforeMarshalJSONValue p (n + 1) addr (mkIface k held) strict = (v', .ok) →
      ∃ t nm fds fs, held = some (.ptr t (.struct_ nm fds fs))) := by
  refine ⟨?_, ?_, ?_, ?_⟩
  · intro hne
    constructor
    · cases hts : entry.structTypes with
      | nil => exact absurd hts hne
      | cons s ts' => simp [beforeMarshalJSONValue, bmCore, hl, hts]
    · intro t
      cases hts : entry.structTypes with
      | nil => exact absurd hts hne
      | cons s ts' => simp [beforeMarshalJSONValue, bmCore, hl, hts]
  · intro hts
    simp [beforeMarshalJSONValue, bmCore, hl, hts]
  · intro nm fds fs pos fp dv hpos hfirst hdv hfp hbound
    have hscan := stampScan_found k false (GoVal.struct_ nm fds fs) dv fp pos
      entry.structTypes entry.structValues entry.structFieldPos hpos hfirst hdv hfp
    have hset : setDiscriminant false (GoVal.struct_ nm fds fs) fp dv =
        (GoVal.struct_ nm fds fs, .crash crashUnaddressable) := by
      simp [setDiscriminant, hbound]
    simp [beforeMarshalJSONValue, bmCore, hl, hscan, hset]
  · intro held v' h
    cases held with
    | none =>
      exfalso
      cases hts : entry.structTypes with
      | nil => simp [mkIface, beforeMarshalJSONValue, bmCore, hl, hts] at h
      | cons s ts' => simp [mkIface, beforeMarshalJSONValue, bmCore, hl, hts] at h
    | some w =>
      cases w with
      | ptr t u =>
        refine ⟨t, ?_⟩
        cases hscan : stampScan k true u entry.structTypes entry.structValues
          entry.structFieldPos with
        | mk u' o =>
          cases o with
          | ok =>
            obtain ⟨-, nm, fds, fs, rfl⟩ :=
              stampScan_ok k true u entry.structTypes entry.structValues
                entry.structFieldPos u' hscan
            exact ⟨nm, fds, fs, rfl⟩
          | err m =>
            exfalso
            simp [mkIface, beforeMarshalJSONValue, bmCore, hl, hscan] at h
          | crash m =>
            exfalso
            simp [mkIface, beforeMarshalJSONValue, bmCore, hl, hscan] at h
          | noFuel =>
            exfalso
            simp [mkIface, beforeMarshalJSONValue, bmCore, hl, hscan] at h
      | pnil t =>
        exfalso
        cases hts : entry.structTypes with
        | nil => simp [mkIface, beforeMarshalJSONValue, bmCore, hl, hts] at h
        | cons s ts' => simp [mkIface, beforeMarshalJSONValue, bmCore, hl, hts] at h
      | prim q =>
        exfalso
        cases hscan : stampScan k false (.prim q) entry.structTypes
          entry.structValues entry.structFieldPos with
        | mk u' o =>
          cases o with
          | ok =>
            obtain ⟨haddr, -⟩ := stampScan_ok k false (.prim q) entry.structTypes
              entry.structValues entry.structFieldPos u' hscan
            cases haddr
          | err m => simp [mkIface, beforeMarshalJSONValue, bmCore, hl, hscan] at h
          | crash m => simp [mkIface, beforeMarshalJSONValue, bmCore, hl, hscan] at h
          | noFuel => simp [mkIface, beforeMarshalJSONValue, bmCore, hl, hscan] at h
      | struct_ nm fds fs =>
        exfalso
        cases hscan : stampScan k false (.struct_ nm fds fs) entry.structTypes
          entry.structValues entry.structFieldPos with
        | mk u' o =>
          cases o with
          | ok =>
            obtain ⟨haddr, -⟩ := stampScan_ok k false (.struct_ nm fds fs)
              entry.structTypes entry.structValues entry.structFieldPos u' hscan
            cases haddr
          | err m => simp [mkIface, beforeMarshalJSONValue, bmCore, hl, hscan] at h
          | crash m => simp [mkIface, beforeMarshalJSONValue, bmCore, hl, hscan] at h
          | noFuel => simp [mkIface, beforeMarshalJSONValue, bmCore, hl, hscan] at h
      | slice t es =>
        exfalso
        cases hscan : stampScan k false (.slice t es) entry.structTypes
          entry.structValues entry.structFieldPos with
        | mk u' o =>
          cases o with
          | ok =>
            obtain ⟨haddr, -⟩ := stampScan_ok k false (.slice t es)
              entry.structTypes entry.structValues entry.structFieldPos u' hscan
            cases haddr
          | err m => simp [mkIface, beforeMarshalJSONValue, bmCore, hl, hscan] at h
          | crash m => simp [mkIface, beforeMarshalJSONValue, bmCore, hl, hscan] at h
          | noFuel => simp [mkIface, beforeMarshalJSONValue, bmCore, hl, hscan] at h
      | iface k' w' =>
        exfalso
        cases hscan : stampScan k false (.iface k' w') entry.structTypes
          entry.structValues entry.structFieldPos with
        | mk u' o =>
          cases o with
          | ok =>
            obtain ⟨haddr, -⟩ := stampScan_ok k false (.iface k' w')
              entry.structTypes entry.structValues entry.structFieldPos u' hscan
            cases haddr
          | err m => simp [mkIface, beforeMarshalJSONValue, bmCore, hl, hscan] at h
          | crash m => simp [mkIface, beforeMarshalJSONValue, bmCore, hl, hscan] at h
          | noFuel => simp [mkIface, beforeMarshalJSONValue, bmCore, hl, hscan] at h
      | inil k' =>
        exfalso
        cases hscan : stampScan k false (.inil k') entry.structTypes
          entry.structValues entry.structFieldPos with
        | mk u' o =>
          cases o with
          | ok =>
            obtain ⟨haddr, -⟩ := stampScan_ok k false (.inil k')
              entry.structTypes entry.structValues entry.structFieldPos u' hscan
            cases haddr
          | err m => simp [mkIface, beforeMarshalJSONValue, bmCore, hl, hscan] at h
          | crash m => simp [mkIface, beforeMarshalJSONValue, bmCore, hl, hscan] at h
          | noFuel => simp [mkIface, beforeMarshalJSONValue, bmCore, hl, hscan] at h

/-- C8 (counterexample to the claim as stated): a registered interface
slot holding nil does *not* always panic — with no registered
implementations the pass returns the unregistered-implementation
error. -/
theorem claim8_counterexample :
    BeforeMarshalJSON emptyImplPoly 2 (requestPtr (mkIface sKey none)) true =
      (requestPtr (mkIface sKey none), .err (errNotFoundInStruct sKey)) := by
  decide

/-- Witness for the amended C8 at concrete inputs: a nil `Shape` slot
panics under the test registry (two bindings); a by-value `Circle`
panics; a pointer-held `Circle` returns `ok`. -/
theorem claim8_amended_witness :
    Poly.lookupType testPoly sKey = some shapeEntry ∧
    beforeMarshalJSONValue testPoly 2 true (.inil sKey) true =
      (.inil sKey, .crash crashTypeOnZero) ∧
    beforeMarshalJSONValue testPoly 2 true
        (.iface sKey (circleVal "" 10)) true =
      (.iface sKey (circleVal "" 10), .crash crashUnaddressable) := by
  have h := claim8_amended_nil_or_value_panics testPoly sKey shapeEntry 1 true
    true rfl
  refine ⟨rfl, (h.1 (by decide)).1, ?_⟩
  have h3 := h.2.2.1 "poly.Circle" circleFds
    (.cons (.prim (.pstr "")) (.cons (.prim (.pfloat 10)) .nil)) 0 0
    (.pstr "circle") rfl (fun j hj _ _ => absurd hj (Nat.not_lt_zero j)) rfl rfl
    (by decide)
  simpa [circleVal] using h3

/-- C3 (counterexample): a slice pre-sized by the caller to five
elements is *not* kept at that length — the pre-decode pass re-sizes it
to the raw document's array length (two). -/
theorem claim3_counterexample :
    BeforeUnmarshalJSON testPoly 3 bufArr2 preSizedSlice true =
      (.ptr (.slice (.prim .kstr))
        (.slice (.prim .kstr) (valsReplicate 2 (.prim (.pstr "")))), .ok) := by
  decide

/-- Element iteration preserves the length of the visited list. -/
theorem uElems_length (rec : List String → Bool → GoVal → GoVal × Outcome)
    (pfx : List String) : ∀ (i : Nat) (vs : Vals),
    ((uElems rec pfx i vs).1).length = vs.length
  | _, .nil => rfl
  | i, .cons w ws => by
    rw [uElems]
    cases hrec : rec (pfx ++ [toString i]) true w with
    | mk w' o =>
      cases o with
      | ok => simp [Vals.length, uElems_length rec pfx (i + 1) ws]
      | err m => simp [Vals.length]
      | crash m => simp [Vals.length]
      | noFuel => simp [Vals.length]

/-- Replication produces the requested length. -/
theorem valsReplicate_length (z : GoVal) :
    ∀ n : Nat, (valsReplicate n z).length = n := by
  intro n
  induction n with
  | zero => rfl
  | succ n ih => simp [valsReplicate, Vals.length, ih]

/-- C3 (amended): at an (addressable) slice node the pre-decode pass
always determines the length by querying the raw document at the
accumulated path suffixed with the length marker `#`, discarding any
caller-provided sizing and contents, and sizes the slice to exactly that
length before recursing into each index. -/
theorem claim3_amended_slice_always_queried (p : Poly) (buf : JValue) (n : Nat)
    (pfx : List String) (t : GoType) (es : Vals) (strict : Bool)
    (h0 : 0 ≤ gjsonInt (jGet buf (pfx ++ ["#"]))) :
    beforeUnmarshalJSONValue p buf (n + 1) pfx true (.slice t es) strict =
      beforeUnmarshalJSONValue p buf (n + 1) pfx true (.slice t .nil) strict ∧
    (∃ (es' : Vals) (o : Outcome),
      beforeUnmarshalJSONValue p buf (n + 1) pfx true (.slice t es) strict =
        (.slice t es', o) ∧
      es'.length = (gjsonInt (jGet buf (pfx ++ ["#"]))).toNat) := by
  have hnot : ¬ gjsonInt (jGet buf (pfx ++ ["#"])) < 0 := by omega
  constructor
  · simp [beforeUnmarshalJSONValue, umCore, uStep, hnot]
  · refine ⟨(uElems (fun q a u => beforeUnmarshalJSONValue p buf n q a u strict)
      pfx 0 (valsReplicate (gjsonInt (jGet buf (pfx ++ ["#"]))).toNat
        (zeroVal t))).1,
      (uElems (fun q a u => beforeUnmarshalJSONValue p buf n q a u strict)
      pfx 0 (valsReplicate (gjsonInt (jGet buf (pfx ++ ["#"]))).toNat
        (zeroVal t))).2, ?_, ?_⟩
    · simp [beforeUnmarshalJSONValue, umCore, uStep, hnot]
    · rw [uElems_length, valsReplicate_length]

/-- Witness for the amended C3 at a concrete input: the pre-sized
five-element slice against the two-element document. -/
theorem claim3_amended_witness :
    0 ≤ gjsonInt (jGet bufArr2 ([] ++ ["#"])) ∧
    (∃ (es' : Vals) (o : Outcome),
      beforeUnmarshalJSONValue testPoly bufArr2 3 [] true
          (.slice (.prim .kstr) (valsReplicate 5 (.prim (.pstr "x")))) true =
        (.slice (.prim .kstr) es', o) ∧
      es'.length = (gjsonInt (jGet bufArr2 ([] ++ ["#"]))).toNat) :=
  ⟨by decide,
    (claim3_amended_slice_always_queried testPoly bufArr2 2 [] (.prim .kstr)
      (valsReplicate 5 (.prim (.pstr "x"))) true (by decide)).2⟩

/-- Two strings differ when their character data differ. -/
theorem str_ne_of_data_ne (s t : String) (h : s.data ≠ t.data) : s ≠ t :=
  fun he => h (congrArg String.data he)

/-- A string differs from `(L ++ t1) ++ t2` when it differs from `L`
within `L`'s first `n` characters. -/
theorem ne_of_prefix_differs (s L t1 t2 : String) (n : Nat)
    (hn : n ≤ L.data.length) (h : s.data.take n ≠ L.data.take n) :
    s ≠ (L ++ t1) ++ t2 := by
  intro he
  apply h
  have hd := congrArg String.data he
  rw [String.data_append, String.data_append, List.append_assoc] at hd
  rw [hd, List.take_append_of_le_length hn]

/-- `L ++ r` differs from `(L ++ t1) ++ t2` when `r`'s trailing
`t2.length` characters differ from `t2`. -/
theorem ne_of_suffix_differs (c L t1 t2 r : String)
    (hc : c.data = L.data ++ r.data)
    (hdrop : r.data.drop (r.data.length - t2.data.length) ≠ t2.data) :
    c ≠ (L ++ t1) ++ t2 := by
  intro he
  have hd := congrArg String.data he
  rw [hc, String.data_append, String.data_append, List.append_assoc] at hd
  have h2 : r.data = t1.data ++ t2.data := List.append_cancel_left hd
  apply hdrop
  rw [h2]
  have hl : (t1.data ++ t2.data).length - t2.data.length = t1.data.length := by
    simp [List.length_append]
  rw [hl, List.drop_left]

/-- Appending different suffixes to a common prefix yields different
strings. -/
theorem ne_of_append_tail_ne (L t1 s1 s2 : String) (h : s1.data ≠ s2.data) :
    (L ++ t1) ++ s1 ≠ (L ++ t1) ++ s2 := by
  intro he
  have hd := congrArg String.data he
  rw [String.data_append, String.data_append] at hd
  exact h (List.append_cancel_left hd)

/-- C7: each registration constraint violation fails with its own
distinct error — a struct marker that is not a pointer to a struct
(either invalid-argument message propagates), a struct that does not
satisfy the interface contract, registration against an unregistered
interface, a struct lacking a field tagged with the discriminant name,
and duplicate interface registration — and on success each operation
performs exactly its stated insertion:  `RegisterInterface` inserts an
empty registration, `RegisterStruct` appends one binding to the four
parallel lists; the six error messages are pairwise distinct. -/
theorem claim7_registration_validation (impls : List (String × String))
    (p : Poly) (k d nm : String) (fds : TFields) (value : GoPrim) :
    (∀ e, p.lookupType k = some e →
      RegisterInterface p (.ptr (.iface k)) d =
        .error "poly: interface already registered") ∧
    (p.lookupType k = none →
      RegisterInterface p (.ptr (.iface k)) d =
        .ok ⟨p.types ++ [(k, ⟨.iface k, d, [], [], [], []⟩)]⟩) ∧
    (∀ (sMarker : GoType) (e : String), structTypeOf sMarker = .error e →
      RegisterStruct impls p (.ptr (.iface k)) sMarker value = .error e) ∧
    (∀ t : GoType, (∀ t', t ≠ .ptr t') →
      structTypeOf t = .error "poly: struct pointer must be a pointer") ∧
    (∀ t' : GoType, (∀ nm' fds', t' ≠ .struct_ nm' fds') →
      structTypeOf (.ptr t') =
        .error "poly: struct pointer must be a pointer to a struct") ∧
    (¬ (nm, k) ∈ impls →
      RegisterStruct impls p (.ptr (.iface k)) (.ptr (.struct_ nm fds)) value =
        .error "poly: interface type mismatch, struct ptr must implements interface") ∧
    ((nm, k) ∈ impls → p.lookupType k = none →
      RegisterStruct impls p (.ptr (.iface k)) (.ptr (.struct_ nm fds)) value =
        .error ("poly: interface type " ++ k ++ " not registered")) ∧
    (∀ entry, (nm, k) ∈ impls → p.lookupType k = some entry →
      findFieldPos entry.discriminantFieldName fds 0 = none →
      RegisterStruct impls p (.ptr (.iface k)) (.ptr (.struct_ nm fds)) value =
        .error ("poly: interface type " ++ k ++ " not found in struct")) ∧
    (∀ entry posF, (nm, k) ∈ impls → p.lookupType k = some entry →
      findFieldPos entry.discriminantFieldName fds 0 = some posF →
      RegisterStruct impls p (.ptr (.iface k)) (.ptr (.struct_ nm fds)) value =
        .ok ⟨updateTypes p.types k
          { entry with
            structValues := entry.structValues ++ [value]
            structCreators := entry.structCreators ++ [.struct_ nm fds]
            structTypes := entry.structTypes ++ [.struct_ nm fds]
            structFieldPos := entry.structFieldPos ++ [posF] }⟩) ∧
    ("poly: struct pointer must be a pointer" ≠
      "poly: struct pointer must be a pointer to a struct" ∧
     "poly: struct pointer must be a pointer" ≠
      "poly: interface type mismatch, struct ptr must implements interface" ∧
     "poly: struct pointer must be a pointer" ≠
      "poly: interface already registered" ∧
     ("poly: struct pointer must be a pointer" : String) ≠
      "poly: interface type " ++ k ++ " not registered" ∧
     ("poly: struct pointer must be a pointer" : String) ≠
      "poly: interface type " ++ k ++ " not found in struct" ∧
     "poly: struct pointer must be a pointer to a struct" ≠
      "poly: interface type mismatch, struct ptr must implements interface" ∧
     "poly: struct pointer must be a pointer to a struct" ≠
      "poly: interface already registered" ∧
     ("poly: struct pointer must be a pointer to a struct" : String) ≠
      "poly: interface type " ++ k ++ " not registered" ∧
     ("poly: struct pointer must be a pointer to a struct" : String) ≠
      "poly: interface type " ++ k ++ " not found in struct" ∧
     "poly: interface type mismatch, struct ptr must implements interface" ≠
      "poly: interface already registered" ∧
     ("poly: interface type mismatch, struct ptr must implements interface" : String) ≠
      "poly: interface type " ++ k ++ " not registered" ∧
     ("poly: interface type mismatch, struct ptr must implements interface" : String) ≠
      "poly: interface type " ++ k ++ " not found in struct" ∧
     ("poly: interface already registered" : String) ≠
      "poly: interface type " ++ k ++ " not registered" ∧
     ("poly: interface already registered" : String) ≠
      "poly: interface type " ++ k ++ " not found in struct" ∧
     "poly: interface type " ++ k ++ " not registered" ≠
      "poly: interface type " ++ k ++ " not found in struct") := by
  refine ⟨?_, ?_, ?_, ?_, ?_, ?_, ?_, ?_, ?_, ?_⟩
  · intro e he
    simp [RegisterInterface, iFaceTypeOf, he]
  · intro he
    simp [RegisterInterface, iFaceTypeOf, he]
  · intro sMarker e he
    simp [RegisterStruct, iFaceTypeOf, he]
  · intro t ht
    cases t with
    | ptr t' => exact absurd rfl (ht t')
    | prim q => rfl
    | struct_ nm' fds' => rfl
    | slice t' => rfl
    | iface k' => rfl
  · intro t' ht
    cases t' with
    | struct_ nm' fds' => exact absurd rfl (ht nm' fds')
    | prim q => rfl
    | slice t'' => rfl
    | ptr t'' => rfl
    | iface k' => rfl
  · intro hmem
    simp [RegisterStruct, iFaceTypeOf, structTypeOf, hmem]
  · intro hmem hnone
    simp [RegisterStruct, iFaceTypeOf, structTypeOf, hmem, hnone]
  · intro entry hmem hsome hscan
    simp [RegisterStruct, iFaceTypeOf, structTypeOf, hmem, hsome, hscan]
  · intro entry posF hmem hsome hscan
    simp [RegisterStruct, iFaceTypeOf, structTypeOf, hmem, hsome, hscan]
  · refine ⟨by decide, by decide, by decide, ?_, ?_, by decide, by decide, ?_, ?_,
      by decide, ?_, ?_, ?_, ?_, ?_⟩
    · exact ne_of_prefix_differs _ "poly: interface type " k " not registered" 7
        (by decide) (by decide)
    · exact ne_of_prefix_differs _ "poly: interface type " k
        " not found in struct" 7 (by decide) (by decide)
    · exact ne_of_prefix_differs _ "poly: interface type " k " not registered" 7
        (by decide) (by decide)
    · exact ne_of_prefix_differs _ "poly: interface type " k
        " not found in struct" 7 (by decide) (by decide)
    · exact ne_of_suffix_differs _ "poly: interface type " k " not registered"
        "mismatch, struct ptr must implements interface" (by decide) (by decide)
    · exact ne_of_suffix_differs _ "poly: interface type " k
        " not found in struct" "mismatch, struct ptr must implements interface"
        (by decide) (by decide)
    · exact ne_of_prefix_differs _ "poly: interface type " k " not registered" 17
        (by decide) (by decide)
    · exact ne_of_prefix_differs _ "poly: interface type " k
        " not found in struct" 17 (by decide) (by decide)
    · exact ne_of_append_tail_ne "poly: interface type " k " not registered"
        " not found in struct" (by decide)

/-- Witness for C7 at concrete inputs: the `Shape`/`Circle` scenario —
duplicate interface registration fails, a fresh registration inserts the
empty entry, and `RegisterStruct` under the populated registry appends
the `Circle` binding. -/
theorem claim7_witness :
    (Poly.lookupType emptyImplPoly sKey =
      some ⟨.iface sKey, "type", [], [], [], []⟩) ∧
    RegisterInterface emptyImplPoly (.ptr (.iface sKey)) "type" =
      .error "poly: interface already registered" ∧
    RegisterInterface ⟨[]⟩ (.ptr (.iface sKey)) "type" =
      .ok ⟨[(sKey, ⟨.iface sKey, "type", [], [], [], []⟩)]⟩ ∧
    RegisterStruct implsTable emptyImplPoly (.ptr (.iface sKey)) (.ptr circleT)
        (.pstr "circle") =
      .ok ⟨[(sKey, ⟨.iface sKey, "type", [.pstr "circle"], [circleT], [circleT],
        [0]⟩)]⟩ := by
  have h := claim7_registration_validation implsTable emptyImplPoly sKey "type"
    "poly.Circle" circleFds (.pstr "circle")
  refine ⟨rfl, h.1 _ rfl, ?_, ?_⟩
  · exact (claim7_registration_validation implsTable ⟨[]⟩ sKey "type"
      "poly.Circle" circleFds (.pstr "circle")).2.1 rfl
  · have h9 := (h.2.2.2.2.2.2.2.2.1)
      ⟨.iface sKey, "type", [], [], [], []⟩ 0 (by decide) rfl rfl
    exact h9.trans rfl

/-- The decimal digit characters of a natural number, most significant
first (the normal form produced by `Nat.repr`). -/
def digitsOf (n : Nat) : List Char :=
  if _h : n < 10 then [Nat.digitChar n]
  else digitsOf (n / 10) ++ [Nat.digitChar (n % 10)]
termination_by n
decreasing_by
  exact Nat.div_lt_self (by omega) (by omega)

/-- `Nat.toDigitsCore` produces the decimal digits (with enough
fuel). -/
theorem toDigitsCore_eq_digitsOf :
    ∀ (f n : Nat) (ds : List Char), n < f →
      Nat.toDigitsCore 10 f n ds = digitsOf n ++ ds := by
  intro f
  induction f with
  | zero => intro n ds h; omega
  | succ f ih =>
    intro n ds h
    rw [Nat.toDigitsCore]
    by_cases h10 : n < 10
    · have hz : n / 10 = 0 := Nat.div_eq_of_lt h10
      have hm : n % 10 = n := Nat.mod_eq_of_lt h10
      simp only [hz, if_pos rfl, hm]
      rw [digitsOf, dif_pos h10]
      rfl
    · have hz : ¬ n / 10 = 0 := by
        intro hz0
        have := Nat.div_eq_of_lt (show n < 10 by omega)
        omega
      simp only [if_neg hz]
      have hlt : n / 10 < f := by
        have h1 : n / 10 < n := Nat.div_lt_self (by omega) (by omega)
        omega
      rw [ih (n / 10) _ hlt]
      conv_rhs => rw [digitsOf]
      rw [dif_neg h10, List.append_assoc]
      rfl

/-- Digit characters of values below ten. -/
theorem digitChar_facts :
    ∀ n, n < 10 → (Nat.digitChar n).isDigit = true ∧
      (Nat.digitChar n).toNat = n + 48 := by
  decide

/-- Parsing the decimal digits of `n` continues with `n` accumulated. -/
theorem parseNatAux_digitsOf (n : Nat) :
    ∀ (rest : List Char) (acc : Nat),
      parseNatAux (digitsOf n ++ rest) acc =
        parseNatAux rest (acc * 10 ^ (digitsOf n).length + n) := by
  induction n using Nat.strong_induction_on with
  | _ n ih =>
    intro rest acc
    by_cases h10 : n < 10
    · rw [digitsOf, dif_pos h10]
      obtain ⟨hd, ht⟩ := digitChar_facts n h10
      simp only [List.cons_append, List.nil_append, parseNatAux, hd, if_true,
        List.length_cons, List.length_nil, pow_one, ht, List.append_eq,
        zero_add]
      rw [Nat.add_sub_cancel]
    · rw [digitsOf, dif_neg h10, List.append_assoc]
      have hlt : n / 10 < n := Nat.div_lt_self (by omega) (by omega)
      rw [ih (n / 10) hlt]
      obtain ⟨hd, ht⟩ := digitChar_facts (n % 10) (Nat.mod_lt n (by omega))
      simp only [List.cons_append, List.nil_append, parseNatAux, hd, if_true,
        ht, List.length_append, List.length_cons, List.length_nil,
        List.append_eq]
      congr 1
      have hdm : 10 * (n / 10) + n % 10 = n := Nat.div_add_mod n 10
      have hp : (10 : Nat) ^ ((digitsOf (n / 10)).length + 1) =
          10 ^ (digitsOf (n / 10)).length * 10 := pow_succ 10 _
      have h48 : n % 10 + 48 - 48 = n % 10 := by omega
      rw [h48, hp]
      calc (acc * 10 ^ (digitsOf (n / 10)).length + n / 10) * 10 + n % 10
          = acc * (10 ^ (digitsOf (n / 10)).length * 10) +
              (10 * (n / 10) + n % 10) := by ring
        _ = acc * (10 ^ (digitsOf (n / 10)).length * 10) + n := by rw [hdm]

/-- The digit list of a number is never empty. -/
theorem digitsOf_ne_nil (n : Nat) : digitsOf n ≠ [] := by
  by_cases h10 : n < 10
  · rw [digitsOf, dif_pos h10]; simp
  · rw [digitsOf, dif_neg h10]; simp

/-- Round trip: the model's digit parser inverts `toString` on natural
numbers (the array-index path segments built by the pre-decode
pass). -/
theorem parseNat_toString (n : Nat) : parseNat? (toString n) = some n := by
  have hdata : (toString n).data = digitsOf n := by
    show (Nat.toDigits 10 n).asString.data = digitsOf n
    rw [Nat.toDigits, toDigitsCore_eq_digitsOf (n + 1) n [] (Nat.lt_succ_self n)]
    simp [List.asString]
  have hparse : parseNatAux (digitsOf n) 0 = some n := by
    have := parseNatAux_digitsOf n [] 0
    simpa [parseNatAux] using this
  rw [parseNat?, hdata]
  cases hd : digitsOf n with
  | nil => exact absurd hd (digitsOf_ne_nil n)
  | cons c cs =>
    have hcc : parseNatAux (c :: cs) 0 = some n := by
      rw [← hd]; exact hparse
    exact hcc

/-- An index segment is never the length marker. -/
theorem toString_ne_hash (n : Nat) : (toString n == "#") = false := by
  by_cases h : toString n = "#"
  · exfalso
    have hp := parseNat_toString n
    rw [h] at hp
    have h2 : parseNat? "#" = none := by decide
    rw [h2] at hp
    cases hp
  · simp [h]

/-- Path queries compose: a query along an extended path continues from
the value found at the prefix. -/
theorem jGet_snoc (s : String) :
    ∀ (pfx : List String) (buf doc : JValue), jGet buf pfx = some doc →
      jGet buf (pfx ++ [s]) = jGet doc [s] := by
  intro pfx
  induction pfx with
  | nil =>
    intro buf doc h
    simp only [jGet] at h
    cases h
    rfl
  | cons s' rest ih =>
    intro buf doc h
    cases buf with
    | obj kvs =>
      simp only [jGet, List.cons_append] at h ⊢
      cases hl : jObjLookup kvs s' with
      | none =>
        simp only [hl] at h
        exact Option.noConfusion h
      | some w =>
        simp only [hl] at h ⊢
        exact ih w doc h
    | arr xs =>
      simp only [jGet, List.cons_append] at h ⊢
      by_cases hs : (s' == "#") = true
      · simp only [hs, if_true] at h ⊢
        cases rest with
        | nil =>
          cases h
          rfl
        | cons r rs => cases h
      · have hs' : (s' == "#") = false := by
          simp only [Bool.not_eq_true] at hs
          exact hs
        simp only [hs', Bool.false_eq_true, if_false] at h ⊢
        cases hp : parseNat? s' with
        | none =>
          simp only [hp] at h
          exact Option.noConfusion h
        | some i =>
          simp only [hp] at h ⊢
          cases hg : jArrGet xs i with
          | none =>
            simp only [hg] at h
            exact Option.noConfusion h
          | some w =>
            simp only [hg] at h ⊢
            exact ih w doc h
    | null => simp only [jGet] at h; exact Option.noConfusion h
    | jbool b => simp only [jGet] at h; exact Option.noConfusion h
    | num q => simp only [jGet] at h; exact Option.noConfusion h
    | str t => simp only [jGet] at h; exact Option.noConfusion h

/-- A single field segment on an object is the object lookup. -/
theorem jGet_obj_single (kvs : JObj) (s : String) :
    jGet (.obj kvs) [s] = jObjLookup kvs s := by
  rw [jGet]
  cases jObjLookup kvs s with
  | none => rfl
  | some w => rfl

/-- The length query on an array returns its length. -/
theorem jGet_arr_len (xs : JArr) :
    jGet (.arr xs) ["#"] = some (.num (jArrLength xs : ℚ)) := by
  rw [jGet]
  rfl

/-- An index segment on an array returns the indexed element. -/
theorem jGet_arr_idx (xs : JArr) (i : Nat) (w : JValue)
    (h : jArrGet xs i = some w) : jGet (.arr xs) [toString i] = some w := by
  rw [jGet, toString_ne_hash]
  simp only [Bool.false_eq_true, if_false, parseNat_toString, h, jGet]

/-- Encoded slices have the encoded length. -/
theorem jArrLength_encodeElems :
    ∀ vs : Vals, jArrLength (encodeElems vs) = vs.length
  | .nil => rfl
  | .cons w ws => by
    rw [encodeElems, jArrLength, jArrLength_encodeElems ws]
    rfl

/-- Indexing an encoded slice yields the encoded element. -/
theorem jArrGet_encodeElems :
    ∀ (vs : Vals) (i : Nat) (w : GoVal), vs.get? i = some w →
      jArrGet (encodeElems vs) i = some (encode w)
  | .nil, _, _, h => by cases h
  | .cons v vs, 0, w, h => by
    cases h
    rfl
  | .cons v vs, i + 1, w, h => by
    rw [encodeElems, jArrGet]
    exact jArrGet_encodeElems vs i w h

/-- Truncation of a natural literal is itself. -/
theorem ratTrunc_natCast (n : Nat) : ratTrunc (n : ℚ) = (n : Int) := by
  rw [ratTrunc]
  simp

/-- Stamping preserves the reflected type of a value. -/
theorem typeOf_stampF (p : Poly) (v : GoVal) :
    typeOf (stampF p v) = typeOf v := by
  cases v with
  | prim q => rfl
  | struct_ nm fds fs => rfl
  | slice t es => rfl
  | ptr t w => rfl
  | pnil t => rfl
  | iface k w =>
    cases w with
    | ptr t u => rfl
    | prim q => rfl
    | struct_ nm fds fs => rfl
    | slice t es => rfl
    | pnil t => rfl
    | iface k' w' => rfl
    | inil k' => rfl
  | inil k => rfl

/-- Stamped field lists keep their length. -/
theorem stampFs_length (p : Poly) :
    ∀ vs : Vals, (stampFs p vs).length = vs.length
  | .nil => rfl
  | .cons w ws => by rw [stampFs, Vals.length, Vals.length, stampFs_length p ws]

/-- Stamped element lists keep their length. -/
theorem stampEs_length (p : Poly) :
    ∀ vs : Vals, (stampEs p vs).length = vs.length
  | .nil => rfl
  | .cons w ws => by rw [stampEs, Vals.length, Vals.length, stampEs_length p ws]

mutual
/-- Stamping is the identity on interface-free subtrees. -/
theorem stampF_plain_id (p : Poly) :
    ∀ v : GoVal, plainWF v = true → stampF p v = v
  | .prim q, _ => rfl
  | .struct_ nm fds fs, h => by
    rw [plainWF, Bool.and_eq_true] at h
    rw [stampF, stampFs_plain_id p fds fs h.2]
  | .slice t es, h => by
    rw [plainWF] at h
    rw [stampF, stampEs_plain_id p t es h]
  | .ptr t w, h => by
    rw [plainWF, Bool.and_eq_true, Bool.and_eq_true] at h
    rw [stampF, stampF_plain_id p w h.2]
  | .pnil t, _ => rfl

/-- Field lists of plain structs are unchanged by stamping. -/
theorem stampFs_plain_id (p : Poly) :
    ∀ (fds : TFields) (vs : Vals), plainFieldsWF fds vs = true →
      stampFs p vs = vs
  | .nil, .nil, _ => rfl
  | .cons fname tag t fds, .cons w ws, h => by
    rw [plainFieldsWF, Bool.and_eq_true, Bool.and_eq_true] at h
    rw [stampFs, stampF_plain_id p w h.1.2, stampFs_plain_id p fds ws h.2]

/-- Element lists of plain slices are unchanged by stamping. -/
theorem stampEs_plain_id (p : Poly) :
    ∀ (t : GoType) (vs : Vals), plainElemsWF t vs = true → stampEs p vs = vs
  | _, .nil, _ => rfl
  | t, .cons w ws, h => by
    rw [plainElemsWF, Bool.and_eq_true, Bool.and_eq_true] at h
    rw [stampEs, stampF_plain_id p w h.1.2, stampEs_plain_id p t ws h.2]
end

/-- The encoding of a plain non-pointer value is never `null`. -/
theorem encode_ne_null (w : GoVal) (hp : plainWF w = true)
    (hs : notPtrShape w = true) : encode w ≠ .null := by
  cases w with
  | prim q => cases q <;> (intro h; cases h)
  | struct_ nm fds fs => intro h; cases h
  | slice t es => intro h; cases h
  | ptr t w' => cases hs
  | pnil t => cases hs
  | iface k w' => cases hp
  | inil k => cases hp

/-- A JSON-stable discriminant value survives encoding and
`gjson.Result.Value()`. -/
theorem gjsonValue_encode_stable (dv : GoPrim) (h : jsonStable dv = true) :
    gjsonValue (encode (.prim dv)) = some dv := by
  cases dv with
  | pstr s => rfl
  | pint i => cases h
  | pfloat q => rfl
  | pbool b => rfl

/-- Lookups are stable under extending the object with a key not among
the fields' keys. -/
theorem lookupsMatch_extend (k0 : String) (v0 : JValue) (kvs : JObj) :
    ∀ (fds : TFields) (ws : Vals),
      ((encKeys fds).contains k0) = false →
      lookupsMatch kvs fds ws = true →
      lookupsMatch (.cons k0 v0 kvs) fds ws = true
  | .nil, _, _, _ => rfl
  | .cons _ _ _ _, .nil, _, _ => rfl
  | .cons fname tag t fds, .cons w ws, hk, h => by
    rw [lookupsMatch, Bool.and_eq_true] at h
    rw [encKeys] at hk
    simp only [List.contains_cons, Bool.or_eq_false_iff] at hk
    have hk0 : (k0 == encKey fname tag) = false := hk.1
    have hk' : ((encKeys fds).contains k0) = false := hk.2
    rw [lookupsMatch, Bool.and_eq_true]
    constructor
    · rw [jObjLookup, hk0]
      simp only [Bool.false_eq_true, if_false]
      exact h.1
    · exact lookupsMatch_extend k0 v0 kvs fds ws hk' h.2

/-- A struct's own encoding satisfies its lookups when its keys are
distinct. -/
theorem lookupsMatch_self :
    ∀ (fds : TFields) (ws : Vals), nodupKeys (encKeys fds) = true →
      lookupsMatch (encodeFields fds ws) fds ws = true
  | .nil, _, _ => rfl
  | .cons _ _ _ _, .nil, _ => rfl
  | .cons fname tag t fds, .cons w ws, h => by
    rw [encKeys, nodupKeys, Bool.and_eq_true] at h
    rw [encodeFields, lookupsMatch, Bool.and_eq_true]
    constructor
    · rw [jObjLookup]
      simp
    · exact lookupsMatch_extend (encKey fname tag) (encode w)
        (encodeFields fds ws) fds ws
        (by simpa using h.1)
        (lookupsMatch_self fds ws h.2)

/-- The zero scalar of a kind has that kind. -/
theorem kindOf_zeroPrim (k : PrimKind) : kindOf (zeroPrim k) = k := by
  cases k <;> rfl

mutual
/-- The zero value of a plain value's type conforms to that type. -/
theorem conformsT_zeroVal :
    ∀ w : GoVal, plainWF w = true →
      conformsT (zeroVal (typeOf w)) (typeOf w) = true
  | .prim p, _ => by
    rw [typeOf, zeroVal, conformsT, typeOf, kindOf_zeroPrim]
    simp
  | .struct_ nm fds fs, h => by
    rw [plainWF, Bool.and_eq_true] at h
    rw [typeOf, zeroVal, conformsT, Bool.and_eq_true]
    exact ⟨by simp, conformsFields_zeroFields fds fs h.2⟩
  | .slice t es, _ => by
    rw [typeOf, zeroVal, conformsT, Bool.and_eq_true]
    exact ⟨by simp, rfl⟩
  | .ptr t w, _ => by
    rw [typeOf, zeroVal, conformsT]
    simp
  | .pnil t, _ => by
    rw [typeOf, zeroVal, conformsT]
    simp

/-- Zero fields conform to the declared field list of a plain
struct. -/
theorem conformsFields_zeroFields :
    ∀ (fds : TFields) (ws : Vals), plainFieldsWF fds ws = true →
      conformsFields fds (zeroFields fds) = true
  | .nil, .nil, _ => rfl
  | .nil, .cons _ _, h => by simp only [plainFieldsWF] at h; cases h
  | .cons _ _ _ _, .nil, h => by simp only [plainFieldsWF] at h; cases h
  | .cons fname tag t fds, .cons w ws, h => by
    rw [plainFieldsWF, Bool.and_eq_true, Bool.and_eq_true] at h
    rw [zeroFields, conformsFields, Bool.and_eq_true]
    constructor
    · have ht : typeOf w = t := by
        have := h.1.1
        simpa using this
      have := conformsT_zeroVal w h.1.2
      rw [ht] at this
      exact this
    · exact conformsFields_zeroFields fds ws h.2
end

mutual
/-- A plain (interface-free) value decodes back from its encoding into
any conforming target, given enough fuel. -/
theorem decode_encode_plain :
    ∀ (w z : GoVal) (hw : plainWF w = true)
      (hz : conformsT z (typeOf w) = true),
      ∃ M, ∀ m, M ≤ m → decode m z (encode w) = some w
  | .prim p, z, hw, hz => by
    cases z with
    | prim zp =>
      simp only [conformsT, typeOf, beq_iff_eq, GoType.prim.injEq] at hz
      refine ⟨1, ?_⟩
      intro m hm
      cases m with
      | zero => exact absurd hm (by omega)
      | succ m' =>
        cases p with
        | pstr s =>
          have hk : kindOf zp = PrimKind.kstr := hz
          simp only [encode, decode, hk]
        | pint i =>
          have hk : kindOf zp = PrimKind.kint := hz
          simp [encode, decode, hk, Rat.den_intCast, Rat.num_intCast]
        | pfloat q =>
          have hk : kindOf zp = PrimKind.kfloat := hz
          simp only [encode, decode, hk]
        | pbool b =>
          have hk : kindOf zp = PrimKind.kbool := hz
          simp only [encode, decode, hk]
    | struct_ nm' fds' zs => simp [conformsT, typeOf] at hz
    | slice et zs => simp [conformsT, typeOf] at hz
    | ptr pt zw => simp [conformsT, typeOf] at hz
    | pnil pt => simp [conformsT, typeOf] at hz
    | iface k' w' => simp [conformsT] at hz
    | inil k' => simp [conformsT] at hz
  | .struct_ nm fds fs, z, hw, hz => by
    simp only [plainWF, Bool.and_eq_true] at hw
    cases z with
    | prim zp => simp [conformsT, typeOf] at hz
    | struct_ nm' fds' zs =>
      simp only [conformsT, typeOf, Bool.and_eq_true, beq_iff_eq,
        GoType.struct_.injEq] at hz
      obtain ⟨⟨hnm, hfds⟩, hcf⟩ := hz
      rw [hfds] at hcf
      obtain ⟨M, hM⟩ := decodeFields_encode_plain fds fs zs
        (encodeFields fds fs) hw.2 hcf (lookupsMatch_self fds fs hw.1)
      refine ⟨M + 1, ?_⟩
      intro m hm
      cases m with
      | zero => exact absurd hm (by omega)
      | succ m' =>
        rw [hnm, hfds]
        simp only [encode, decode]
        rw [hM m' (by omega)]
    | slice et zs => simp [conformsT, typeOf] at hz
    | ptr pt zw => simp [conformsT, typeOf] at hz
    | pnil pt => simp [conformsT, typeOf] at hz
    | iface k' w' => simp [conformsT] at hz
    | inil k' => simp [conformsT] at hz
  | .slice t es, z, hw, hz => by
    rw [plainWF] at hw
    cases z with
    | prim zp => simp [conformsT, typeOf] at hz
    | struct_ nm' fds' zs => simp [conformsT, typeOf] at hz
    | slice et zs =>
      simp only [conformsT, typeOf, Bool.and_eq_true, beq_iff_eq,
        GoType.slice.injEq] at hz
      obtain ⟨het, hce⟩ := hz
      rw [het] at hce
      obtain ⟨M, hM⟩ := decodeElems_encode_plain t es zs hw hce
      refine ⟨M + 1, ?_⟩
      intro m hm
      cases m with
      | zero => exact absurd hm (by omega)
      | succ m' =>
        rw [het]
        simp only [encode, decode]
        rw [hM m' (by omega)]
    | ptr pt zw => simp [conformsT, typeOf] at hz
    | pnil pt => simp [conformsT, typeOf] at hz
    | iface k' w' => simp [conformsT] at hz
    | inil k' => simp [conformsT] at hz
  | .ptr t w', z, hw, hz => by
    simp only [plainWF, Bool.and_eq_true, beq_iff_eq] at hw
    obtain ⟨⟨ht, hnp⟩, hpw⟩ := hw
    cases z with
    | prim zp => simp [conformsT, typeOf] at hz
    | struct_ nm' fds' zs => simp [conformsT, typeOf] at hz
    | slice et zs => simp [conformsT, typeOf] at hz
    | ptr pt zw =>
      simp only [conformsT, typeOf, Bool.and_eq_true, beq_iff_eq,
        GoType.ptr.injEq] at hz
      obtain ⟨hpt, hcz⟩ := hz
      rw [hpt] at hcz
      have hcz' : conformsT zw (typeOf w') = true := by rw [ht]; exact hcz
      obtain ⟨M, hM⟩ := decode_encode_plain w' zw hpw hcz'
      refine ⟨M + 1, ?_⟩
      intro m hm
      cases m with
      | zero => exact absurd hm (by omega)
      | succ m' =>
        have hd : decode m' zw (encode w') = some w' := hM m' (by omega)
        rw [hpt]
        show decode (m' + 1) (.ptr t zw) (encode (.ptr t w')) =
          some (.ptr t w')
        rw [encode]
        cases hje : encode w' with
        | null => exact absurd hje (encode_ne_null w' hpw hnp)
        | str s => rw [hje] at hd; simp only [decode, hd]
        | num q => rw [hje] at hd; simp only [decode, hd]
        | jbool b => rw [hje] at hd; simp only [decode, hd]
        | obj kvs => rw [hje] at hd; simp only [decode, hd]
        | arr js => rw [hje] at hd; simp only [decode, hd]
    | pnil pt =>
      simp only [conformsT, typeOf, beq_iff_eq, GoType.ptr.injEq] at hz
      have hcz' : conformsT (zeroVal (typeOf w')) (typeOf w') = true :=
        conformsT_zeroVal w' hpw
      obtain ⟨M, hM⟩ := decode_encode_plain w' (zeroVal (typeOf w')) hpw hcz'
      refine ⟨M + 1, ?_⟩
      intro m hm
      cases m with
      | zero => exact absurd hm (by omega)
      | succ m' =>
        have hd : decode m' (zeroVal (typeOf w')) (encode w') = some w' :=
          hM m' (by omega)
        rw [ht] at hd
        rw [hz]
        show decode (m' + 1) (.pnil t) (encode (.ptr t w')) =
          some (.ptr t w')
        rw [encode]
        cases hje : encode w' with
        | null => exact absurd hje (encode_ne_null w' hpw hnp)
        | str s => rw [hje] at hd; simp only [decode, hd]
        | num q => rw [hje] at hd; simp only [decode, hd]
        | jbool b => rw [hje] at hd; simp only [decode, hd]
        | obj kvs => rw [hje] at hd; simp only [decode, hd]
        | arr js => rw [hje] at hd; simp only [decode, hd]
    | iface k' w'' => simp [conformsT] at hz
    | inil k' => simp [conformsT] at hz
  | .pnil t, z, hw, hz => by
    cases z with
    | prim zp => simp [conformsT, typeOf] at hz
    | struct_ nm' fds' zs => simp [conformsT, typeOf] at hz
    | slice et zs => simp [conformsT, typeOf] at hz
    | ptr pt zw =>
      simp only [conformsT, typeOf, Bool.and_eq_true, beq_iff_eq,
        GoType.ptr.injEq] at hz
      refine ⟨1, ?_⟩
      intro m hm
      cases m with
      | zero => exact absurd hm (by omega)
      | succ m' =>
        rw [hz.1]
        simp only [encode, decode]
    | pnil pt =>
      simp only [conformsT, typeOf, beq_iff_eq, GoType.ptr.injEq] at hz
      refine ⟨1, ?_⟩
      intro m hm
      cases m with
      | zero => exact absurd hm (by omega)
      | succ m' =>
        rw [hz]
        simp only [encode, decode]
    | iface k' w'' => simp [conformsT] at hz
    | inil k' => simp [conformsT] at hz
  | .iface k w, _, hw, _ => by simp [plainWF] at hw
  | .inil k, _, hw, _ => by simp [plainWF] at hw

/-- Fields of a plain struct decode back from any object whose lookups
match their encodings, into any conforming target fields. -/
theorem decodeFields_encode_plain :
    ∀ (fds : TFields) (ws zs : Vals) (kvs : JObj)
      (hw : plainFieldsWF fds ws = true)
      (hcf : conformsFields fds zs = true)
      (hlm : lookupsMatch kvs fds ws = true),
      ∃ M, ∀ m, M ≤ m →
        decodeFieldsWith (decode m) kvs fds zs = some ws
  | .nil, .nil, .nil, kvs, _, _, _ => ⟨0, fun _ _ => rfl⟩
  | .nil, .cons _ _, _, _, hw, _, _ => by
    simp only [plainFieldsWF] at hw; cases hw
  | .nil, .nil, .cons _ _, _, _, hcf, _ => by
    simp only [conformsFields] at hcf; cases hcf
  | .cons _ _ _ _, .nil, _, _, hw, _, _ => by
    simp only [plainFieldsWF] at hw; cases hw
  | .cons _ _ _ _, .cons _ _, .nil, _, _, hcf, _ => by
    simp only [conformsFields] at hcf; cases hcf
  | .cons fname tag t fds, .cons w0 ws, .cons z0 zs, kvs, hw, hcf, hlm => by
    simp only [plainFieldsWF, Bool.and_eq_true, beq_iff_eq] at hw
    obtain ⟨⟨ht, hpw⟩, hw'⟩ := hw
    simp only [conformsFields, Bool.and_eq_true] at hcf
    obtain ⟨hc0, hcf'⟩ := hcf
    rw [lookupsMatch, Bool.and_eq_true] at hlm
    have hlk : jObjLookup kvs (encKey fname tag) = some (encode w0) := by
      have := hlm.1; simpa using this
    have hc0' : conformsT z0 (typeOf w0) = true := by rw [ht]; exact hc0
    obtain ⟨M0, h0⟩ := decode_encode_plain w0 z0 hpw hc0'
    obtain ⟨M1, h1⟩ := decodeFields_encode_plain fds ws zs kvs hw' hcf' hlm.2
    refine ⟨max M0 M1, ?_⟩
    intro m hm
    simp only [decodeFieldsWith, hlk,
      h0 m (le_trans (le_max_left _ _) hm),
      h1 m (le_trans (le_max_right _ _) hm)]

/-- Elements of a plain slice decode back from their encoded array into
a target of any conforming length (missing targets start from the zero
element; extra targets are dropped by the array's length). -/
theorem decodeElems_encode_plain :
    ∀ (t : GoType) (ws zs : Vals) (hw : plainElemsWF t ws = true)
      (hce : conformsElems t zs = true),
      ∃ M, ∀ m, M ≤ m →
        decodeElemsWith (decode m) (zeroVal t) zs (encodeElems ws) = some ws
  | t, .nil, zs, _, _ =>
    ⟨0, fun m _ => by cases zs <;> rfl⟩
  | t, .cons w0 ws, .nil, hw, _ => by
    simp only [plainElemsWF, Bool.and_eq_true, beq_iff_eq] at hw
    obtain ⟨⟨ht, hpw⟩, hw'⟩ := hw
    have hc0' : conformsT (zeroVal t) (typeOf w0) = true := by
      rw [ht]
      have := conformsT_zeroVal w0 hpw
      rw [ht] at this
      exact this
    obtain ⟨M0, h0⟩ := decode_encode_plain w0 (zeroVal t) hpw hc0'
    obtain ⟨M1, h1⟩ := decodeElems_encode_plain t ws .nil hw' rfl
    refine ⟨max M0 M1, ?_⟩
    intro m hm
    simp only [encodeElems, decodeElemsWith,
      h0 m (le_trans (le_max_left _ _) hm),
      h1 m (le_trans (le_max_right _ _) hm)]
  | t, .cons w0 ws, .cons z0 zs, hw, hce => by
    simp only [plainElemsWF, Bool.and_eq_true, beq_iff_eq] at hw
    obtain ⟨⟨ht, hpw⟩, hw'⟩ := hw
    simp only [conformsElems, Bool.and_eq_true] at hce
    obtain ⟨hc0, hce'⟩ := hce
    have hc0' : conformsT z0 (typeOf w0) = true := by rw [ht]; exact hc0
    obtain ⟨M0, h0⟩ := decode_encode_plain w0 z0 hpw hc0'
    obtain ⟨M1, h1⟩ := decodeElems_encode_plain t ws zs hw' hce'
    refine ⟨max M0 M1, ?_⟩
    intro m hm
    simp only [encodeElems, decodeElemsWith,
      h0 m (le_trans (le_max_left _ _) hm),
      h1 m (le_trans (le_max_right _ _) hm)]
end

/-- A declared field type at an index bounds the index. -/
theorem typeAt_lt :
    ∀ (fds : TFields) (i : Nat) (t : GoType), fds.typeAt i = some t →
      i < fds.length
  | .nil, _, _, h => by cases h
  | .cons _ _ _ _, 0, _, _ => Nat.succ_pos _
  | .cons _ _ _ rest, i + 1, t, h =>
    Nat.succ_lt_succ (typeAt_lt rest i t h)

/-- Only scalars have scalar reflected type. -/
theorem typeOf_prim_shape :
    ∀ (w : GoVal) (k : PrimKind), typeOf w = .prim k →
      ∃ q, w = .prim q ∧ kindOf q = k
  | .prim q, k, h => ⟨q, rfl, by injection h⟩
  | .struct_ _ _ _, _, h => by cases h
  | .slice _ _, _, h => by cases h
  | .ptr _ _, _, h => by cases h
  | .pnil _, _, h => by cases h
  | .iface _ _, _, h => by cases h
  | .inil _, _, h => by cases h

/-- With a usable tag the serialized key is the tag's first component. -/
theorem encKey_of_usable (fname tag : String)
    (h : (jsonFieldName tag == "") = false) :
    encKey fname tag = jsonFieldName tag := by
  rw [encKey]
  simp [h]

/-- Indexing a stamped field list. -/
theorem stampFs_get? (p : Poly) :
    ∀ (vs : Vals) (i : Nat),
      (stampFs p vs).get? i = (vs.get? i).map (stampF p)
  | .nil, _ => rfl
  | .cons _ _, 0 => rfl
  | .cons _ ws, i + 1 => stampFs_get? p ws i

/-- Indexing a stamped element list. -/
theorem stampEs_get? (p : Poly) :
    ∀ (vs : Vals) (i : Nat),
      (stampEs p vs).get? i = (vs.get? i).map (stampF p)
  | .nil, _ => rfl
  | .cons _ _, 0 => rfl
  | .cons _ ws, i + 1 => stampEs_get? p ws i

/-- Reading back an in-bounds functional update. -/
theorem get?_set_eq :
    ∀ (vs : Vals) (i : Nat) (w w0 : GoVal), vs.get? i = some w0 →
      (vs.set i w).get? i = some w
  | .nil, _, _, _, h => by cases h
  | .cons _ _, 0, _, _, _ => rfl
  | .cons _ ws, i + 1, w, w0, h => get?_set_eq ws i w w0 h

/-- Reading elsewhere than a functional update. -/
theorem get?_set_ne :
    ∀ (vs : Vals) (i j : Nat) (w : GoVal), i ≠ j →
      (vs.set i w).get? j = vs.get? j
  | .nil, _, _, _, _ => rfl
  | .cons _ _, 0, 0, _, h => absurd rfl h
  | .cons _ _, 0, _ + 1, _, _ => rfl
  | .cons _ _, _ + 1, 0, _, _ => rfl
  | .cons _ ws, i + 1, j + 1, w, h =>
    get?_set_ne ws i j w (fun he => h (by rw [he]))

/-- A field present at an index contributes its serialized key. -/
theorem fieldAt_key_mem :
    ∀ (fds : TFields) (i : Nat) (fname tag : String) (t : GoType),
      fds.fieldAt i = some (fname, tag, t) →
      ((encKeys fds).contains (encKey fname tag)) = true
  | .nil, _, _, _, _, h => by cases h
  | .cons fn tg ty rest, 0, fname, tag, t, h => by
    injection h with h
    injection h with h1 h
    injection h with h2 h3
    subst h1; subst h2
    simp [encKeys, List.contains_cons]
  | .cons fn tg ty rest, i + 1, fname, tag, t, h => by
    have hmem := fieldAt_key_mem rest i fname tag t h
    rw [encKeys, List.contains_cons, Bool.or_eq_true]
    exact Or.inr hmem

/-- Looking up the `i`-th field's serialized key in an encoded object
returns the `i`-th encoded value, provided the keys are distinct. -/
theorem encodeFields_lookup :
    ∀ (fds : TFields) (ws : Vals) (i : Nat) (fname tag : String) (t : GoType)
      (w : GoVal), nodupKeys (encKeys fds) = true →
      fds.fieldAt i = some (fname, tag, t) → Vals.get? ws i = some w →
      jObjLookup (encodeFields fds ws) (encKey fname tag) = some (encode w)
  | .nil, _, _, _, _, _, _, _, hfa, _ => by cases hfa
  | .cons _ _ _ _, .nil, i, _, _, _, _, _, _, hget => by cases hget
  | .cons fn tg ty rest, .cons w0 ws, 0, fname, tag, t, w, _, hfa, hget => by
    injection hfa with hfa
    injection hfa with h1 hfa
    injection hfa with h2 h3
    subst h1; subst h2
    injection hget with hget
    subst hget
    rw [encodeFields, jObjLookup]
    simp
  | .cons fn tg ty rest, .cons w0 ws, i + 1, fname, tag, t, w, hnd, hfa,
      hget => by
    rw [encKeys, nodupKeys, Bool.and_eq_true] at hnd
    have hmem := fieldAt_key_mem rest i fname tag t hfa
    have hne : (encKey fn tg == encKey fname tag) = false := by
      rcases hb : encKey fn tg == encKey fname tag with _ | _
      · rfl
      · exfalso
        have heq : encKey fn tg = encKey fname tag := by simpa using hb
        rw [← heq] at hmem
        rw [hmem] at hnd
        simp at hnd
    rw [encodeFields, jObjLookup, hne]
    simp only [Bool.false_eq_true, if_false]
    exact encodeFields_lookup rest ws i fname tag t w hnd.2 hfa hget

/-- A declared field type in a round-trip well-formed struct is realized
by the field value at the same index. -/
theorem rtFieldsWF_get? (p : Poly) :
    ∀ (fds : TFields) (fs : Vals), rtFieldsWF p fds fs = true →
      ∀ (i : Nat) (t : GoType), fds.typeAt i = some t →
        ∃ w, Vals.get? fs i = some w ∧ typeOf w = t
  | .nil, _, _, _, _, hta => by cases hta
  | .cons _ _ _ _, .nil, hrt, _, _, _ => by
    simp only [rtFieldsWF] at hrt; cases hrt
  | .cons fn tg ty fds, .cons w ws, hrt, 0, t, hta => by
    simp only [rtFieldsWF, Bool.and_eq_true, beq_iff_eq] at hrt
    injection hta with hta
    exact ⟨w, rfl, by rw [hrt.1.1, hta]⟩
  | .cons fn tg ty fds, .cons w ws, hrt, i + 1, t, hta => by
    simp only [rtFieldsWF, Bool.and_eq_true] at hrt
    exact rtFieldsWF_get? p fds ws hrt.2 i t hta

/-- The stamped fields are related to the originals. -/
theorem fieldRel_stampFs (p : Poly) :
    ∀ (fds : TFields) (fs : Vals), rtFieldsWF p fds fs = true →
      fieldRel p fds fs (stampFs p fs) = true
  | .nil, .nil, _ => rfl
  | .nil, .cons _ _, hrt => by simp only [rtFieldsWF] at hrt; cases hrt
  | .cons _ _ _ _, .nil, hrt => by simp only [rtFieldsWF] at hrt; cases hrt
  | .cons fn tg ty fds, .cons w ws, hrt => by
    simp only [rtFieldsWF, Bool.and_eq_true] at hrt
    rw [stampFs, fieldRel, Bool.and_eq_true]
    exact ⟨by simp, fieldRel_stampFs p fds ws hrt.2⟩

/-- Overriding a scalar field of the stamped fields with a scalar of its
kind stays related to the originals. -/
theorem fieldRel_set (p : Poly) :
    ∀ (fds : TFields) (fs : Vals) (fp : Nat) (q dv : GoPrim),
      rtFieldsWF p fds fs = true → Vals.get? fs fp = some (.prim q) →
      kindOf dv = kindOf q →
      fieldRel p fds fs ((stampFs p fs).set fp (.prim dv)) = true
  | .nil, .nil, _, _, _, _, hget, _ => by cases hget
  | .nil, .cons _ _, _, _, _, hrt, _, _ => by
    simp only [rtFieldsWF] at hrt; cases hrt
  | .cons _ _ _ _, .nil, _, _, _, hrt, _, _ => by
    simp only [rtFieldsWF] at hrt; cases hrt
  | .cons fn tg ty fds, .cons w ws, 0, q, dv, hrt, hget, hk => by
    simp only [rtFieldsWF, Bool.and_eq_true] at hrt
    injection hget with hget
    rw [stampFs]
    rw [Vals.set, fieldRel, Bool.and_eq_true]
    refine ⟨?_, fieldRel_stampFs p fds ws hrt.2⟩
    rw [hget]
    have : primOverride (.prim q) (.prim dv) = true := by
      rw [primOverride]
      simp [hk]
    rw [this]
    simp
  | .cons fn tg ty fds, .cons w ws, fp + 1, q, dv, hrt, hget, hk => by
    simp only [rtFieldsWF, Bool.and_eq_true] at hrt
    rw [stampFs, Vals.set, fieldRel, Bool.and_eq_true]
    exact ⟨by simp, fieldRel_set p fds ws fp q dv hrt.2 hget hk⟩

/-- Decoding a scalar document value into a zero scalar slot of the same
kind yields the document's scalar. -/
theorem decode_prim_prim (z dv : GoPrim) (h : kindOf z = kindOf dv)
    (m : Nat) : decode (m + 1) (.prim z) (encode (.prim dv)) =
      some (.prim dv) := by
  cases dv with
  | pstr s =>
    have hk : kindOf z = PrimKind.kstr := h
    simp only [encode, decode, hk]
  | pint i =>
    have hk : kindOf z = PrimKind.kint := h
    simp [encode, decode, hk, Rat.den_intCast, Rat.num_intCast]
  | pfloat q =>
    have hk : kindOf z = PrimKind.kfloat := h
    simp only [encode, decode, hk]
  | pbool b =>
    have hk : kindOf z = PrimKind.kbool := h
    simp only [encode, decode, hk]

/-- The discriminant write on the stamped instance, evaluated: the
first type-match's value is written at its recorded field position. -/
theorem writeDisc_eval (p : Poly) (k : String) (entry : polyType)
    (nm : String) (fds : TFields) (fs : Vals) (dv : GoPrim) (fp : Nat)
    (hlk : p.lookupType k = some entry)
    (hfm : firstMatch (GoType.struct_ nm fds) entry.structTypes
      entry.structValues entry.structFieldPos = some (dv, fp)) :
    writeDisc p k (stampF p (.struct_ nm fds fs)) =
      .struct_ nm fds ((stampFs p fs).set fp (.prim dv)) := by
  have hty : typeOf (stampF p (.struct_ nm fds fs)) = GoType.struct_ nm fds :=
    typeOf_stampF p (.struct_ nm fds fs)
  rw [writeDisc]
  simp only [hlk, hty, hfm]
  rw [stampF, setPrimField]

/-- The pre-encode binding scan agrees with `firstMatch`: on the first
type-match it performs the discriminant write of the matched binding. -/
theorem stampScan_of_firstMatch (k : String) (addr : Bool) (u : GoVal)
    (dv : GoPrim) (fp : Nat) :
    ∀ (ts : List GoType) (dvs : List GoPrim) (fps : List Nat),
      firstMatch (typeOf u) ts dvs fps = some (dv, fp) →
      stampScan k addr u ts dvs fps = setDiscriminant addr u fp dv := by
  intro ts
  induction ts with
  | nil =>
    intro dvs fps h
    simp [firstMatch] at h
  | cons s ts' ih =>
    intro dvs fps h
    cases dvs with
    | nil => simp [firstMatch] at h
    | cons d ds =>
      cases fps with
      | nil => simp [firstMatch] at h
      | cons f fs' =>
        rw [firstMatch] at h
        rw [stampScan]
        rcases hs : s == typeOf u with _ | _
        · rw [hs] at h
          simp only [Bool.false_eq_true, if_false] at h ⊢
          exact ih ds fs' h
        · rw [hs] at h
          simp only [if_true] at h ⊢
          injection h with h
          injection h with h1 h2
          subst h1; subst h2
          rfl

mutual
/-- The strict pre-encode pass is the identity (with outcome `ok`) on
interface-free subtrees. -/
theorem marshal_plain (p : Poly) :
    ∀ v : GoVal, plainWF v = true →
      ∃ N, ∀ n, N ≤ n → ∀ addr,
        beforeMarshalJSONValue p n addr v true = (v, .ok)
  | .prim q, _ => by
    refine ⟨1, ?_⟩
    intro n hn addr
    cases n with
    | zero => exact absurd hn (by omega)
    | succ n' => simp [beforeMarshalJSONValue, bmCore, mStep]
  | .struct_ nm fds fs, h => by
    rw [plainWF, Bool.and_eq_true] at h
    obtain ⟨N, hN⟩ := marshal_plain_fields p fds fs h.2
    refine ⟨N + 1, ?_⟩
    intro n hn addr
    cases n with
    | zero => exact absurd hn (by omega)
    | succ n' =>
      have hfs := hN n' (by omega) addr
      simp [beforeMarshalJSONValue, bmCore, mStep, hfs]
  | .slice t es, h => by
    rw [plainWF] at h
    obtain ⟨N, hN⟩ := marshal_plain_elems p t es h
    refine ⟨N + 1, ?_⟩
    intro n hn addr
    cases n with
    | zero => exact absurd hn (by omega)
    | succ n' =>
      have hes := hN n' (by omega) true
      simp [beforeMarshalJSONValue, bmCore, mStep, hes]
  | .ptr t (.prim q), _ => by
    refine ⟨1, ?_⟩
    intro n hn addr
    cases n with
    | zero => exact absurd hn (by omega)
    | succ n' => simp [beforeMarshalJSONValue, bmCore, mStep]
  | .ptr t (.struct_ nm fds fs), h => by
    simp only [plainWF, Bool.and_eq_true] at h
    obtain ⟨N, hN⟩ := marshal_plain_fields p fds fs h.2.2
    refine ⟨N + 1, ?_⟩
    intro n hn addr
    cases n with
    | zero => exact absurd hn (by omega)
    | succ n' =>
      have hfs := hN n' (by omega) true
      simp [beforeMarshalJSONValue, bmCore, mStep, hfs]
  | .ptr t (.slice t' es), h => by
    simp only [plainWF, Bool.and_eq_true] at h
    obtain ⟨N, hN⟩ := marshal_plain_elems p t' es h.2
    refine ⟨N + 1, ?_⟩
    intro n hn addr
    cases n with
    | zero => exact absurd hn (by omega)
    | succ n' =>
      have hes := hN n' (by omega) true
      simp [beforeMarshalJSONValue, bmCore, mStep, hes]
  | .ptr t (.ptr t' w), h => by simp [plainWF, notPtrShape] at h
  | .ptr t (.pnil t'), h => by simp [plainWF, notPtrShape] at h
  | .ptr t (.iface k w), h => by simp [plainWF] at h
  | .ptr t (.inil k), h => by simp [plainWF] at h
  | .pnil t, _ => by
    refine ⟨1, ?_⟩
    intro n hn addr
    cases n with
    | zero => exact absurd hn (by omega)
    | succ n' => simp [beforeMarshalJSONValue]
  | .iface k w, h => by simp [plainWF] at h
  | .inil k, h => by simp [plainWF] at h

/-- The strict pre-encode field iteration is the identity on
interface-free field lists. -/
theorem marshal_plain_fields (p : Poly) :
    ∀ (fds : TFields) (fs : Vals), plainFieldsWF fds fs = true →
      ∃ N, ∀ n, N ≤ n → ∀ addr,
        walkVals (fun u => beforeMarshalJSONValue p n addr u true) fs =
          (fs, .ok)
  | .nil, .nil, _ => ⟨0, fun _ _ _ => rfl⟩
  | .nil, .cons _ _, h => by simp only [plainFieldsWF] at h; cases h
  | .cons _ _ _ _, .nil, _ => ⟨0, fun _ _ _ => rfl⟩
  | .cons fn tg ty fds, .cons w ws, h => by
    simp only [plainFieldsWF, Bool.and_eq_true] at h
    obtain ⟨N0, h0⟩ := marshal_plain p w h.1.2
    obtain ⟨N1, h1⟩ := marshal_plain_fields p fds ws h.2
    refine ⟨max N0 N1, ?_⟩
    intro n hn addr
    simp [walkVals, h0 n (le_trans (le_max_left _ _) hn) addr,
      h1 n (le_trans (le_max_right _ _) hn) addr]

/-- The strict pre-encode element iteration is the identity on
interface-free element lists. -/
theorem marshal_plain_elems (p : Poly) :
    ∀ (t : GoType) (es : Vals), plainElemsWF t es = true →
      ∃ N, ∀ n, N ≤ n → ∀ addr,
        walkVals (fun u => beforeMarshalJSONValue p n addr u true) es =
          (es, .ok)
  | _, .nil, _ => ⟨0, fun _ _ _ => rfl⟩
  | t, .cons w ws, h => by
    simp only [plainElemsWF, Bool.and_eq_true] at h
    obtain ⟨N0, h0⟩ := marshal_plain p w h.1.2
    obtain ⟨N1, h1⟩ := marshal_plain_elems p t ws h.2
    refine ⟨max N0 N1, ?_⟩
    intro n hn addr
    simp [walkVals, h0 n (le_trans (le_max_left _ _) hn) addr,
      h1 n (le_trans (le_max_right _ _) hn) addr]
end

mutual
/-- The strict pre-encode pass computes `stampF` on round-trip
well-formed trees: it succeeds and its only effect is the discriminant
write at each registered interface slot. -/
theorem marshal_rt (p : Poly) :
    ∀ v : GoVal, rtWF p v = true →
      ∃ N, ∀ n, N ≤ n → ∀ addr,
        beforeMarshalJSONValue p n addr v true = (stampF p v, .ok)
  | .prim q, _ => by
    refine ⟨1, ?_⟩
    intro n hn addr
    cases n with
    | zero => exact absurd hn (by omega)
    | succ n' => simp [beforeMarshalJSONValue, bmCore, mStep, stampF]
  | .struct_ nm fds fs, h => by
    rw [rtWF, Bool.and_eq_true] at h
    obtain ⟨N, hN⟩ := marshal_rt_fields p fds fs h.2
    refine ⟨N + 1, ?_⟩
    intro n hn addr
    cases n with
    | zero => exact absurd hn (by omega)
    | succ n' =>
      have hfs := hN n' (by omega) addr
      simp [beforeMarshalJSONValue, bmCore, mStep, hfs, stampF]
  | .slice t es, h => by
    rw [rtWF] at h
    obtain ⟨N, hN⟩ := marshal_rt_elems p t es h
    refine ⟨N + 1, ?_⟩
    intro n hn addr
    cases n with
    | zero => exact absurd hn (by omega)
    | succ n' =>
      have hes := hN n' (by omega) true
      simp [beforeMarshalJSONValue, bmCore, mStep, hes, stampF]
  | .ptr t w, h => by
    rw [rtWF] at h
    have hpl : plainWF (.ptr t w) = true := by rw [plainWF]; exact h
    have hplw : plainWF w = true := by
      rw [plainWF, Bool.and_eq_true] at hpl
      exact hpl.2
    obtain ⟨N, hN⟩ := marshal_plain p (.ptr t w) hpl
    refine ⟨N, ?_⟩
    intro n hn addr
    rw [stampF, stampF_plain_id p w hplw]
    exact hN n hn addr
  | .pnil t, _ => by
    refine ⟨1, ?_⟩
    intro n hn addr
    cases n with
    | zero => exact absurd hn (by omega)
    | succ n' => simp [beforeMarshalJSONValue, stampF]
  | .iface k (.ptr ct (.struct_ nm fds fs)), h => by
    rw [rtWF] at h
    cases hlk : p.lookupType k with
    | none => simp only [hlk] at h; cases h
    | some entry =>
      simp only [hlk, Bool.and_eq_true] at h
      obtain ⟨hct, h⟩ := h
      cases hfm : firstMatch (GoType.struct_ nm fds) entry.structTypes
          entry.structValues entry.structFieldPos with
      | none => simp only [hfm] at h; cases h
      | some dvfp =>
        obtain ⟨dv, fp⟩ := dvfp
        simp only [hfm, Bool.and_eq_true, beq_iff_eq] at h
        obtain ⟨⟨⟨⟨_, htA⟩, _⟩, _⟩, hrtu⟩ := h
        rw [rtWF, Bool.and_eq_true] at hrtu
        have hwd := writeDisc_eval p k entry nm fds fs dv fp hlk hfm
        rw [stampF] at hwd
        have hscan : stampScan k true (.struct_ nm fds fs)
            entry.structTypes entry.structValues entry.structFieldPos =
            setDiscriminant true (.struct_ nm fds fs) fp dv :=
          stampScan_of_firstMatch k true (.struct_ nm fds fs) dv fp
            entry.structTypes entry.structValues entry.structFieldPos hfm
        have hset : setDiscriminant true (.struct_ nm fds fs) fp dv =
            (.struct_ nm fds (fs.set fp (.prim dv)), .ok) := by
          simp [setDiscriminant, typeAt_lt fds fp _ htA, htA]
        obtain ⟨N, hN⟩ := marshal_rt_fields_set p fds fs fp dv hrtu.2
        refine ⟨N + 1, ?_⟩
        intro n hn addr
        cases n with
        | zero => exact absurd hn (by omega)
        | succ n' =>
          have hws := hN n' (by omega) true
          simp [beforeMarshalJSONValue, bmCore, hlk, hscan, hset, mStep,
            hws, stampF, hwd]
  | .iface k (.ptr ct (.prim q)), h => by
    cases hlk : p.lookupType k <;> simp [rtWF, hlk] at h
  | .iface k (.ptr ct (.slice t es)), h => by
    cases hlk : p.lookupType k <;> simp [rtWF, hlk] at h
  | .iface k (.ptr ct (.ptr t w)), h => by
    cases hlk : p.lookupType k <;> simp [rtWF, hlk] at h
  | .iface k (.ptr ct (.pnil t)), h => by
    cases hlk : p.lookupType k <;> simp [rtWF, hlk] at h
  | .iface k (.ptr ct (.iface k' w)), h => by
    cases hlk : p.lookupType k <;> simp [rtWF, hlk] at h
  | .iface k (.ptr ct (.inil k')), h => by
    cases hlk : p.lookupType k <;> simp [rtWF, hlk] at h
  | .iface k (.prim q), h => by simp [rtWF] at h
  | .iface k (.struct_ nm fds fs), h => by simp [rtWF] at h
  | .iface k (.slice t es), h => by simp [rtWF] at h
  | .iface k (.pnil t), h => by simp [rtWF] at h
  | .iface k (.iface k' w), h => by simp [rtWF] at h
  | .iface k (.inil k'), h => by simp [rtWF] at h
  | .inil k, h => by simp [rtWF] at h

/-- Field iteration of the strict pre-encode pass on round-trip
well-formed fields computes the stamped fields. -/
theorem marshal_rt_fields (p : Poly) :
    ∀ (fds : TFields) (fs : Vals), rtFieldsWF p fds fs = true →
      ∃ N, ∀ n, N ≤ n → ∀ addr,
        walkVals (fun u => beforeMarshalJSONValue p n addr u true) fs =
          (stampFs p fs, .ok)
  | .nil, .nil, _ => ⟨0, fun _ _ _ => rfl⟩
  | .nil, .cons _ _, h => by simp only [rtFieldsWF] at h; cases h
  | .cons _ _ _ _, .nil, h => by simp only [rtFieldsWF] at h; cases h
  | .cons fn tg ty fds, .cons w ws, h => by
    simp only [rtFieldsWF, Bool.and_eq_true] at h
    obtain ⟨⟨_, hcond⟩, htail⟩ := h
    have hhead : ∃ N0, ∀ n, N0 ≤ n → ∀ addr,
        beforeMarshalJSONValue p n addr w true = (stampF p w, .ok) := by
      by_cases h1 : (tg == "") = true
      · simp only [h1, if_true] at hcond
        obtain ⟨N0, h0⟩ := marshal_plain p w hcond
        exact ⟨N0, fun n hn a => by
          rw [stampF_plain_id p w hcond]; exact h0 n hn a⟩
      · simp only [h1, if_false] at hcond
        by_cases h2 : (jsonFieldName tg == "") = true
        · simp only [h2, if_true] at hcond
          obtain ⟨N0, h0⟩ := marshal_plain p w hcond
          exact ⟨N0, fun n hn a => by
            rw [stampF_plain_id p w hcond]; exact h0 n hn a⟩
        · simp only [h2, if_false] at hcond
          exact marshal_rt p w hcond
    obtain ⟨N0, h0⟩ := hhead
    obtain ⟨N1, h1⟩ := marshal_rt_fields p fds ws htail
    refine ⟨max N0 N1, ?_⟩
    intro n hn addr
    simp [walkVals, stampFs, h0 n (le_trans (le_max_left _ _) hn) addr,
      h1 n (le_trans (le_max_right _ _) hn) addr]

/-- Field iteration of the strict pre-encode pass after the discriminant
write: the written scalar passes through untouched, the other fields are
stamped. -/
theorem marshal_rt_fields_set (p : Poly) :
    ∀ (fds : TFields) (fs : Vals) (fp : Nat) (dv : GoPrim),
      rtFieldsWF p fds fs = true →
      ∃ N, ∀ n, N ≤ n → ∀ addr,
        walkVals (fun u => beforeMarshalJSONValue p n addr u true)
          (fs.set fp (.prim dv)) =
          ((stampFs p fs).set fp (.prim dv), .ok)
  | _, .nil, _, _, _ => ⟨0, fun _ _ _ => rfl⟩
  | .nil, .cons _ _, _, _, h => by simp only [rtFieldsWF] at h; cases h
  | .cons fn tg ty fds, .cons w ws, 0, dv, h => by
    simp only [rtFieldsWF, Bool.and_eq_true] at h
    obtain ⟨N1, h1⟩ := marshal_rt_fields p fds ws h.2
    refine ⟨N1 + 1, ?_⟩
    intro n hn addr
    cases n with
    | zero => exact absurd hn (by omega)
    | succ n' =>
      have h0 : beforeMarshalJSONValue p (n' + 1) addr (.prim dv) true =
          (.prim dv, .ok) := by simp [beforeMarshalJSONValue, bmCore, mStep]
      simp [Vals.set, walkVals, stampFs, h0, h1 (n' + 1) (by omega) addr]
  | .cons fn tg ty fds, .cons w ws, fp + 1, dv, h => by
    simp only [rtFieldsWF, Bool.and_eq_true] at h
    obtain ⟨⟨_, hcond⟩, htail⟩ := h
    have hhead : ∃ N0, ∀ n, N0 ≤ n → ∀ addr,
        beforeMarshalJSONValue p n addr w true = (stampF p w, .ok) := by
      by_cases h1 : (tg == "") = true
      · simp only [h1, if_true] at hcond
        obtain ⟨N0, h0⟩ := marshal_plain p w hcond
        exact ⟨N0, fun n hn a => by
          rw [stampF_plain_id p w hcond]; exact h0 n hn a⟩
      · simp only [h1, if_false] at hcond
        by_cases h2 : (jsonFieldName tg == "") = true
        · simp only [h2, if_true] at hcond
          obtain ⟨N0, h0⟩ := marshal_plain p w hcond
          exact ⟨N0, fun n hn a => by
            rw [stampF_plain_id p w hcond]; exact h0 n hn a⟩
        · simp only [h2, if_false] at hcond
          exact marshal_rt p w hcond
    obtain ⟨N0, h0⟩ := hhead
    obtain ⟨N1, h1⟩ := marshal_rt_fields_set p fds ws fp dv htail
    refine ⟨max N0 N1, ?_⟩
    intro n hn addr
    simp [Vals.set, walkVals, stampFs,
      h0 n (le_trans (le_max_left _ _) hn) addr,
      h1 n (le_trans (le_max_right _ _) hn) addr]

/-- Element iteration of the strict pre-encode pass on round-trip
well-formed elements computes the stamped elements. -/
theorem marshal_rt_elems (p : Poly) :
    ∀ (t : GoType) (es : Vals), rtElemsWF p t es = true →
      ∃ N, ∀ n, N ≤ n → ∀ addr,
        walkVals (fun u => beforeMarshalJSONValue p n addr u true) es =
          (stampEs p es, .ok)
  | _, .nil, _ => ⟨0, fun _ _ _ => rfl⟩
  | t, .cons w ws, h => by
    simp only [rtElemsWF, Bool.and_eq_true] at h
    obtain ⟨N0, h0⟩ := marshal_rt p w h.1.2
    obtain ⟨N1, h1⟩ := marshal_rt_elems p t ws h.2
    refine ⟨max N0 N1, ?_⟩
    intro n hn addr
    simp [walkVals, stampEs, h0 n (le_trans (le_max_left _ _) hn) addr,
      h1 n (le_trans (le_max_right _ _) hn) addr]
end

/-- The pre-decode pass leaves scalar targets untouched. -/
theorem unmarshal_prim_id (p : Poly) (buf : JValue) (n : Nat)
    (pfx : List String) (addr : Bool) (q : GoPrim) (strict : Bool) :
    beforeUnmarshalJSONValue p buf (n + 1) pfx addr (.prim q) strict =
      (.prim q, .ok) := by
  simp [beforeUnmarshalJSONValue, umCore, uStep]

mutual
/-- The pre-decode pass over the document produced by stamping and
encoding a round-trip well-formed value turns the fresh zero tree of the
value's type into the prepared tree `prepVal`: each interface slot gets
a freshly allocated instance of the resolved binding's struct type. -/
theorem unmarshal_prep (p : Poly) (buf : JValue) :
    ∀ (v : GoVal) (pfx : List String), rtWF p v = true →
      (primShape v = false →
        jGet buf pfx = some (encode (stampF p v))) →
      ∃ N, ∀ n, N ≤ n →
        beforeUnmarshalJSONValue p buf n pfx true (zeroVal (typeOf v)) true =
          (prepVal p v, .ok)
  | .prim q, pfx, _, _ => by
    refine ⟨1, ?_⟩
    intro n hn
    cases n with
    | zero => exact absurd hn (by omega)
    | succ n' =>
      simp [beforeUnmarshalJSONValue, umCore, uStep, zeroVal, typeOf,
        prepVal, zeroOfPrim]
  | .struct_ nm fds fs, pfx, h, hbuf => by
    rw [rtWF, Bool.and_eq_true] at h
    have hb := hbuf rfl
    rw [stampF, encode] at hb
    obtain ⟨N, hN⟩ := unmarshal_prep_fields p buf fds fs (stampFs p fs)
      (encodeFields fds (stampFs p fs)) pfx h.2
      (fieldRel_stampFs p fds fs h.2)
      (lookupsMatch_self fds (stampFs p fs) h.1) hb
    refine ⟨N + 1, ?_⟩
    intro n hn
    cases n with
    | zero => exact absurd hn (by omega)
    | succ n' =>
      have hfs := hN n' (by omega)
      simp [beforeUnmarshalJSONValue, umCore, uStep, zeroVal, typeOf,
        prepVal, hfs]
  | .slice t es, pfx, h, hbuf => by
    rw [rtWF] at h
    have hb := hbuf rfl
    rw [stampF, encode] at hb
    have hlen : jGet buf (pfx ++ ["#"]) =
        some (.num ((Vals.length es : Nat) : ℚ)) := by
      rw [jGet_snoc "#" pfx buf _ hb, jGet_arr_len, jArrLength_encodeElems,
        stampEs_length]
    have harr : ∀ jdx w, Vals.get? es jdx = some w →
        jGet buf (pfx ++ [toString (0 + jdx)]) =
          some (encode (stampF p w)) := by
      intro jdx w hw
      rw [Nat.zero_add, jGet_snoc (toString jdx) pfx buf _ hb]
      refine jGet_arr_idx _ jdx _ ?_
      refine jArrGet_encodeElems (stampEs p es) jdx (stampF p w) ?_
      rw [stampEs_get? p es jdx, hw]
      rfl
    obtain ⟨N, hN⟩ := unmarshal_prep_elems p buf t es 0 pfx h harr
    refine ⟨N + 1, ?_⟩
    intro n hn
    cases n with
    | zero => exact absurd hn (by omega)
    | succ n' =>
      have hes := hN n' (by omega)
      have hl : gjsonInt (jGet buf (pfx ++ ["#"])) = (Vals.length es : Int) := by
        rw [hlen]
        simp only [gjsonInt]
        exact ratTrunc_natCast _
      have hnneg : ¬ ((Vals.length es : Int) < 0) := by omega
      have htn : ((Vals.length es : Int)).toNat = Vals.length es := by omega
      simp [beforeUnmarshalJSONValue, umCore, uStep, zeroVal, typeOf,
        prepVal, hl, hnneg, htn, hes]
  | .ptr t w, pfx, _, _ => by
    refine ⟨1, ?_⟩
    intro n hn
    cases n with
    | zero => exact absurd hn (by omega)
    | succ n' => simp [beforeUnmarshalJSONValue, zeroVal, typeOf, prepVal]
  | .pnil t, pfx, _, _ => by
    refine ⟨1, ?_⟩
    intro n hn
    cases n with
    | zero => exact absurd hn (by omega)
    | succ n' => simp [beforeUnmarshalJSONValue, zeroVal, typeOf, prepVal]
  | .iface k (.ptr ct (.struct_ nm fds fs)), pfx, h, hbuf => by
    rw [rtWF] at h
    cases hlk : p.lookupType k with
    | none => simp only [hlk] at h; cases h
    | some entry =>
      simp only [hlk, Bool.and_eq_true] at h
      obtain ⟨hct, h⟩ := h
      cases hfm : firstMatch (GoType.struct_ nm fds) entry.structTypes
          entry.structValues entry.structFieldPos with
      | none => simp only [hfm] at h; cases h
      | some dvfp =>
        obtain ⟨dv, fp⟩ := dvfp
        simp only [hfm] at h
        cases hfa : fds.fieldAt fp with
        | none => simp only [hfa] at h; simp at h
        | some ftt =>
          obtain ⟨ffn, ftg, fty⟩ := ftt
          cases hrs : resolveScan (some dv) entry.structValues with
          | none => simp only [hfa, hrs] at h; simp at h
          | some pos =>
            simp only [hfa, hrs, Bool.and_eq_true, beq_iff_eq] at h
            obtain ⟨⟨⟨⟨hstable, htA⟩, ⟨hdfn, hne⟩⟩, hcr⟩, hrtu⟩ := h
            rw [rtWF, Bool.and_eq_true] at hrtu
            obtain ⟨hnd, hrtF⟩ := hrtu
            have hne' : (entry.discriminantFieldName == "") = false := by
              simp only [Bool.not_eq_true'] at hne
              exact hne
            have hkne : (jsonFieldName ftg == "") = false := by
              rw [hdfn]; exact hne'
            have hwd := writeDisc_eval p k entry nm fds fs dv fp hlk hfm
            have henc : encode (stampF p
                (.iface k (.ptr ct (.struct_ nm fds fs)))) =
                .obj (encodeFields fds ((stampFs p fs).set fp (.prim dv))) := by
              rw [stampF, hwd, encode, encode, encode]
            have hb := hbuf rfl
            rw [henc] at hb
            obtain ⟨wfp, hwfp, htwfp⟩ := rtFieldsWF_get? p fds fs hrtF fp _ htA
            obtain ⟨q, hq, hkq⟩ := typeOf_prim_shape wfp (kindOf dv) htwfp
            have hgetfp : Vals.get? ((stampFs p fs).set fp (.prim dv)) fp =
                some (.prim dv) := by
              refine get?_set_eq (stampFs p fs) fp (.prim dv)
                (stampF p wfp) ?_
              rw [stampFs_get? p fs fp, hwfp]
              rfl
            have hdk : jGet buf (pfx ++ [entry.discriminantFieldName]) =
                some (encode (.prim dv)) := by
              rw [jGet_snoc _ pfx buf _ hb, jGet_obj_single, ← hdfn,
                ← encKey_of_usable ffn ftg hkne]
              exact encodeFields_lookup fds _ fp ffn ftg fty (.prim dv)
                hnd hfa hgetfp
            have hdkey : discriminantKey entry buf pfx = some (some dv) := by
              simp only [discriminantKey, hdk,
                gjsonValue_encode_stable dv hstable]
            have hrel : fieldRel p fds fs ((stampFs p fs).set fp (.prim dv)) =
                true := by
              refine fieldRel_set p fds fs fp q dv hrtF ?_ hkq.symm
              rw [← hq]; exact hwfp
            obtain ⟨N, hN⟩ := unmarshal_prep_fields p buf fds fs
              ((stampFs p fs).set fp (.prim dv))
              (encodeFields fds ((stampFs p fs).set fp (.prim dv))) pfx
              hrtF hrel
              (lookupsMatch_self fds _ hnd) hb
            refine ⟨N + 1, ?_⟩
            intro n hn
            cases n with
            | zero => exact absurd hn (by omega)
            | succ n' =>
              have hfs := hN n' (by omega)
              have hcr' : entry.structCreators[pos]? =
                  some (GoType.struct_ nm fds) := by simpa using hcr
              simp [beforeUnmarshalJSONValue, umCore, uStep, zeroVal, typeOf,
                prepVal, hlk, hdkey, assignFromKey, hrs, hcr', hfs]
  | .iface k (.ptr ct (.prim q)), pfx, h, _ => by
    cases hlk : p.lookupType k <;> simp [rtWF, hlk] at h
  | .iface k (.ptr ct (.slice t es)), pfx, h, _ => by
    cases hlk : p.lookupType k <;> simp [rtWF, hlk] at h
  | .iface k (.ptr ct (.ptr t w)), pfx, h, _ => by
    cases hlk : p.lookupType k <;> simp [rtWF, hlk] at h
  | .iface k (.ptr ct (.pnil t)), pfx, h, _ => by
    cases hlk : p.lookupType k <;> simp [rtWF, hlk] at h
  | .iface k (.ptr ct (.iface k' w)), pfx, h, _ => by
    cases hlk : p.lookupType k <;> simp [rtWF, hlk] at h
  | .iface k (.ptr ct (.inil k')), pfx, h, _ => by
    cases hlk : p.lookupType k <;> simp [rtWF, hlk] at h
  | .iface k (.prim q), pfx, h, _ => by simp [rtWF] at h
  | .iface k (.struct_ nm fds fs), pfx, h, _ => by simp [rtWF] at h
  | .iface k (.slice t es), pfx, h, _ => by simp [rtWF] at h
  | .iface k (.pnil t), pfx, h, _ => by simp [rtWF] at h
  | .iface k (.iface k' w), pfx, h, _ => by simp [rtWF] at h
  | .iface k (.inil k'), pfx, h, _ => by simp [rtWF] at h
  | .inil k, pfx, h, _ => by simp [rtWF] at h

/-- Field iteration of the pre-decode pass over zero fields, driven by
an object whose lookups match the recovered field values. -/
theorem unmarshal_prep_fields (p : Poly) (buf : JValue) :
    ∀ (fds : TFields) (fs ws : Vals) (kvs : JObj) (pfx : List String),
      rtFieldsWF p fds fs = true → fieldRel p fds fs ws = true →
      lookupsMatch kvs fds ws = true → jGet buf pfx = some (.obj kvs) →
      ∃ N, ∀ n, N ≤ n →
        uFields (fun q a u => beforeUnmarshalJSONValue p buf n q a u true)
          pfx true fds (zeroFields fds) = (prepFields p fds fs, .ok)
  | .nil, .nil, .nil, _, _, _, _, _, _ => ⟨0, fun _ _ => rfl⟩
  | .nil, .cons _ _, _, _, _, hrt, _, _, _ => by
    simp only [rtFieldsWF] at hrt; cases hrt
  | .cons _ _ _ _, .nil, _, _, _, hrt, _, _, _ => by
    simp only [rtFieldsWF] at hrt; cases hrt
  | .nil, .nil, .cons _ _, _, _, _, hrel, _, _ => by
    simp only [fieldRel] at hrel; cases hrel
  | .cons _ _ _ _, .cons _ _, .nil, _, _, _, hrel, _, _ => by
    simp only [fieldRel] at hrel; cases hrel
  | .cons fn tg ty fds, .cons w fs', .cons w' ws', kvs, pfx, hrt, hrel, hlm,
      hobj => by
    simp only [rtFieldsWF, Bool.and_eq_true] at hrt
    obtain ⟨⟨htyw0, hcond⟩, hrtT⟩ := hrt
    have htyw : typeOf w = ty := by simpa using htyw0
    rw [fieldRel, Bool.and_eq_true] at hrel
    obtain ⟨hrelH, hrelT⟩ := hrel
    rw [lookupsMatch, Bool.and_eq_true] at hlm
    obtain ⟨hlkH, hlmT⟩ := hlm
    obtain ⟨N1, h1⟩ := unmarshal_prep_fields p buf fds fs' ws' kvs pfx
      hrtT hrelT hlmT hobj
    by_cases h1t : (tg == "") = true
    · refine ⟨N1, ?_⟩
      intro n hn
      simp [uFields, zeroFields, prepFields, h1t, h1 n hn]
    · by_cases h2t : (jsonFieldName tg == "") = true
      · refine ⟨N1, ?_⟩
        intro n hn
        simp [uFields, zeroFields, prepFields, h1t, h2t, h1 n hn]
      · simp only [h1t, if_false, h2t, if_false] at hcond
        have hbufw : primShape w = false →
            jGet buf (pfx ++ [jsonFieldName tg]) =
              some (encode (stampF p w)) := by
          intro hps
          rw [Bool.or_eq_true] at hrelH
          rcases hrelH with hrelH | hrelH
          · have hw' : w' = stampF p w := by simpa using hrelH
            rw [jGet_snoc _ pfx buf _ hobj, jGet_obj_single,
              ← encKey_of_usable fn tg (by simpa using h2t)]
            have : jObjLookup kvs (encKey fn tg) = some (encode w') := by
              simpa using hlkH
            rw [this, hw']
          · exfalso
            cases w with
            | prim q => simp [primShape] at hps
            | struct_ nm' fds' fs'' => simp [primOverride] at hrelH
            | slice t' es' => simp [primOverride] at hrelH
            | ptr t' u' => simp [primOverride] at hrelH
            | pnil t' => simp [primOverride] at hrelH
            | iface k' u' => simp [primOverride] at hrelH
            | inil k' => simp [primOverride] at hrelH
        obtain ⟨N0, h0⟩ := unmarshal_prep p buf w (pfx ++ [jsonFieldName tg])
          hcond hbufw
        refine ⟨max N0 N1, ?_⟩
        intro n hn
        have hh := h0 n (le_trans (le_max_left _ _) hn)
        rw [htyw] at hh
        simp [uFields, zeroFields, prepFields, h1t, h2t, hh,
          h1 n (le_trans (le_max_right _ _) hn)]

/-- Element iteration of the pre-decode pass over a freshly re-sized
slice, driven by the encoded stamped elements found at the indexed
paths. -/
theorem unmarshal_prep_elems (p : Poly) (buf : JValue) :
    ∀ (t : GoType) (es : Vals) (i : Nat) (pfx : List String),
      rtElemsWF p t es = true →
      (∀ jdx w, Vals.get? es jdx = some w →
        jGet buf (pfx ++ [toString (i + jdx)]) =
          some (encode (stampF p w))) →
      ∃ N, ∀ n, N ≤ n →
        uElems (fun q a u => beforeUnmarshalJSONValue p buf n q a u true)
          pfx i (valsReplicate (Vals.length es) (zeroVal t)) =
          (prepElems p es, .ok)
  | _, .nil, _, _, _, _ => ⟨0, fun _ _ => rfl⟩
  | t, .cons w ws, i, pfx, hrt, harr => by
    simp only [rtElemsWF, Bool.and_eq_true, beq_iff_eq] at hrt
    obtain ⟨⟨htw, hrw⟩, htail⟩ := hrt
    have hb0 : jGet buf (pfx ++ [toString i]) =
        some (encode (stampF p w)) := by
      have h := harr 0 w rfl
      rw [Nat.add_zero] at h
      exact h
    obtain ⟨N0, h0⟩ := unmarshal_prep p buf w (pfx ++ [toString i]) hrw
      (fun _ => hb0)
    have harr' : ∀ jdx w', Vals.get? ws jdx = some w' →
        jGet buf (pfx ++ [toString (i + 1 + jdx)]) =
          some (encode (stampF p w')) := by
      intro jdx w' hw'
      have h := harr (jdx + 1) w' hw'
      rw [show i + (jdx + 1) = i + 1 + jdx by omega] at h
      exact h
    obtain ⟨N1, h1⟩ := unmarshal_prep_elems p buf t ws (i + 1) pfx htail harr'
    refine ⟨max N0 N1, ?_⟩
    intro n hn
    have hh := h0 n (le_trans (le_max_left _ _) hn)
    rw [htw] at hh
    simp [Vals.length, valsReplicate, uElems, prepElems, hh,
      h1 n (le_trans (le_max_right _ _) hn)]
end

mutual
/-- The external decoder restores the stamped tree: decoding the
document that encodes `stampF p v` into the prepared tree left by the
pre-decode pass yields `stampF p v` exactly. -/
theorem decode_prep (p : Poly) :
    ∀ v : GoVal, rtWF p v = true →
      ∃ M, ∀ m, M ≤ m →
        decode m (prepVal p v) (encode (stampF p v)) = some (stampF p v)
  | .prim q, _ => by
    refine ⟨1, ?_⟩
    intro m hm
    cases m with
    | zero => exact absurd hm (by omega)
    | succ m' =>
      rw [stampF, prepVal]
      exact decode_prim_prim _ q (by rw [zeroOfPrim, kindOf_zeroPrim]) m'
  | .struct_ nm fds fs, h => by
    rw [rtWF, Bool.and_eq_true] at h
    obtain ⟨M, hM⟩ := decode_prep_fields p fds fs (stampFs p fs)
      (encodeFields fds (stampFs p fs)) h.2 (fieldRel_stampFs p fds fs h.2)
      (lookupsMatch_self fds (stampFs p fs) h.1)
    refine ⟨M + 1, ?_⟩
    intro m hm
    cases m with
    | zero => exact absurd hm (by omega)
    | succ m' =>
      simp only [stampF, prepVal, encode, decode]
      rw [hM m' (by omega)]
  | .slice t es, h => by
    rw [rtWF] at h
    obtain ⟨M, hM⟩ := decode_prep_elems p t es h
    refine ⟨M + 1, ?_⟩
    intro m hm
    cases m with
    | zero => exact absurd hm (by omega)
    | succ m' =>
      simp only [stampF, prepVal, encode, decode]
      rw [hM m' (by omega)]
  | .ptr t w, h => by
    rw [rtWF] at h
    simp only [Bool.and_eq_true, beq_iff_eq] at h
    obtain ⟨⟨ht, hnp⟩, hpw⟩ := h
    obtain ⟨M, hM⟩ := decode_encode_plain w (zeroVal (typeOf w)) hpw
      (conformsT_zeroVal w hpw)
    refine ⟨M + 1, ?_⟩
    intro m hm
    cases m with
    | zero => exact absurd hm (by omega)
    | succ m' =>
      have hd : decode m' (zeroVal (typeOf w)) (encode w) = some w :=
        hM m' (by omega)
      rw [ht] at hd
      rw [stampF, stampF_plain_id p w hpw, prepVal]
      show decode (m' + 1) (.pnil t) (encode (.ptr t w)) = some (.ptr t w)
      rw [encode]
      cases hje : encode w with
      | null => exact absurd hje (encode_ne_null w hpw hnp)
      | str s => rw [hje] at hd; simp only [decode, hd]
      | num q => rw [hje] at hd; simp only [decode, hd]
      | jbool b => rw [hje] at hd; simp only [decode, hd]
      | obj kvs => rw [hje] at hd; simp only [decode, hd]
      | arr js => rw [hje] at hd; simp only [decode, hd]
  | .pnil t, _ => by
    refine ⟨1, ?_⟩
    intro m hm
    cases m with
    | zero => exact absurd hm (by omega)
    | succ m' => simp only [stampF, prepVal, encode, decode]
  | .iface k (.ptr ct (.struct_ nm fds fs)), h => by
    rw [rtWF] at h
    cases hlk : p.lookupType k with
    | none => simp only [hlk] at h; cases h
    | some entry =>
      simp only [hlk, Bool.and_eq_true] at h
      obtain ⟨hct, h⟩ := h
      have hct' : GoType.struct_ nm fds = ct := by simpa using hct
      cases hfm : firstMatch (GoType.struct_ nm fds) entry.structTypes
          entry.structValues entry.structFieldPos with
      | none => simp only [hfm] at h; cases h
      | some dvfp =>
        obtain ⟨dv, fp⟩ := dvfp
        simp only [hfm, Bool.and_eq_true, beq_iff_eq] at h
        obtain ⟨⟨⟨⟨_, htA⟩, _⟩, _⟩, hrtu⟩ := h
        rw [rtWF, Bool.and_eq_true] at hrtu
        obtain ⟨hnd, hrtF⟩ := hrtu
        have hwd := writeDisc_eval p k entry nm fds fs dv fp hlk hfm
        obtain ⟨wfp, hwfp, htwfp⟩ := rtFieldsWF_get? p fds fs hrtF fp _ htA
        obtain ⟨q, hq, hkq⟩ := typeOf_prim_shape wfp (kindOf dv) htwfp
        have hrel : fieldRel p fds fs ((stampFs p fs).set fp (.prim dv)) =
            true := by
          refine fieldRel_set p fds fs fp q dv hrtF ?_ hkq.symm
          rw [← hq]; exact hwfp
        obtain ⟨M, hM⟩ := decode_prep_fields p fds fs
          ((stampFs p fs).set fp (.prim dv))
          (encodeFields fds ((stampFs p fs).set fp (.prim dv)))
          hrtF hrel (lookupsMatch_self fds _ hnd)
        refine ⟨M + 2, ?_⟩
        intro m hm
        cases m with
        | zero => exact absurd hm (by omega)
        | succ m1 =>
          cases m1 with
          | zero => exact absurd hm (by omega)
          | succ m'' =>
            have hfs := hM m'' (by omega)
            rw [stampF, hwd]
            simp only [prepVal, typeOf, encode, decode]
            rw [← hct', hfs]
  | .iface k (.ptr ct (.prim q)), h => by
    cases hlk : p.lookupType k <;> simp [rtWF, hlk] at h
  | .iface k (.ptr ct (.slice t es)), h => by
    cases hlk : p.lookupType k <;> simp [rtWF, hlk] at h
  | .iface k (.ptr ct (.ptr t w)), h => by
    cases hlk : p.lookupType k <;> simp [rtWF, hlk] at h
  | .iface k (.ptr ct (.pnil t)), h => by
    cases hlk : p.lookupType k <;> simp [rtWF, hlk] at h
  | .iface k (.ptr ct (.iface k' w)), h => by
    cases hlk : p.lookupType k <;> simp [rtWF, hlk] at h
  | .iface k (.ptr ct (.inil k')), h => by
    cases hlk : p.lookupType k <;> simp [rtWF, hlk] at h
  | .iface k (.prim q), h => by simp [rtWF] at h
  | .iface k (.struct_ nm fds fs), h => by simp [rtWF] at h
  | .iface k (.slice t es), h => by simp [rtWF] at h
  | .iface k (.pnil t), h => by simp [rtWF] at h
  | .iface k (.iface k' w), h => by simp [rtWF] at h
  | .iface k (.inil k'), h => by simp [rtWF] at h
  | .inil k, h => by simp [rtWF] at h

/-- Decoding an object whose lookups match the recovered field values
into the prepared fields yields those values. -/
theorem decode_prep_fields (p : Poly) :
    ∀ (fds : TFields) (fs ws : Vals) (kvs : JObj),
      rtFieldsWF p fds fs = true → fieldRel p fds fs ws = true →
      lookupsMatch kvs fds ws = true →
      ∃ M, ∀ m, M ≤ m →
        decodeFieldsWith (decode m) kvs fds (prepFields p fds fs) = some ws
  | .nil, .nil, .nil, _, _, _, _ => ⟨0, fun _ _ => rfl⟩
  | .nil, .cons _ _, _, _, hrt, _, _ => by
    simp only [rtFieldsWF] at hrt; cases hrt
  | .cons _ _ _ _, .nil, _, _, hrt, _, _ => by
    simp only [rtFieldsWF] at hrt; cases hrt
  | .nil, .nil, .cons _ _, _, _, hrel, _ => by
    simp only [fieldRel] at hrel; cases hrel
  | .cons _ _ _ _, .cons _ _, .nil, _, _, hrel, _ => by
    simp only [fieldRel] at hrel; cases hrel
  | .cons fn tg ty fds, .cons w fs', .cons w' ws', kvs, hrt, hrel, hlm => by
    simp only [rtFieldsWF, Bool.and_eq_true] at hrt
    obtain ⟨⟨htyw0, hcond⟩, hrtT⟩ := hrt
    have htyw : typeOf w = ty := by simpa using htyw0
    rw [fieldRel, Bool.and_eq_true] at hrel
    obtain ⟨hrelH, hrelT⟩ := hrel
    rw [lookupsMatch, Bool.and_eq_true] at hlm
    obtain ⟨hlkH0, hlmT⟩ := hlm
    have hlkH : jObjLookup kvs (encKey fn tg) = some (encode w') := by
      simpa using hlkH0
    obtain ⟨M1, h1⟩ := decode_prep_fields p fds fs' ws' kvs hrtT hrelT hlmT
    rw [Bool.or_eq_true] at hrelH
    by_cases h1t : (tg == "") = true
    · simp only [h1t, if_true] at hcond
      have hhead : ∃ M0, ∀ m, M0 ≤ m →
          decode m (zeroVal ty) (encode w') = some w' := by
        rcases hrelH with hrelH | hrelH
        · have hw' : w' = stampF p w := by simpa using hrelH
          rw [hw', stampF_plain_id p w hcond]
          obtain ⟨M0, h0⟩ := decode_encode_plain w (zeroVal (typeOf w))
            hcond (conformsT_zeroVal w hcond)
          exact ⟨M0, fun m hm => by rw [← htyw]; exact h0 m hm⟩
        · cases w with
          | prim q =>
            cases w' with
            | prim dv =>
              have hk : kindOf dv = kindOf q := by
                simpa [primOverride] using hrelH
              refine ⟨1, ?_⟩
              intro m hm
              cases m with
              | zero => exact absurd hm (by omega)
              | succ m' =>
                rw [← htyw]
                exact decode_prim_prim _ dv (by rw [kindOf_zeroPrim, hk]) m'
            | _ => simp [primOverride] at hrelH
          | _ => simp [primOverride] at hrelH
      obtain ⟨M0, h0⟩ := hhead
      refine ⟨max M0 M1, ?_⟩
      intro m hm
      simp [prepFields, h1t, decodeFieldsWith, hlkH,
        h0 m (le_trans (le_max_left _ _) hm),
        h1 m (le_trans (le_max_right _ _) hm)]
    · by_cases h2t : (jsonFieldName tg == "") = true
      · simp only [h1t, if_false, h2t, if_true] at hcond
        have hhead : ∃ M0, ∀ m, M0 ≤ m →
            decode m (zeroVal ty) (encode w') = some w' := by
          rcases hrelH with hrelH | hrelH
          · have hw' : w' = stampF p w := by simpa using hrelH
            rw [hw', stampF_plain_id p w hcond]
            obtain ⟨M0, h0⟩ := decode_encode_plain w (zeroVal (typeOf w))
              hcond (conformsT_zeroVal w hcond)
            exact ⟨M0, fun m hm => by rw [← htyw]; exact h0 m hm⟩
          · cases w with
            | prim q =>
              cases w' with
              | prim dv =>
                have hk : kindOf dv = kindOf q := by
                  simpa [primOverride] using hrelH
                refine ⟨1, ?_⟩
                intro m hm
                cases m with
                | zero => exact absurd hm (by omega)
                | succ m' =>
                  rw [← htyw]
                  exact decode_prim_prim _ dv (by rw [kindOf_zeroPrim, hk]) m'
              | _ => simp [primOverride] at hrelH
            | _ => simp [primOverride] at hrelH
        obtain ⟨M0, h0⟩ := hhead
        refine ⟨max M0 M1, ?_⟩
        intro m hm
        simp [prepFields, h1t, h2t, decodeFieldsWith, hlkH,
          h0 m (le_trans (le_max_left _ _) hm),
          h1 m (le_trans (le_max_right _ _) hm)]
      · simp only [h1t, if_false, h2t, if_false] at hcond
        have hhead : ∃ M0, ∀ m, M0 ≤ m →
            decode m (prepVal p w) (encode w') = some w' := by
          rcases hrelH with hrelH | hrelH
          · have hw' : w' = stampF p w := by simpa using hrelH
            rw [hw']
            exact decode_prep p w hcond
          · cases w with
            | prim q =>
              cases w' with
              | prim dv =>
                have hk : kindOf dv = kindOf q := by
                  simpa [primOverride] using hrelH
                refine ⟨1, ?_⟩
                intro m hm
                cases m with
                | zero => exact absurd hm (by omega)
                | succ m' =>
                  rw [prepVal]
                  exact decode_prim_prim _ dv (by rw [zeroOfPrim,
                    kindOf_zeroPrim, hk]) m'
              | _ => simp [primOverride] at hrelH
            | _ => simp [primOverride] at hrelH
        obtain ⟨M0, h0⟩ := hhead
        refine ⟨max M0 M1, ?_⟩
        intro m hm
        simp [prepFields, h1t, h2t, decodeFieldsWith, hlkH,
          h0 m (le_trans (le_max_left _ _) hm),
          h1 m (le_trans (le_max_right _ _) hm)]

/-- Decoding the encoded stamped elements into the prepared elements
yields the stamped elements. -/
theorem decode_prep_elems (p : Poly) :
    ∀ (t : GoType) (es : Vals), rtElemsWF p t es = true →
      ∃ M, ∀ m, M ≤ m →
        decodeElemsWith (decode m) (zeroVal t) (prepElems p es)
          (encodeElems (stampEs p es)) = some (stampEs p es)
  | _, .nil, _ => ⟨0, fun _ _ => rfl⟩
  | t, .cons w ws, hrt => by
    simp only [rtElemsWF, Bool.and_eq_true] at hrt
    obtain ⟨⟨_, hrw⟩, htail⟩ := hrt
    obtain ⟨M0, h0⟩ := decode_prep p w hrw
    obtain ⟨M1, h1⟩ := decode_prep_elems p t ws htail
    refine ⟨max M0 M1, ?_⟩
    intro m hm
    simp [prepElems, stampEs, encodeElems, decodeElemsWith,
      h0 m (le_trans (le_max_left _ _) hm),
      h1 m (le_trans (le_max_right _ _) hm)]
end

/-- The discriminant write preserves the struct shape. -/
theorem writeDisc_struct_shape (p : Poly) (k : String) (nm : String)
    (fds : TFields) (fs : Vals) :
    ∃ fs', writeDisc p k (.struct_ nm fds fs) = .struct_ nm fds fs' := by
  rw [writeDisc]
  cases hlk : p.lookupType k with
  | none => exact ⟨fs, rfl⟩
  | some entry =>
    cases hfm : firstMatch (typeOf (.struct_ nm fds fs)) entry.structTypes
        entry.structValues entry.structFieldPos with
    | none => simp only [hfm]; exact ⟨fs, rfl⟩
    | some dvfp =>
      obtain ⟨dv, fp⟩ := dvfp
      simp only [hfm]
      exact ⟨fs.set fp (.prim dv), rfl⟩

/-- The serialized document of a stamped round-trip well-formed
non-pointer value is never `null`. -/
theorem encode_stampF_ne_null (p : Poly) (v : GoVal) (hwf : rtWF p v = true)
    (hsh : notPtrShape v = true) : encode (stampF p v) ≠ .null := by
  cases v with
  | prim q => cases q <;> simp [stampF, encode]
  | struct_ nm fds fs => simp [stampF, encode]
  | slice t es => simp [stampF, encode]
  | ptr t w => simp [notPtrShape] at hsh
  | pnil t => simp [notPtrShape] at hsh
  | iface k held =>
    cases held with
    | ptr ct u =>
      cases u with
      | struct_ nm fds fs =>
        rw [stampF, stampF]
        obtain ⟨fs', hw⟩ := writeDisc_struct_shape p k nm fds (stampFs p fs)
        rw [hw]
        simp [encode]
      | prim q => cases hlk : p.lookupType k <;> simp [rtWF, hlk] at hwf
      | slice t es => cases hlk : p.lookupType k <;> simp [rtWF, hlk] at hwf
      | ptr t w => cases hlk : p.lookupType k <;> simp [rtWF, hlk] at hwf
      | pnil t => cases hlk : p.lookupType k <;> simp [rtWF, hlk] at hwf
      | iface k' w => cases hlk : p.lookupType k <;> simp [rtWF, hlk] at hwf
      | inil k' => cases hlk : p.lookupType k <;> simp [rtWF, hlk] at hwf
    | prim q => simp [rtWF] at hwf
    | struct_ nm fds fs => simp [rtWF] at hwf
    | slice t es => simp [rtWF] at hwf
    | pnil t => simp [rtWF] at hwf
    | iface k' w => simp [rtWF] at hwf
    | inil k' => simp [rtWF] at hwf
  | inil k => simp [rtWF] at hwf

/-- The entry call of the pre-encode pass dereferences the root pointer
and recurses addressably into the pointee. -/
theorem marshal_root_aux (p : Poly) (v : GoVal) (hsh : notPtrShape v = true)
    (n' : Nat) :
    beforeMarshalJSONValue p (n' + 1) false (.ptr (typeOf v) v) true =
      (.ptr (typeOf v) (beforeMarshalJSONValue p (n' + 1) true v true).1,
        (beforeMarshalJSONValue p (n' + 1) true v true).2) := by
  cases v with
  | prim q => rfl
  | struct_ nm fds fs => rfl
  | slice t es => rfl
  | ptr t w => simp [notPtrShape] at hsh
  | pnil t => simp [notPtrShape] at hsh
  | iface k w => rfl
  | inil k => rfl

/-- The entry call of the pre-decode pass dereferences the root pointer
and recurses addressably into the pointee with the empty path. -/
theorem unmarshal_root_aux (p : Poly) (buf : JValue) (t : GoType)
    (z : GoVal) (hsh : notPtrShape z = true) (n' : Nat) :
    beforeUnmarshalJSONValue p buf (n' + 1) [] false (.ptr t z) true =
      (.ptr t (beforeUnmarshalJSONValue p buf (n' + 1) [] true z true).1,
        (beforeUnmarshalJSONValue p buf (n' + 1) [] true z true).2) := by
  cases z with
  | prim q => rfl
  | struct_ nm fds fs => rfl
  | slice t' es => rfl
  | ptr t' w => simp [notPtrShape] at hsh
  | pnil t' => simp [notPtrShape] at hsh
  | iface k w => rfl
  | inil k => rfl

/-- C2 (amended): for a registered interface with bindings whose
discriminant values survive the JSON round trip (JSON-stable: strings,
floats, booleans — not ints), and a round-trip well-formed value `v`
(every interface slot holds a non-nil pointer to a bound struct whose
first type-match's stable discriminant value resolves back, by first
value-match, to the same struct type), the full pipeline behind a root
pointer — strict pre-encode pass, external serialization, strict
pre-decode pass into a fresh zero value, external decode — succeeds and
yields exactly the stamped tree `stampF p v`: every held instance keeps
its concrete type, its discriminant field holds the matched binding's
value, and all its other fields equal the original's. -/
theorem claim2_amended_round_trip (p : Poly) (v : GoVal)
    (hwf : rtWF p v = true) (hshape : notPtrShape v = true) :
    ∃ N, ∀ n, N ≤ n →
      BeforeMarshalJSON p n (.ptr (typeOf v) v) true =
        (.ptr (typeOf v) (stampF p v), .ok) ∧
      BeforeUnmarshalJSON p n (encode (stampF p v))
          (.ptr (typeOf v) (zeroVal (typeOf v))) true =
        (.ptr (typeOf v) (prepVal p v), .ok) ∧
      decode n (.ptr (typeOf v) (prepVal p v)) (encode (stampF p v)) =
        some (.ptr (typeOf v) (stampF p v)) := by
  obtain ⟨N1, h1⟩ := marshal_rt p v hwf
  obtain ⟨N2, h2⟩ := unmarshal_prep p (encode (stampF p v)) v [] hwf
    (fun _ => rfl)
  obtain ⟨N3, h3⟩ := decode_prep p v hwf
  have hzsh : notPtrShape (zeroVal (typeOf v)) = true := by
    cases v with
    | prim q => rfl
    | struct_ nm fds fs => rfl
    | slice t es => rfl
    | ptr t w => simp [notPtrShape] at hshape
    | pnil t => simp [notPtrShape] at hshape
    | iface k w => rfl
    | inil k => rfl
  have hnn : encode (stampF p v) ≠ .null := encode_stampF_ne_null p v hwf hshape
  refine ⟨N1 + N2 + N3 + 1, ?_⟩
  intro n hn
  cases n with
  | zero => exact absurd hn (by omega)
  | succ n' =>
    refine ⟨?_, ?_, ?_⟩
    · rw [BeforeMarshalJSON, marshal_root_aux p v hshape n',
        h1 (n' + 1) (by omega) true]
    · rw [BeforeUnmarshalJSON,
        unmarshal_root_aux p (encode (stampF p v)) (typeOf v)
          (zeroVal (typeOf v)) hzsh n',
        h2 (n' + 1) (by omega)]
    · have hd := h3 n' (by omega)
      cases hje : encode (stampF p v) with
      | null => exact absurd hje hnn
      | str s => rw [hje] at hd; simp only [decode, hd]
      | num q => rw [hje] at hd; simp only [decode, hd]
      | jbool b => rw [hje] at hd; simp only [decode, hd]
      | obj kvs => rw [hje] at hd; simp only [decode, hd]
      | arr js => rw [hje] at hd; simp only [decode, hd]

/-- C2 counterexample: with the `int` value `1` bound as the
discriminant, the pre-encode pass succeeds and stamps `1`, but the
pre-decode pass on the serialized bytes fails to resolve the type — the
path query hands the number back as a `float64`, which compares unequal
to the registered `int` — so no instance of the bound type is produced
and the round trip of the unamended claim fails. -/
theorem claim2_counterexample :
    BeforeMarshalJSON intPoly 6 (.ptr (typeOf intReqVal) intReqVal) true =
      (.ptr (typeOf intReqVal) intStamped, .ok) ∧
    BeforeUnmarshalJSON intPoly 6 intBuf
        (.ptr (typeOf intReqVal) (zeroVal (typeOf intReqVal))) true =
      (.ptr (typeOf intReqVal) (.inil sKey),
        .err (errCannotResolve sKey "type" (renderJSON intBuf))) := by
  decide

/-- C2 witness: the repository's test scenario — a `Request` holding a
`Circle` via `Shape` under the string-valued registry — satisfies the
amended round trip. -/
theorem claim2_amended_witness :
    rtWF testPoly rtReqVal = true ∧ notPtrShape rtReqVal = true ∧
    (∃ N, ∀ n, N ≤ n →
      BeforeMarshalJSON testPoly n (.ptr (typeOf rtReqVal) rtReqVal) true =
        (.ptr (typeOf rtReqVal) (stampF testPoly rtReqVal), .ok) ∧
      BeforeUnmarshalJSON testPoly n (encode (stampF testPoly rtReqVal))
          (.ptr (typeOf rtReqVal) (zeroVal (typeOf rtReqVal))) true =
        (.ptr (typeOf rtReqVal) (prepVal testPoly rtReqVal), .ok) ∧
      decode n (.ptr (typeOf rtReqVal) (prepVal testPoly rtReqVal))
          (encode (stampF testPoly rtReqVal)) =
        some (.ptr (typeOf rtReqVal) (stampF testPoly rtReqVal))) :=
  ⟨by decide, by decide,
    claim2_amended_round_trip testPoly rtReqVal (by decide) (by decide)⟩

end PolyModel
